import Mathlib

/-!
Verification development for the dsci-faculty-vis repository.

The two programs under study are build_graph2.py (the merged Scholar +
OpenAlex build) and build_graph.py (the OpenAlex-only build).  Both are
single-pass batch computations over already-collected JSON records, so they
embed directly as pure functions over lists of records.

Modelling conventions, used consistently below:
- Python dicts are insertion-ordered association lists (`List (key × value)`)
  with first-touch insertion order, matching CPython dict semantics;
  `d[k] = v` keeps the position of an existing key.
- Python sets are modelled as duplicate-free lists in first-insertion order.
  CPython iterates string sets in hash order; every set in these programs is
  either only tested for membership / length, or its iteration order feeds a
  stable sort or a bounded sample, so first-insertion order is the
  deterministic stand-in used here.
- Python floats are modelled as exact rationals.  Every number the programs
  produce is a small rational (tenths after the weight rounding, thousandths
  after the share rounding), and `round(x, n)` is modelled exactly on
  rationals (`pyRound`); Python rounds the nearest double half-to-even,
  which agrees with this model away from exact half-way points of the last
  kept digit, and no value in the claims sits on such a boundary.
- A JSON field that the code reads with `d.get(k, default)` is modelled with
  an `Option` (or a defaulted value); truthiness tests (`if fac["openalex_id"]:`)
  are modelled by `truthyStr` and friends.  A separate raw model in namespace
  `RawModel` distinguishes absent keys from null values in order to settle
  the error-handling claim.
-/

namespace FacultyVis

/-- Python string truthiness for a nullable string field: `None` and the empty
string are falsy. -/
def truthyStr : Option String → Bool
  | none => false
  | some s => !(s == "")

/-- Python truthiness for a nullable integer count field: `None` and `0` are
falsy. -/
def truthyNat : Option Nat → Bool
  | none => false
  | some n => !(n == 0)

/-- Lookup in an insertion-ordered association list (Python `d.get(k)` /
`k in d`). -/
def dfind {α β : Type} [DecidableEq α] (m : List (α × β)) (k : α) : Option β :=
  match m with
  | [] => none
  | (k2, v) :: rest => if k2 = k then some v else dfind rest k

/-- Python `d[k] = v`: update in place if the key exists, else append. -/
def dset {α β : Type} [DecidableEq α] (m : List (α × β)) (k : α) (v : β) : List (α × β) :=
  match m with
  | [] => [(k, v)]
  | (k2, v2) :: rest => if k2 = k then (k2, v) :: rest else (k2, v2) :: dset rest k v

/-- Python `defaultdict` mutation `f(d[k])`: modify the entry in place if the
key exists, else append the modified default. -/
def dmod {α β : Type} [DecidableEq α] (m : List (α × β)) (k : α) (dflt : β) (f : β → β) :
    List (α × β) :=
  match m with
  | [] => [(k, f dflt)]
  | (k2, v2) :: rest => if k2 = k then (k2, f v2) :: rest else (k2, v2) :: dmod rest k dflt f

/-- Python `set.add`: append if not already present. -/
def sadd {α : Type} [DecidableEq α] (s : List α) (x : α) : List α :=
  if x ∈ s then s else s ++ [x]

/-- Python `set.update(xs)`. -/
def supdate {α : Type} [DecidableEq α] (s : List α) (xs : List α) : List α :=
  xs.foldl sadd s

/-- Python `s1 & s2` on sets, iterated in the insertion order of `s1`. -/
def sinter {α : Type} [DecidableEq α] (a b : List α) : List α :=
  a.filter (fun x => decide (x ∈ b))

/-- Enumeration `for i, n1 in enumerate(names): for n2 in names[i+1:]` of the
unordered pairs of a list. -/
def pairsOf {α : Type} : List α → List (α × α)
  | [] => []
  | x :: xs => xs.map (fun y => (x, y)) ++ pairsOf xs

/-- Lexicographic strict comparison of char lists by code point, as Python
compares strings. -/
def charsLt : List Char → List Char → Bool
  | [], [] => false
  | [], _ :: _ => true
  | _ :: _, [] => false
  | a :: as2, b :: bs => if a = b then charsLt as2 bs else decide (a < b)

/-- Python `a < b` on strings. -/
def strLt (a b : String) : Bool := charsLt a.data b.data

/-- Python `a <= b` on strings. -/
def strLe (a b : String) : Bool := strLt a b || a == b

/-- Python `tuple(sorted([a, b]))`: the canonical name-sorted pair key. -/
def sortPair (a b : String) : String × String :=
  if strLe a b then (a, b) else (b, a)

/-- Stable insertion of one element into a list from the left: the new element
goes after every existing element `y` with `le y x`. -/
def insertLe {α : Type} (le : α → α → Bool) (x : α) : List α → List α
  | [] => [x]
  | y :: ys => if le y x then y :: insertLe le x ys else x :: y :: ys

/-- Stable sort with respect to a boolean total preorder, modelling Python
`sorted` / `list.sort` (stable by specification). -/
def sortByLe {α : Type} (le : α → α → Bool) (l : List α) : List α :=
  l.foldl (fun acc x => insertLe le x acc) []

/-- Exact-match first-seen-order deduplication with an explicit seen set
(the `seen` loop in the dedupe passes). -/
def dedupSeen {α : Type} [DecidableEq α] (seen : List α) : List α → List α
  | [] => []
  | x :: xs => if x ∈ seen then dedupSeen seen xs else x :: dedupSeen (seen ++ [x]) xs

/-- The dedupe pass `[p for p in papers if p not in seen and not seen.add(p)]`. -/
def dedupFirstSeen {α : Type} [DecidableEq α] (l : List α) : List α := dedupSeen [] l

/-- Model of Python `round` on an exact rational, to the nearest integer
(half-way points go up; CPython goes to even on doubles, and no half-way
point arises in the facts proved below). -/
def pyRound (x : ℚ) : ℤ := round x

/-- Python `round(x, 1)`. -/
def round1 (x : ℚ) : ℚ := (pyRound (x * 10) : ℚ) / 10

/-- Python `round(x, 3)`. -/
def round3 (x : ℚ) : ℚ := (pyRound (x * 1000) : ℚ) / 1000

/-- Python `" ".join(parts)`. -/
def joinSpace : List String → String
  | [] => ""
  | [s] => s
  | s :: rest => s ++ " " ++ joinSpace rest

/-- Python `s.lower()` (ASCII case folding; every keyword and every name in
the curated tables is ASCII). -/
def lowerStr (s : String) : String := ⟨s.data.map Char.toLower⟩

/-- Bool test of list-prefix on char lists. -/
def isPrefixL : List Char → List Char → Bool
  | [], _ => true
  | _ :: _, [] => false
  | a :: as2, b :: bs => decide (a = b) && isPrefixL as2 bs

/-- Bool test of list-infix on char lists. -/
def isInfixL (kw : List Char) : List Char → Bool
  | [] => kw.isEmpty
  | c :: rest => isPrefixL kw (c :: rest) || isInfixL kw rest

/-- Python `kw in text` substring containment. -/
def containsSub (text kw : String) : Bool := isInfixL kw.data text.data

end FacultyVis

namespace FacultyVis

/-- One entry of a `topics` list; only the `name` field is ever read. -/
structure Topic where
  name : String
deriving DecidableEq, Repr

/-- One entry of a `concepts` list; only the `name` field is ever read. -/
structure Concept where
  name : String
deriving DecidableEq, Repr

/-- One entry of a per-work `authors` list; only the `id` field is ever read. -/
structure WAuthor where
  id : String
deriving DecidableEq, Repr

/-- One OpenAlex work record, with the fields the graph builders read.
Nullable JSON fields are `Option`. -/
structure Work where
  title : Option String
  year : Option Int
  journal : Option String
  authors : List WAuthor
  referenced_works : List String
  primary_topic : Option String
  concepts : List Concept
deriving DecidableEq, Repr

/-- One per-faculty record of data/faculty.json (OpenAlex side). -/
structure OAFaculty where
  name : String
  openalex_id : Option String
  works_count : Int
  cited_by_count : Int
  topics : List Topic
  works : List Work
deriving DecidableEq, Repr

/-- One entry of a Scholar `coauthors` list; read via `ca.get("scholar_id", "")`. -/
structure SCoauthor where
  scholar_id : Option String
deriving DecidableEq, Repr

/-- One per-faculty record of data/scholar.json.  The `error` field models the
presence of an `"error"` key on failed fetches (`"error" not in s`). -/
structure ScholarFaculty where
  name : String
  scholar_id : Option String
  citedby : Int
  hindex : Int
  interests : List String
  coauthors : List SCoauthor
  error : Option String
deriving DecidableEq, Repr

/-- One entry of data/website_papers.json as read by build_graph2.main. -/
structure WebsitePair where
  source : String
  target : String
deriving DecidableEq, Repr

/-- One `{"area": ..., "share": ...}` entry of an area distribution. -/
structure AreaShare where
  area : String
  share : ℚ
deriving DecidableEq, Repr

end FacultyVis

namespace BuildGraph2

open FacultyVis

/-- AREA_KEYWORDS of build_graph2.py, in declaration order. -/
def AREA_KEYWORDS : List (String × List String) :=
  [ ("Political Science",
      [ "political", "politic", "election", "voting", "legislative",
        "congress", "democrat", "governance", "public policy",
        "political economy", "political theory", "legislature",
        "redistricting", "gerrymander", "accountability" ]),
    ("NLP / Computational",
      [ "natural language", "nlp", "computational linguist",
        "text mining", "sentiment", "machine learning",
        "artificial intelligence", "deep learning",
        "information retrieval", "language model", "narratolog",
        "conversational", "dialogue", "named entity" ]),
    ("Statistics / Causal Inference",
      [ "causal", "statistic", "bayesian", "econometric",
        "regression", "inference", "estimation", "semiparametric",
        "high dimensional", "time series", "actuarial",
        "functional data", "clustering", "survey",
        "measurement", "methodology", "propensity" ]),
    ("Digital Humanities",
      [ "digital humanit", "humanities", "literary",
        "cultural", "history", "text as data",
        "data feminism", "rhetoric", "writing",
        "publishing", "visualization", "archive" ]),
    ("Biology / Neuroscience",
      [ "biolog", "neuro", "animal", "behavio",
        "ecolog", "brain", "genome", "evolution",
        "cognitive", "species", "phenotyp" ]),
    ("Sociology / Public Health",
      [ "sociolog", "health", "epidemiol",
        "inequality", "immigra", "food",
        "nutrition", "anthropol", "demograph",
        "family", "gender", "marriage", "migration",
        "stratification", "sport", "injur" ]),
    ("Computer Vision",
      [ "computer vision", "image", "3d", "body scan",
        "mesh", "reconstruction", "rendering", "visual",
        "object detection", "segmentation", "pose" ]) ]

/-- MANUAL_AREAS of build_graph2.py: curated relative weights per name. -/
def MANUAL_AREAS : List (String × List (String × ℚ)) :=
  [ ("Weihua An", [("Statistics / Causal Inference", 3), ("Sociology / Public Health", 2)]),
    ("Adam Glynn", [("Statistics / Causal Inference", 3), ("Political Science", 2)]),
    ("Kevin Quinn", [("Statistics / Causal Inference", 3), ("Political Science", 2)]),
    ("Clifford Carrubba", [("Political Science", 4), ("Statistics / Causal Inference", 1)]),
    ("John W. Patty", [("Political Science", 3), ("Statistics / Causal Inference", 1)]),
    ("Maggie Penn", [("Political Science", 3), ("Statistics / Causal Inference", 1)]),
    ("Hun Chung", [("Political Science", 3), ("Statistics / Causal Inference", 1)]),
    ("Lauren Klein", [("Digital Humanities", 3), ("NLP / Computational", 1)]),
    ("Sandeep Soni", [("NLP / Computational", 3), ("Digital Humanities", 1)]),
    ("Alexander Tolbert", [("NLP / Computational", 2), ("Digital Humanities", 2)]),
    ("Benjamin J. Miller", [("Digital Humanities", 2), ("NLP / Computational", 2)]),
    ("Jo Guldi", [("Digital Humanities", 3), ("Political Science", 1)]),
    ("Craig Hadley", [("Sociology / Public Health", 4)]),
    ("David Hirshberg", [("Statistics / Causal Inference", 3), ("Computer Vision", 1)]),
    ("Ruoxuan Xiong", [("Statistics / Causal Inference", 4)]),
    ("Allison Stashko", [("Political Science", 2), ("Statistics / Causal Inference", 2)]),
    ("Luis Martinez", [("Political Science", 3), ("Statistics / Causal Inference", 1)]),
    ("Pablo Montagnes", [("Political Science", 3), ("Statistics / Causal Inference", 1)]),
    ("Zachary Peskowitz", [("Political Science", 4), ("Statistics / Causal Inference", 1)]),
    ("Zachary Binney", [("Sociology / Public Health", 3), ("Statistics / Causal Inference", 1)]),
    ("Gordon Berman", [("Biology / Neuroscience", 3), ("NLP / Computational", 1)]),
    ("Michal Arbilly", [("Biology / Neuroscience", 4)]),
    ("Jinho Choi", [("NLP / Computational", 4)]),
    ("Danilo Freire", [("Political Science", 3), ("Statistics / Causal Inference", 1)]),
    ("Alejandro Sanchez Becerra", [("Statistics / Causal Inference", 3), ("Political Science", 1)]),
    ("Gregory Palermo", [("Digital Humanities", 4)]),
    ("Dan Sinykin", [("Digital Humanities", 3), ("NLP / Computational", 1)]),
    ("Nathan Hoffmann", [("Sociology / Public Health", 3), ("Statistics / Causal Inference", 1)]),
    ("Heeju Sohn", [("Sociology / Public Health", 4)]),
    ("Megan Reed", [("Sociology / Public Health", 4)]),
    ("Ho Jin Kim", [("Biology / Neuroscience", 3), ("Statistics / Causal Inference", 1)]),
    ("Zhiyun Gong", [("Statistics / Causal Inference", 4)]),
    ("Abhishek Ananth", [("Statistics / Causal Inference", 3), ("Sociology / Public Health", 1)]),
    ("Kevin McAlister", [("Political Science", 3), ("Statistics / Causal Inference", 1)]),
    ("Jacopo Di Iorio", [("Statistics / Causal Inference", 4)]) ]

/-- FACULTY_WEBSITES of build_graph2.py. -/
def FACULTY_WEBSITES : List (String × String) :=
  [ ("Weihua An", "https://www.weihuaan.net/"),
    ("Adam Glynn", "https://www.adamnglynn.com/"),
    ("John W. Patty", "https://www.johnwpatty.net/"),
    ("Maggie Penn", "https://www.elizabethmpenn.com/"),
    ("Hun Chung", "http://hunchung.com/"),
    ("Lauren Klein", "https://lklein.com/"),
    ("Sandeep Soni", "https://sandeepsoni.github.io/"),
    ("Alexander Tolbert", "https://www.alexanderwilliamstolbert.com/"),
    ("Benjamin J. Miller", "https://benmiller.mit.edu/"),
    ("Jo Guldi", "https://www.joguldi.com/"),
    ("David Hirshberg", "https://davidahirshberg.bitbucket.io/"),
    ("Ruoxuan Xiong", "https://www.ruoxuanxiong.com/"),
    ("Allison Stashko", "https://sites.google.com/view/allisonstashko/home"),
    ("Luis Martinez", "https://sites.google.com/site/lrmartineza"),
    ("Pablo Montagnes", "https://www.pablomontagnes.com/"),
    ("Zachary Peskowitz", "https://www.zacharypeskowitz.com/"),
    ("Zachary Binney", "https://zachbinney.com/"),
    ("Gordon Berman", "https://faculty.college.emory.edu/sites/berman/"),
    ("Michal Arbilly", "https://michalarbilly.com/"),
    ("Jinho Choi", "https://www.emorynlp.org/"),
    ("Danilo Freire", "https://danilofreire.github.io/"),
    ("Alejandro Sanchez Becerra", "https://sites.google.com/site/sanchezbecerraalejandro/home"),
    ("Gregory Palermo", "http://gregorypalermo.org/"),
    ("Dan Sinykin", "http://www.dansinykin.com/"),
    ("Nathan Hoffmann", "https://nathanhoffmann.com/"),
    ("Heeju Sohn", "https://www.heejusohn.com/"),
    ("Megan Reed", "https://sites.google.com/view/meganreed/"),
    ("Abhishek Ananth", "https://abhiananthecon.github.io/"),
    ("Kevin McAlister", "http://www.kevinmcalister.org/") ]

/-- Text corpus assembly of compute_area_distribution: profile interests, tag
names, and a bounded sample of each work of the first 30 with its primary
topic (when truthy) and its first 5 concept names. -/
def textParts (openalex_fac : Option OAFaculty) (scholar_fac : Option ScholarFaculty) :
    List String :=
  (match scholar_fac with
   | some s => if s.interests.isEmpty then [] else s.interests
   | none => []) ++
  (match openalex_fac with
   | some oa =>
     oa.topics.map (fun t => t.name) ++
     (oa.works.take 30).flatMap (fun w =>
       (match w.primary_topic with
        | some p => if p = "" then [] else [p]
        | none => []) ++
       (w.concepts.take 5).map (fun c => c.name))
   | none => [])

/-- Keyword score of one area against the lowercased corpus:
`sum(1 for kw in keywords if kw in text)`. -/
def areaScore (text : String) (keywords : List String) : Nat :=
  (keywords.filter (fun kw => containsSub text kw)).length

/-- The per-area score dict, in AREA_KEYWORDS declaration order, keeping only
positive scores. -/
def areaScores (text : String) : List (String × Nat) :=
  AREA_KEYWORDS.filterMap (fun p =>
    let score := areaScore text p.2
    if score > 0 then some (p.1, score) else none)

/-- The text-scoring tail of compute_area_distribution: normalise positive
scores to shares, round to three decimals, drop slices below 8 percent, and
renormalise (rounding again). -/
def textDist (scores : List (String × Nat)) : List AreaShare :=
  let total : ℚ := (scores.map (fun p => (p.2 : ℚ))).sum
  let dist := (sortByLe (fun a b => decide (b.2 ≤ a.2)) scores).map
    (fun p => { area := p.1, share := round3 ((p.2 : ℚ) / total) : AreaShare })
  let dist2 := dist.filter (fun d => decide (d.share ≥ (0.08 : ℚ)))
  let total2 : ℚ := (dist2.map (fun d => d.share)).sum
  dist2.map (fun d => { d with share := round3 (d.share / total2) })

/-- compute_area_distribution of build_graph2.py.  The two record arguments
are `None` when `scholar_by_name.get(name, {})` / `oa_by_name.get(name, {})`
produced the falsy empty dict. -/
def compute_area_distribution (name : String) (openalex_fac : Option OAFaculty)
    (scholar_fac : Option ScholarFaculty) : List AreaShare :=
  match dfind MANUAL_AREAS name with
  | some raw =>
    let total : ℚ := (raw.map (fun p => p.2)).sum
    (sortByLe (fun a b => decide (b.2 ≤ a.2)) raw).map
      (fun p => { area := p.1, share := round3 (p.2 / total) })
  | none =>
    let text := lowerStr (joinSpace (textParts openalex_fac scholar_fac))
    if text = "" then [{ area := "Statistics / Causal Inference", share := 1 }]
    else
      let scores := areaScores text
      if scores = [] then [{ area := "Statistics / Causal Inference", share := 1 }]
      else textDist scores

end BuildGraph2

namespace BuildGraph2

open FacultyVis

/-- The scholar_id to faculty-name index of build_scholar_coauthor_edges. -/
def sidToName (scholar_data : List ScholarFaculty) : List (String × String) :=
  scholar_data.foldl (fun idx fac =>
    match fac.scholar_id with
    | some sid => if sid = "" then idx else dset idx sid fac.name
    | none => idx) []

/-- build_scholar_coauthor_edges of build_graph2.py.  The defaultdict values
are the constant `{"scholar_coauthor": True}`, so the result is the list of
keys in first-touch order. -/
def build_scholar_coauthor_edges (scholar_data : List ScholarFaculty) :
    List (String × String) :=
  let sid_to_name := sidToName scholar_data
  scholar_data.foldl (fun edges fac =>
    if fac.coauthors.isEmpty then edges
    else fac.coauthors.foldl (fun edges2 ca =>
      let ca_sid := (ca.scholar_id).getD ""
      match dfind sid_to_name ca_sid with
      | some n => if n ≠ fac.name then
          (let key := sortPair fac.name n
           if key ∈ edges2 then edges2 else edges2 ++ [key])
        else edges2
      | none => edges2) edges) []

/-- Bad OpenAlex matches skipped inside build_openalex_edges. -/
def BAD : List String := ["Ho Jin Kim", "Kevin McAlister"]

/-- Accumulated co-authorship signal for one pair: raw tally and title list. -/
structure CoEntry where
  count : Nat
  papers : List String
deriving DecidableEq, Repr

/-- Shared-reference signal for one pair. -/
structure RefEntry where
  count : Nat
  top_ids : List String
deriving DecidableEq, Repr

/-- Shared-topic or shared-journal signal for one pair. -/
structure NamedEntry where
  count : Nat
  names : List String
deriving DecidableEq, Repr

/-- The OpenAlex author-id to name index of build_openalex_edges. -/
def authorIndex (openalex_data : List OAFaculty) : List (String × String) :=
  openalex_data.foldl (fun idx fac =>
    if truthyStr fac.openalex_id ∧ fac.name ∉ BAD then
      dset idx (fac.openalex_id.getD "") fac.name
    else idx) []

/-- The faculty co-authors of one work: author ids resolved through the index,
excluding the scanning faculty member. -/
def facultyCoauthors (author_index : List (String × String)) (facName : String)
    (work : Work) : List String :=
  (work.authors.map (fun a => a.id)).filterMap (fun aid =>
    match dfind author_index aid with
    | some n => if n ≠ facName then some n else none
    | none => none)

/-- One co-author increment: `count += 1`, and the title appended when truthy
and not already present. -/
def coStep (title : Option String) (e : CoEntry) : CoEntry :=
  let e2 : CoEntry := { e with count := e.count + 1 }
  match title with
  | some t => if t ≠ "" ∧ t ∉ e2.papers then { e2 with papers := e2.papers ++ [t] } else e2
  | none => e2

/-- The inner loop of the co-author accumulation: one work of one record. -/
def coWorkStep (author_index : List (String × String)) (facName : String)
    (acc2 : List ((String × String) × CoEntry)) (work : Work) :
    List ((String × String) × CoEntry) :=
  (facultyCoauthors author_index facName work).foldl (fun acc3 ca_name =>
    dmod acc3 (sortPair facName ca_name) { count := 0, papers := [] }
      (coStep work.title)) acc2

/-- The outer loop of the co-author accumulation: one record, skipped when it
has no truthy external id or is a known-bad match. -/
def coFacStep (author_index : List (String × String))
    (acc : List ((String × String) × CoEntry)) (fac : OAFaculty) :
    List ((String × String) × CoEntry) :=
  if ¬ (truthyStr fac.openalex_id = true) ∨ fac.name ∈ BAD then acc
  else fac.works.foldl (coWorkStep author_index fac.name) acc

/-- The raw (pre-dedupe) co-author accumulation loop of build_openalex_edges,
as a fold over faculty records. -/
def coauthorRaw (author_index : List (String × String)) (openalex_data : List OAFaculty) :
    List ((String × String) × CoEntry) :=
  openalex_data.foldl (coFacStep author_index) []

/-- The dedupe pass of build_openalex_edges: halve the double-counted tally
(rounding up) and deduplicate the title list. -/
def coauthorEdges (author_index : List (String × String)) (openalex_data : List OAFaculty) :
    List ((String × String) × CoEntry) :=
  (coauthorRaw author_index openalex_data).map (fun p =>
    (p.1, { count := (p.2.count + 1) / 2, papers := dedupFirstSeen p.2.papers }))

/-- Per-faculty union of referenced work ids, paired with the department-wide
citation frequency counter, built in one pass as in build_openalex_edges. -/
def refSetsFreq (openalex_data : List OAFaculty) :
    List (String × List String) × List (String × Nat) :=
  openalex_data.foldl (fun acc fac =>
    if fac.works.isEmpty ∨ fac.name ∈ BAD then acc
    else
      let refs := fac.works.foldl (fun s w => supdate s w.referenced_works) []
      if refs.isEmpty then acc
      else (dset acc.1 fac.name refs, refs.foldl (fun f r => dmod f r 0 (fun n => n + 1)) acc.2))
    ([], [])

/-- Shared-reference edges: pairs with at least 3 shared reference ids, with
the top 15 shared ids ranked by department-wide citation frequency
(stable descending sort). -/
def sharedRefEdges (openalex_data : List OAFaculty) :
    List ((String × String) × RefEntry) :=
  let rsf := refSetsFreq openalex_data
  let ref_sets := rsf.1
  let ref_frequency := rsf.2
  (pairsOf (ref_sets.map (fun p => p.1))).foldl (fun edges pr =>
    let overlap := sinter ((dfind ref_sets pr.1).getD []) ((dfind ref_sets pr.2).getD [])
    if overlap.length ≥ 3 then
      let top_ids := (sortByLe (fun a b =>
        decide ((dfind ref_frequency b).getD 0 ≤ (dfind ref_frequency a).getD 0)) overlap).take 15
      dset edges (sortPair pr.1 pr.2) { count := overlap.length, top_ids := top_ids }
    else edges) []

/-- Per-faculty topic label set: profile topic names plus truthy primary
topics of the first 30 works. -/
def topicSets (openalex_data : List OAFaculty) : List (String × List String) :=
  openalex_data.foldl (fun ts fac =>
    if fac.name ∈ BAD then ts
    else
      let topics := (fac.works.take 30).foldl (fun s w =>
          match w.primary_topic with
          | some p => if p = "" then s else sadd s p
          | none => s)
        (fac.topics.foldl (fun s t => sadd s t.name) [])
      if topics.isEmpty then ts else dset ts fac.name topics) []

/-- Shared-topic edges: pairs with at least 2 shared labels, keeping up to 10
example labels. -/
def sharedTopicEdges (openalex_data : List OAFaculty) :
    List ((String × String) × NamedEntry) :=
  let topic_sets := topicSets openalex_data
  (pairsOf (topic_sets.map (fun p => p.1))).foldl (fun edges pr =>
    let overlap := sinter ((dfind topic_sets pr.1).getD []) ((dfind topic_sets pr.2).getD [])
    if overlap.length ≥ 2 then
      dset edges (sortPair pr.1 pr.2) { count := overlap.length, names := overlap.take 10 }
    else edges) []

/-- NOT_JOURNALS of build_graph2.py: preprint servers, repositories, and
generic imprints excluded from the shared-journal signal. -/
def NOT_JOURNALS : List String :=
  [ "SSRN Electronic Journal",
    "arXiv (Cornell University)",
    "Harvard Dataverse",
    "Figshare",
    "PubMed",
    "Europe PMC (PubMed Central)",
    "RePEc: Research Papers in Economics",
    "ICPSR Data Holdings",
    "Zenodo (CERN European Organization for Nuclear Research)",
    "Deep Blue (University of Michigan)",
    "eCommons (Cornell University)",
    "HAL (Le Centre pour la Communication Scientifique Directe)",
    "Research Square (Research Square)",
    "Oxford University Press eBooks",
    "Cambridge University Press eBooks",
    "Lecture notes in computer science",
    "DH" ]

/-- Per-faculty journal label set, excluding the NOT_JOURNALS denylist. -/
def journalSets (openalex_data : List OAFaculty) : List (String × List String) :=
  openalex_data.foldl (fun js fac =>
    if fac.name ∈ BAD then js
    else
      let journals := fac.works.foldl (fun s w =>
        match w.journal with
        | some j => if j ≠ "" ∧ j ∉ NOT_JOURNALS then sadd s j else s
        | none => s) []
      if journals.isEmpty then js else dset js fac.name journals) []

/-- Shared-journal edges: pairs with at least 2 shared venues, keeping up to
10 example venues. -/
def sharedJournalEdges (openalex_data : List OAFaculty) :
    List ((String × String) × NamedEntry) :=
  let journal_sets := journalSets openalex_data
  (pairsOf (journal_sets.map (fun p => p.1))).foldl (fun edges pr =>
    let overlap := sinter ((dfind journal_sets pr.1).getD []) ((dfind journal_sets pr.2).getD [])
    if overlap.length ≥ 2 then
      dset edges (sortPair pr.1 pr.2) { count := overlap.length, names := overlap.take 10 }
    else edges) []

/-- build_openalex_edges of build_graph2.py: the four work-derived signal
collections. -/
def build_openalex_edges (openalex_data : List OAFaculty) :
    List ((String × String) × CoEntry) × List ((String × String) × RefEntry) ×
    List ((String × String) × NamedEntry) × List ((String × String) × NamedEntry) :=
  (coauthorEdges (authorIndex openalex_data) openalex_data,
   sharedRefEdges openalex_data,
   sharedTopicEdges openalex_data,
   sharedJournalEdges openalex_data)

end BuildGraph2

namespace BuildGraph2

open FacultyVis

/-- The website co-authorship keys of main: one dict key per
`tuple(sorted([entry["source"], entry["target"]]))`, values constant True. -/
def websiteCoauthKeys (website_papers : List WebsitePair) : List (String × String) :=
  website_papers.foldl (fun keys e => sadd keys (sortPair e.source e.target)) []

/-- One fused edge record of main, with one optional field group per signal.
A `none` count models an absent JSON key. -/
structure Edge where
  source : String
  target : String
  scholar_coauthor : Bool := false
  website_coauthor : Bool := false
  coauthor_count : Option Nat := none
  coauthor_papers : List String := []
  shared_refs : Option Nat := none
  shared_ref_ids : List String := []
  shared_topics : Option Nat := none
  shared_topic_names : List String := []
  shared_journals : Option Nat := none
  shared_journal_names : List String := []
  weight : ℚ := 0
deriving DecidableEq, Repr

/-- The composite-weight block of main (before `round(w, 1)`):
10 per co-authored paper; a flat 15 for a Scholar-profile listing and a flat
15 for a website listing, each only when no co-author paper count is present;
shared references capped at 50; 2 per shared topic; 1.5 per shared journal. -/
def computeWeight (e : Edge) : ℚ :=
  let w0 : ℚ := 0
  let w1 := if truthyNat e.coauthor_count then w0 + (e.coauthor_count.getD 0 : ℚ) * 10 else w0
  let w2 := if e.scholar_coauthor ∧ truthyNat e.coauthor_count = false then w1 + 15 else w1
  let w3 := if e.website_coauthor ∧ truthyNat e.coauthor_count = false then w2 + 15 else w2
  let w4 := w3 + min ((e.shared_refs.getD 0 : ℚ)) 50
  let w5 := w4 + (e.shared_topics.getD 0 : ℚ) * 2
  let w6 := w5 + (e.shared_journals.getD 0 : ℚ) * (1.5 : ℚ)
  w6

/-- The names with a node: `set(MANUAL_AREAS.keys())`. -/
def all_names : List String := MANUAL_AREAS.map (fun p => p.1)

/-- The per-key edge construction of main: skip keys whose endpoints are not
both rostered, attach whichever signal fields are present, and set the
rounded composite weight. -/
def mkEdge (scholar_coauth : List (String × String))
    (website_coauth : List (String × String))
    (oa_coauth : List ((String × String) × CoEntry))
    (shared_refs : List ((String × String) × RefEntry))
    (shared_topics : List ((String × String) × NamedEntry))
    (shared_journals : List ((String × String) × NamedEntry))
    (key : String × String) : Option Edge :=
  if key.1 ∉ all_names ∨ key.2 ∉ all_names then none
  else
    let oc := dfind oa_coauth key
    let sr := dfind shared_refs key
    let st := dfind shared_topics key
    let sj := dfind shared_journals key
    let e : Edge :=
      { source := key.1, target := key.2,
        scholar_coauthor := decide (key ∈ scholar_coauth),
        website_coauthor := decide (key ∈ website_coauth),
        coauthor_count := oc.map (fun c => c.count),
        coauthor_papers := (oc.map (fun c => c.papers)).getD [],
        shared_refs := sr.map (fun r => r.count),
        shared_ref_ids := (sr.map (fun r => r.top_ids)).getD [],
        shared_topics := st.map (fun t => t.count),
        shared_topic_names := (st.map (fun t => t.names)).getD [],
        shared_journals := sj.map (fun j => j.count),
        shared_journal_names := (sj.map (fun j => j.names)).getD [],
        weight := 0 }
    some { e with weight := round1 (computeWeight e) }

/-- The combined key set of main: `all_keys` updated with the keys of each
signal collection in program order. -/
def allPairKeys (scholar_data : List ScholarFaculty) (openalex_data : List OAFaculty)
    (website_papers : List WebsitePair) : List (String × String) :=
  let scholar_coauth := build_scholar_coauthor_edges scholar_data
  let oa := build_openalex_edges openalex_data
  let website_coauth := websiteCoauthKeys website_papers
  supdate (supdate (supdate (supdate (supdate (supdate [] scholar_coauth)
    (oa.1.map (fun p => p.1))) website_coauth)
    (oa.2.1.map (fun p => p.1))) (oa.2.2.1.map (fun p => p.1)))
    (oa.2.2.2.map (fun p => p.1))

/-- The fused edge list of main: union of all signal keys, per-key edge
construction, the zero-weight drop, and the final stable sort descending by
weight. -/
def mainEdges (scholar_data : List ScholarFaculty) (openalex_data : List OAFaculty)
    (website_papers : List WebsitePair) : List Edge :=
  let scholar_coauth := build_scholar_coauthor_edges scholar_data
  let oa := build_openalex_edges openalex_data
  let website_coauth := websiteCoauthKeys website_papers
  let edges := ((allPairKeys scholar_data openalex_data website_papers).filterMap
      (mkEdge scholar_coauth website_coauth oa.1 oa.2.1 oa.2.2.1 oa.2.2.2)).filter
    (fun e => decide (e.weight > 0))
  sortByLe (fun a b => decide (b.weight ≤ a.weight)) edges

/-- One `top_pubs` entry. -/
structure Pub where
  title : String
  year : Option Int
deriving DecidableEq, Repr

/-- One output node of build_graph2.main. -/
structure Node where
  id : String
  scholar_id : Option String
  website : Option String
  citedby : Int
  hindex : Int
  interests : List String
  areas : List AreaShare
  primary_area : String
  has_profile : Bool
  top_pubs : List Pub
deriving DecidableEq, Repr

/-- The recent-publications loop of main: walk works newest first, keep
distinct truthy titles, and stop once 10 are collected. -/
def topPubsLoop : List Work → List String → List Pub → List Pub
  | [], _, acc => acc
  | w :: rest, seen, acc =>
    match w.title with
    | some t =>
      if t ≠ "" ∧ t ∉ seen then
        (if acc.length + 1 ≥ 10 then acc ++ [{ title := t, year := w.year }]
         else topPubsLoop rest (seen ++ [t]) (acc ++ [{ title := t, year := w.year }]))
      else topPubsLoop rest seen acc
    | none => topPubsLoop rest seen acc

/-- The `top_pubs` list of one node: works sorted by year descending
(missing years counted as 0), first 10 distinct truthy titles. -/
def topPubs (oa : Option OAFaculty) : List Pub :=
  match oa with
  | some f =>
    if f.works.isEmpty then []
    else topPubsLoop
      (sortByLe (fun w1 w2 => decide ((w2.year.getD 0) ≤ (w1.year.getD 0))) f.works) [] []
  | none => []

/-- One output node of main, assembled from the Scholar record, the OpenAlex
record, and the area distribution. -/
def mkNode (scholar_by_name : List (String × ScholarFaculty))
    (oa_by_name : List (String × OAFaculty)) (name : String) : Node :=
  let s := dfind scholar_by_name name
  let oa := dfind oa_by_name name
  let areas := compute_area_distribution name oa s
  { id := name,
    scholar_id := match s with | some sf => sf.scholar_id | none => none,
    website := dfind FACULTY_WEBSITES name,
    citedby := match s with | some sf => sf.citedby | none => 0,
    hindex := match s with | some sf => sf.hindex | none => 0,
    interests := match s with | some sf => sf.interests | none => [],
    areas := areas,
    primary_area := match areas with | a :: _ => a.area | [] => "Other",
    has_profile := match s with
      | some sf => truthyStr sf.scholar_id && sf.error.isNone
      | none => false,
    top_pubs := topPubs oa }

/-- The node list of main: one node per curated name, in ascending name
order. -/
def mainNodes (scholar_data : List ScholarFaculty) (openalex_data : List OAFaculty) :
    List Node :=
  let scholar_by_name := scholar_data.foldl (fun m s => dset m s.name s) []
  let oa_by_name := openalex_data.foldl (fun m f => dset m f.name f) []
  (sortByLe strLe all_names).map (mkNode scholar_by_name oa_by_name)

/-- The output graph document of build_graph2.main. -/
structure Graph where
  nodes : List Node
  edges : List Edge
deriving DecidableEq, Repr

/-- build_graph2.main as a pure function of the three input collections. -/
def buildGraph (scholar_data : List ScholarFaculty) (openalex_data : List OAFaculty)
    (website_papers : List WebsitePair) : Graph :=
  { nodes := mainNodes scholar_data openalex_data,
    edges := mainEdges scholar_data openalex_data website_papers }

/-- A valid set-enumeration order: one interpreter run iterates each hash set
in some order fixed by the process hash seed; the only cross-run guarantee is
that every enumeration is a permutation of the set. -/
def validEnum (α : Type) (enum : List α → List α) : Prop :=
  ∀ l : List α, (enum l).Perm l

/-- sharedRefEdges with set enumeration explicit: `sorted(overlap, ...)`
receives the overlap set in hash order, so frequency ties (and the top-15 cut
among tied ids) follow the enumeration. -/
def sharedRefEdgesE (enumS : List String → List String)
    (openalex_data : List OAFaculty) : List ((String × String) × RefEntry) :=
  let rsf := refSetsFreq openalex_data
  let ref_sets := rsf.1
  let ref_frequency := rsf.2
  (pairsOf (ref_sets.map (fun p => p.1))).foldl (fun edges pr =>
    let overlap := sinter ((dfind ref_sets pr.1).getD []) ((dfind ref_sets pr.2).getD [])
    if overlap.length ≥ 3 then
      let top_ids := (sortByLe (fun a b =>
        decide ((dfind ref_frequency b).getD 0 ≤ (dfind ref_frequency a).getD 0))
        (enumS overlap)).take 15
      dset edges (sortPair pr.1 pr.2) { count := overlap.length, top_ids := top_ids }
    else edges) []

/-- sharedTopicEdges with set enumeration explicit: `list(overlap)[:10]`
samples the overlap set in hash order. -/
def sharedTopicEdgesE (enumS : List String → List String)
    (openalex_data : List OAFaculty) : List ((String × String) × NamedEntry) :=
  let topic_sets := topicSets openalex_data
  (pairsOf (topic_sets.map (fun p => p.1))).foldl (fun edges pr =>
    let overlap := sinter ((dfind topic_sets pr.1).getD []) ((dfind topic_sets pr.2).getD [])
    if overlap.length ≥ 2 then
      dset edges (sortPair pr.1 pr.2)
        { count := overlap.length, names := (enumS overlap).take 10 }
    else edges) []

/-- sharedJournalEdges with set enumeration explicit. -/
def sharedJournalEdgesE (enumS : List String → List String)
    (openalex_data : List OAFaculty) : List ((String × String) × NamedEntry) :=
  let journal_sets := journalSets openalex_data
  (pairsOf (journal_sets.map (fun p => p.1))).foldl (fun edges pr =>
    let overlap := sinter ((dfind journal_sets pr.1).getD []) ((dfind journal_sets pr.2).getD [])
    if overlap.length ≥ 2 then
      dset edges (sortPair pr.1 pr.2)
        { count := overlap.length, names := (enumS overlap).take 10 }
    else edges) []

/-- build_openalex_edges with set enumeration explicit. -/
def build_openalex_edgesE (enumS : List String → List String)
    (openalex_data : List OAFaculty) :
    List ((String × String) × CoEntry) × List ((String × String) × RefEntry) ×
    List ((String × String) × NamedEntry) × List ((String × String) × NamedEntry) :=
  (coauthorEdges (authorIndex openalex_data) openalex_data,
   sharedRefEdgesE enumS openalex_data,
   sharedTopicEdgesE enumS openalex_data,
   sharedJournalEdgesE enumS openalex_data)

/-- The combined key set of main over the enumeration-explicit collections. -/
def allPairKeysE (enumS : List String → List String)
    (scholar_data : List ScholarFaculty) (openalex_data : List OAFaculty)
    (website_papers : List WebsitePair) : List (String × String) :=
  let scholar_coauth := build_scholar_coauthor_edges scholar_data
  let oa := build_openalex_edgesE enumS openalex_data
  let website_coauth := websiteCoauthKeys website_papers
  supdate (supdate (supdate (supdate (supdate (supdate [] scholar_coauth)
    (oa.1.map (fun p => p.1))) website_coauth)
    (oa.2.1.map (fun p => p.1))) (oa.2.2.1.map (fun p => p.1)))
    (oa.2.2.2.map (fun p => p.1))

/-- The fused edge list of main with set enumeration explicit: `for key in
all_keys` iterates the key set in hash order (enumK), and the detail lists
use the string-set order (enumS). -/
def mainEdgesE (enumS : List String → List String)
    (enumK : List (String × String) → List (String × String))
    (scholar_data : List ScholarFaculty) (openalex_data : List OAFaculty)
    (website_papers : List WebsitePair) : List Edge :=
  let scholar_coauth := build_scholar_coauthor_edges scholar_data
  let oa := build_openalex_edgesE enumS openalex_data
  let website_coauth := websiteCoauthKeys website_papers
  let edges := ((enumK (allPairKeysE enumS scholar_data openalex_data website_papers)).filterMap
      (mkEdge scholar_coauth website_coauth oa.1 oa.2.1 oa.2.2.1 oa.2.2.2)).filter
    (fun e => decide (e.weight > 0))
  sortByLe (fun a b => decide (b.weight ≤ a.weight)) edges

/-- The node list of main with set enumeration explicit:
`sorted(set(MANUAL_AREAS.keys()))` receives the roster set in hash order
before the full sort. -/
def mainNodesE (enumS : List String → List String)
    (scholar_data : List ScholarFaculty) (openalex_data : List OAFaculty) : List Node :=
  let scholar_by_name := scholar_data.foldl (fun m s => dset m s.name s) []
  let oa_by_name := openalex_data.foldl (fun m f => dset m f.name f) []
  (sortByLe strLe (enumS all_names)).map (mkNode scholar_by_name oa_by_name)

/-- build_graph2.main as a function of the three input collections and of the
set-enumeration order of the run (the hash seed). -/
def buildGraphE (enumS : List String → List String)
    (enumK : List (String × String) → List (String × String))
    (scholar_data : List ScholarFaculty) (openalex_data : List OAFaculty)
    (website_papers : List WebsitePair) : Graph :=
  { nodes := mainNodesE enumS scholar_data openalex_data,
    edges := mainEdgesE enumS enumK scholar_data openalex_data website_papers }

/-- The enumeration-independent skeleton of a fused edge: every field except
the three set-sampled detail lists. -/
def eSkel (e : Edge) : Edge :=
  { e with shared_ref_ids := [], shared_topic_names := [], shared_journal_names := [] }

/-- First record of the C8 scenario: a rostered entity with two profile
topics and no works. -/
def c8oA : OAFaculty :=
  { name := "Weihua An", openalex_id := some "A1", works_count := 0,
    cited_by_count := 0,
    topics := [{ name := "Social Networks" }, { name := "Causal Inference" }],
    works := [] }

/-- Second record of the C8 scenario: shares both topics with the first. -/
def c8oB : OAFaculty :=
  { name := "Adam Glynn", openalex_id := some "A2", works_count := 0,
    cited_by_count := 0,
    topics := [{ name := "Social Networks" }, { name := "Causal Inference" }],
    works := [] }

/-- The OpenAlex collection of the C8 scenario. -/
def c8o : List OAFaculty := [c8oA, c8oB]

/-- The single fused edge of the C8 scenario, parameterized by the sampled
topic detail list. -/
def c8edge (names : List String) : Edge :=
  { source := "Adam Glynn", target := "Weihua An",
    shared_topics := some 2, shared_topic_names := names, weight := 4 }

end BuildGraph2

namespace BuildGraph

open FacultyVis
open BuildGraph2 (facultyCoauthors NamedEntry)

/-- BAD_MATCHES of build_graph.py: wrong-person OpenAlex matches. -/
def BAD_MATCHES : List String := ["Ho Jin Kim", "Kevin McAlister", "Alexander Tolbert"]

/-- SUSPECT of build_graph.py: low-confidence matches kept with a flag. -/
def SUSPECT : List String :=
  ["Adam Glynn", "Zhiyun Gong", "Benjamin J. Miller", "Megan Reed", "Nathan Hoffmann"]

/-- load_faculty of build_graph.py, applied to the already-parsed record
list: excluded entities keep their node but have their external id, works,
works count and topics cleared. -/
def load_faculty (data : List OAFaculty) : List OAFaculty :=
  data.foldl (fun clean fac =>
    if fac.name ∈ BAD_MATCHES then
      clean ++ [{ fac with openalex_id := none, works := [], works_count := 0, topics := [] }]
    else clean ++ [fac]) []

/-- build_author_index of build_graph.py. -/
def build_author_index (faculty : List OAFaculty) : List (String × String) :=
  faculty.foldl (fun idx fac =>
    if truthyStr fac.openalex_id then dset idx (fac.openalex_id.getD "") fac.name
    else idx) []

/-- Accumulated co-authorship signal of find_coauthor_edges; the title list
is appended without a truthiness guard, so it can hold nulls. -/
structure CoPapers where
  coauthor : Nat
  papers : List (Option String)
deriving DecidableEq, Repr

/-- One co-author increment of find_coauthor_edges: `coauthor += 1` and the
title appended whenever not already present (nulls included). -/
def coStep1 (title : Option String) (e : CoPapers) : CoPapers :=
  let e2 : CoPapers := { e with coauthor := e.coauthor + 1 }
  if title ∉ e2.papers then { e2 with papers := e2.papers ++ [title] } else e2

/-- The raw accumulation loop of find_coauthor_edges. -/
def coauthorRaw1 (faculty : List OAFaculty) (author_index : List (String × String)) :
    List ((String × String) × CoPapers) :=
  faculty.foldl (fun acc fac =>
    if ¬ (truthyStr fac.openalex_id = true) then acc
    else fac.works.foldl (fun acc2 work =>
      (facultyCoauthors author_index fac.name work).foldl (fun acc3 coauthor_name =>
        dmod acc3 (sortPair fac.name coauthor_name) { coauthor := 0, papers := [] }
          (coStep1 work.title)) acc2) acc) []

/-- find_coauthor_edges of build_graph.py, with its dedupe pass. -/
def find_coauthor_edges (faculty : List OAFaculty) (author_index : List (String × String)) :
    List ((String × String) × CoPapers) :=
  (coauthorRaw1 faculty author_index).map (fun p =>
    (p.1, { coauthor := (p.2.coauthor + 1) / 2, papers := dedupFirstSeen p.2.papers }))

/-- The per-faculty referenced-id sets of find_shared_reference_edges. -/
def refSets1 (faculty : List OAFaculty) : List (String × List String) :=
  faculty.foldl (fun rs fac =>
    if fac.works.isEmpty then rs
    else
      let refs := fac.works.foldl (fun s w => supdate s w.referenced_works) []
      if refs.isEmpty then rs else dset rs fac.name refs) []

/-- find_shared_reference_edges of build_graph.py: pairs sharing at least 3
referenced ids, with the overlap size as value. -/
def find_shared_reference_edges (faculty : List OAFaculty) :
    List ((String × String) × Nat) :=
  let ref_sets := refSets1 faculty
  (pairsOf (ref_sets.map (fun p => p.1))).foldl (fun edges pr =>
    let overlap := sinter ((dfind ref_sets pr.1).getD []) ((dfind ref_sets pr.2).getD [])
    if overlap.length ≥ 3 then dset edges (sortPair pr.1 pr.2) overlap.length
    else edges) []

/-- The per-faculty topic sets of find_shared_topic_edges (all works, not a
bounded sample). -/
def topicSets1 (faculty : List OAFaculty) : List (String × List String) :=
  faculty.foldl (fun ts fac =>
    let topics := fac.works.foldl (fun s w =>
        match w.primary_topic with
        | some p => if p = "" then s else sadd s p
        | none => s)
      (fac.topics.foldl (fun s t => sadd s t.name) [])
    if topics.isEmpty then ts else dset ts fac.name topics) []

/-- find_shared_topic_edges of build_graph.py. -/
def find_shared_topic_edges (faculty : List OAFaculty) :
    List ((String × String) × NamedEntry) :=
  let topic_sets := topicSets1 faculty
  (pairsOf (topic_sets.map (fun p => p.1))).foldl (fun edges pr =>
    let overlap := sinter ((dfind topic_sets pr.1).getD []) ((dfind topic_sets pr.2).getD [])
    if overlap.length ≥ 2 then
      dset edges (sortPair pr.1 pr.2) { count := overlap.length, names := overlap.take 10 }
    else edges) []

/-- The per-faculty journal sets of find_shared_journal_edges (no denylist in
this builder). -/
def journalSets1 (faculty : List OAFaculty) : List (String × List String) :=
  faculty.foldl (fun js fac =>
    let journals := fac.works.foldl (fun s w =>
      match w.journal with
      | some j => if j ≠ "" then sadd s j else s
      | none => s) []
    if journals.isEmpty then js else dset js fac.name journals) []

/-- find_shared_journal_edges of build_graph.py. -/
def find_shared_journal_edges (faculty : List OAFaculty) :
    List ((String × String) × NamedEntry) :=
  let journal_sets := journalSets1 faculty
  (pairsOf (journal_sets.map (fun p => p.1))).foldl (fun edges pr =>
    let overlap := sinter ((dfind journal_sets pr.1).getD []) ((dfind journal_sets pr.2).getD [])
    if overlap.length ≥ 2 then
      dset edges (sortPair pr.1 pr.2) { count := overlap.length, names := overlap.take 10 }
    else edges) []

/-- cluster_keywords of assign_clusters in build_graph.py. -/
def cluster_keywords : List (String × List String) :=
  [ ("Political Science",
      [ "political", "politic", "election", "voting",
        "legislative", "congress", "democrat", "governance" ]),
    ("NLP / Computational",
      [ "natural language", "nlp", "computational linguist",
        "text mining", "sentiment", "machine learning",
        "artificial intelligence", "deep learning",
        "information retrieval" ]),
    ("Statistics / Causal Inference",
      [ "causal", "statistic", "bayesian",
        "econometric", "regression",
        "inference", "estimation" ]),
    ("Digital Humanities",
      [ "digital humanit", "humanities", "literary",
        "cultural", "history" ]),
    ("Biology / Neuroscience",
      [ "biolog", "neuro", "animal", "behavio",
        "ecolog", "brain", "genome" ]),
    ("Sociology / Public Health",
      [ "sociolog", "health", "epidemiol",
        "inequality", "immigra", "food",
        "nutrition", "anthropol" ]) ]

/-- The corpus of assign_clusters for one record: lowercased topic names
joined by spaces, then one space-joined lowercased concept-name block per
work of the first 20. -/
def clusterText (fac : OAFaculty) : String :=
  (fac.works.take 20).foldl (fun text w =>
      text ++ " " ++ joinSpace (w.concepts.map (fun c => lowerStr c.name)))
    (joinSpace (fac.topics.map (fun t => lowerStr t.name)))

/-- The best-cluster scan of assign_clusters: strict improvement over the
running best, starting from ("Other", 0). -/
def bestCluster (topic_text : String) : String :=
  (cluster_keywords.foldl (fun best p =>
    let score := (p.2.filter (fun kw => containsSub topic_text kw)).length
    if score > best.2 then (p.1, score) else best) ("Other", 0)).1

/-- assign_clusters of build_graph.py, as a name-keyed dict. -/
def assign_clusters (faculty : List OAFaculty) : List (String × String) :=
  faculty.foldl (fun m fac => dset m fac.name (bestCluster (clusterText fac))) []

/-- One output node of build_graph.main. -/
structure Node1 where
  id : String
  openalex_id : Option String
  works_count : Int
  cited_by_count : Int
  cluster : String
  top_topics : List String
  suspect_match : Bool
deriving DecidableEq, Repr

/-- The node list of build_graph.main: one node per record of the cleaned
roster, in roster order. -/
def mainNodes1 (faculty : List OAFaculty) : List Node1 :=
  let clusters := assign_clusters faculty
  faculty.map (fun fac =>
    { id := fac.name,
      openalex_id := fac.openalex_id,
      works_count := fac.works_count,
      cited_by_count := fac.cited_by_count,
      cluster := (dfind clusters fac.name).getD "Other",
      top_topics := (fac.topics.take 5).map (fun t => t.name),
      suspect_match := decide (fac.name ∈ SUSPECT) })

end BuildGraph

namespace BuildGraph2

open FacultyVis

/-- Weight formula asserted by the spec sentence for claim C1: one single flat
bonus of 15 when the pair is profile-listed or externally-mentioned and no
co-author paper count is present.  Stated from the claim text, for comparison
with the code formula. -/
def c1ClaimWeight (e : Edge) : ℚ :=
  (if truthyNat e.coauthor_count then (e.coauthor_count.getD 0 : ℚ) * 10 else 0) +
  (if (e.scholar_coauthor ∨ e.website_coauthor) ∧ truthyNat e.coauthor_count = false
    then 15 else 0) +
  min (e.shared_refs.getD 0 : ℚ) 50 +
  (e.shared_topics.getD 0 : ℚ) * 2 +
  (e.shared_journals.getD 0 : ℚ) * (3 / 2)

/-- Closed form of the weight the code actually computes: the flat 15 bonus is
added once for a Scholar-profile listing and once again, separately, for a
website listing. -/
def c1CodeWeight (e : Edge) : ℚ :=
  (if truthyNat e.coauthor_count then (e.coauthor_count.getD 0 : ℚ) * 10 else 0) +
  (if e.scholar_coauthor ∧ truthyNat e.coauthor_count = false then 15 else 0) +
  (if e.website_coauthor ∧ truthyNat e.coauthor_count = false then 15 else 0) +
  min (e.shared_refs.getD 0 : ℚ) 50 +
  (e.shared_topics.getD 0 : ℚ) * 2 +
  (e.shared_journals.getD 0 : ℚ) * (3 / 2)

/-- Concrete Scholar records for the C1 scenario: two rostered names, each
with a Scholar id, the first listing the second as a profile co-author. -/
def c1_scholar : List ScholarFaculty :=
  [ { name := "Adam Glynn", scholar_id := some "s1", citedby := 0, hindex := 0,
      interests := [], coauthors := [{ scholar_id := some "s2" }], error := none },
    { name := "Weihua An", scholar_id := some "s2", citedby := 0, hindex := 0,
      interests := [], coauthors := [], error := none } ]

/-- Concrete website mention for the C1 scenario: the same pair is also
externally mentioned. -/
def c1_website : List WebsitePair := [{ source := "Adam Glynn", target := "Weihua An" }]

/-- The single edge the pipeline produces for the C1 scenario. -/
def c1_edge : Edge :=
  { source := "Adam Glynn", target := "Weihua An", scholar_coauthor := true,
    website_coauthor := true, weight := 30 }

end BuildGraph2

namespace ScrapeWebsites

open FacultyVis

/-- Python `str.split()` with no argument: split on runs of whitespace,
dropping empty pieces. -/
def splitWSGo : List Char → List Char → List String
  | [], acc => if acc.isEmpty then [] else [String.mk acc.reverse]
  | c :: cs, acc =>
    if c = ' ' ∨ c = '\t' ∨ c = '\n' then
      (if acc.isEmpty then [] else [String.mk acc.reverse]) ++ splitWSGo cs []
    else splitWSGo cs (c :: acc)

/-- Python `name.split()`. -/
def splitWS (s : String) : List String := splitWSGo s.data []

/-- name_variants of scrape_websites.py: plausible written variants of a
name, as an insertion-ordered set. -/
def name_variants (name : String) : List String :=
  let parts := splitWS name
  let variants := [name]
  if parts.length = 2 then
    let first := parts.getD 0 ""
    let last := parts.getD 1 ""
    let v1 := sadd variants (first ++ " " ++ last)
    let v2 := sadd v1 ((String.mk (first.data.take 1)) ++ ". " ++ last)
    if first.length > 1 then sadd v2 ((String.mk (first.data.take 1)) ++ ". " ++ last) else v2
  else if parts.length = 3 then
    let p0 := parts.getD 0 ""
    let p1 := parts.getD 1 ""
    let p2 := parts.getD 2 ""
    let v1 := sadd variants (p0 ++ " " ++ p2)
    let v2 := sadd v1 ((String.mk (p0.data.take 1)) ++ ". " ++ p2)
    let v3 := sadd v2 (p0 ++ " " ++ p1 ++ " " ++ p2)
    sadd v3 (p1 ++ " " ++ p2)
  else variants

/-- find_coauthors_in_text of scrape_websites.py: the roster names other than
the page owner with some written variant appearing in the page text.  The
`found` dict keys are returned in first-found order. -/
def find_coauthors_in_text (all_names2 : List String) (text : String)
    (page_owner : String) : List String :=
  all_names2.foldl (fun found name =>
    if name = page_owner then found
    else if (name_variants name).any (fun v => containsSub text v) then sadd found name
    else found) []

/-- One accumulated entry of the scraper output. -/
structure WebEntry where
  source : String
  target : String
  found_on : List String
deriving DecidableEq, Repr

/-- The edge-accumulation loop of scrape_websites.main, over already-fetched
page texts (fetching is external input): one entry per
`tuple(sorted([name, ca]))` key, with source and target taken from the
sorted key. -/
def websiteEntries (all_names2 : List String) (pages : List (String × String)) :
    List ((String × String) × WebEntry) :=
  pages.foldl (fun edges pg =>
    if pg.2 = "" then edges
    else (find_coauthors_in_text all_names2 pg.2 pg.1).foldl (fun edges2 ca =>
      let key := sortPair pg.1 ca
      let edges3 := if (dfind edges2 key).isSome then edges2
        else dset edges2 key { source := key.1, target := key.2, found_on := [] }
      dmod edges3 key { source := key.1, target := key.2, found_on := [] }
        (fun e => { e with found_on := e.found_on ++ [pg.1] })) edges) []

end ScrapeWebsites

namespace BuildGraph2

open FacultyVis

/-- The manual-override branch of compute_area_distribution: curated weights
sorted descending, each normalised by the weight total and rounded to three
decimals. -/
def manualDist (raw : List (String × ℚ)) : List AreaShare :=
  (sortByLe (fun a b => decide (b.2 ≤ a.2)) raw).map
    (fun p => { area := p.1, share := round3 (p.2 / (raw.map (fun q => q.2)).sum) })

end BuildGraph2

namespace BuildGraph2

open FacultyVis

/-- The topic set of one record, as accumulated by build_openalex_edges. -/
def topicSetOf (fac : OAFaculty) : List String :=
  (fac.works.take 30).foldl (fun s w =>
      match w.primary_topic with
      | some p => if p = "" then s else sadd s p
      | none => s)
    (fac.topics.foldl (fun s t => sadd s t.name) [])

/-- The journal set of one record, as accumulated by build_openalex_edges. -/
def journalSetOf (fac : OAFaculty) : List String :=
  fac.works.foldl (fun s w =>
    match w.journal with
    | some j => if j ≠ "" ∧ j ∉ NOT_JOURNALS then sadd s j else s
    | none => s) []

end BuildGraph2

namespace BuildGraph2

open FacultyVis

/-- Record with no works and no co-authored paper listing it, for the C9
scenario. -/
def c9A : OAFaculty :=
  { name := "A Person", openalex_id := some "oa1", works_count := 0,
    cited_by_count := 0, topics := [], works := [] }

/-- Record whose single work lists both the C9 entities as authors. -/
def c9B : OAFaculty :=
  { name := "B Person", openalex_id := some "oa2", works_count := 1,
    cited_by_count := 0, topics := [],
    works := [ { title := some "Joint Paper", year := some 2024, journal := none,
                 authors := [{ id := "oa1" }, { id := "oa2" }],
                 referenced_works := [], primary_topic := none, concepts := [] } ] }

end BuildGraph2

namespace BuildGraph

open FacultyVis

/-- The record clearing applied by load_faculty to excluded entities. -/
def clearFac (fac : OAFaculty) : OAFaculty :=
  if fac.name ∈ BAD_MATCHES then
    { fac with openalex_id := none, works := [], works_count := 0, topics := [] }
  else fac

end BuildGraph

namespace BuildGraph

open FacultyVis

/-- The topic set of one record as accumulated by find_shared_topic_edges
(all works, not a bounded sample). -/
def topicSet1Of (fac : OAFaculty) : List String :=
  fac.works.foldl (fun s w =>
      match w.primary_topic with
      | some p => if p = "" then s else sadd s p
      | none => s)
    (fac.topics.foldl (fun s t => sadd s t.name) [])

/-- The journal set of one record as accumulated by find_shared_journal_edges
(no denylist in this builder). -/
def journalSet1Of (fac : OAFaculty) : List String :=
  fac.works.foldl (fun s w =>
    match w.journal with
    | some j => if j ≠ "" then sadd s j else s
    | none => s) []

end BuildGraph

namespace BuildGraph2

open FacultyVis

/-- The stored co-author count for one pair key (0 when the pair is absent,
matching the truthiness reads downstream). -/
def getCoCount (m : List ((String × String) × CoEntry)) (k : String × String) : Nat :=
  ((dfind m k).map (fun e => e.count)).getD 0

/-- The raw pairwise tally for one key, written as the double sum the
accumulation loop computes: one unit per resolved co-author occurrence, from
each endpoint work list.  Stated from the claim, for comparison with the
stored count. -/
def rawTally (idx : List (String × String)) (data : List OAFaculty)
    (k : String × String) : Nat :=
  (data.map (fun fac =>
    if truthyStr fac.openalex_id = true ∧ fac.name ∉ BAD then
      (fac.works.map (fun w =>
        ((facultyCoauthors idx fac.name w).filter
          (fun ca => decide (sortPair fac.name ca = k))).length)).sum
    else 0)).sum

end BuildGraph2

namespace BuildGraph2

open FacultyVis

/-- Records for the C3 scenario: two distinct joint works carrying the same
title. -/
def c3W1 : Work :=
  { title := some "Same Title", year := some 2020, journal := none,
    authors := [{ id := "oa1" }, { id := "oa2" }],
    referenced_works := ["r1"], primary_topic := none, concepts := [] }

/-- Second joint work of the C3 scenario, a distinct record with an equal
title. -/
def c3W2 : Work :=
  { title := some "Same Title", year := some 2021, journal := none,
    authors := [{ id := "oa1" }, { id := "oa2" }],
    referenced_works := ["r2"], primary_topic := none, concepts := [] }

/-- First C3 entity. -/
def c3A : OAFaculty :=
  { name := "A Person", openalex_id := some "oa1", works_count := 2,
    cited_by_count := 0, topics := [], works := [c3W1, c3W2] }

/-- Second C3 entity. -/
def c3B : OAFaculty :=
  { name := "B Person", openalex_id := some "oa2", works_count := 2,
    cited_by_count := 0, topics := [], works := [c3W1, c3W2] }

end BuildGraph2

namespace BuildGraph2

open FacultyVis

/-- Scholar record for the C4 scenario: interests hitting exactly one keyword
in each of three areas. -/
def c4sch : ScholarFaculty :=
  { name := "Nobody Example", scholar_id := none, citedby := 0, hindex := 0,
    interests := ["election", "nlp", "causal"], coauthors := [], error := none }

end BuildGraph2

namespace RawModel

open FacultyVis BuildGraph2

/-- One author entry with a possibly absent `id` key. -/
structure RAuthor where
  id? : Option String
deriving DecidableEq, Repr

/-- One work record for the raw model.  The outer Option of a field is key
presence; a second Option layer is a JSON null value.  Only the fields the
modelled region reads are kept. -/
structure RWork where
  title? : Option (Option String)
  authors? : Option (List RAuthor)
  referenced_works? : Option (Option (List String))
deriving DecidableEq, Repr

/-- One faculty record for the raw model. -/
structure RFac where
  name? : Option String
  openalex_id? : Option (Option String)
  works? : Option (Option (List RWork))
deriving DecidableEq, Repr

/-- Python `d[k]`: the value when the key is present, a KeyError otherwise. -/
def getKey {β : Type} (v : Option β) (keyName : String) : Except String β :=
  match v with
  | some x => Except.ok x
  | none => Except.error ("KeyError: " ++ keyName)

/-- The author-index loop (build_openalex_edges lines 218-221) under raw
subscript semantics: `fac["openalex_id"]` always subscripted, `fac["name"]`
only behind the short-circuit. -/
def rawAuthorIndex (data : List RFac) : Except String (List (String × String)) :=
  data.foldlM (fun idx fac => do
    let oid ← getKey fac.openalex_id? "openalex_id"
    if truthyStr oid = true then do
      let name ← getKey fac.name? "name"
      pure (if name ∉ BAD then dset idx (oid.getD "") name else idx)
    else pure idx) []

/-- One work of the raw co-author loop: `work["authors"]`, each `a["id"]`,
and `work["title"]` on each co-author hit. -/
def rawCoWorkStep (idx : List (String × String)) (name : String)
    (acc2 : List ((String × String) × CoEntry)) (work : RWork) :
    Except String (List ((String × String) × CoEntry)) := do
  let authors ← getKey work.authors? "authors"
  let aids ← authors.mapM (fun a => getKey a.id? "id")
  let fcas := aids.filterMap (fun aid =>
    match dfind idx aid with
    | some n => if n ≠ name then some n else none
    | none => none)
  fcas.foldlM (fun acc3 ca_name => do
    let t ← getKey work.title? "title"
    pure (dmod acc3 (sortPair name ca_name) { count := 0, papers := [] } (coStep t))) acc2

/-- One record of the raw co-author loop: id truthiness guard, BAD guard,
then `for work in fac["works"]` (KeyError when absent, TypeError when null). -/
def rawCoFacStep (idx : List (String × String))
    (acc : List ((String × String) × CoEntry)) (fac : RFac) :
    Except String (List ((String × String) × CoEntry)) := do
  let oid ← getKey fac.openalex_id? "openalex_id"
  if ¬ (truthyStr oid = true) then pure acc
  else do
    let name ← getKey fac.name? "name"
    if name ∈ BAD then pure acc
    else do
      let works ← getKey fac.works? "works"
      match works with
      | none => Except.error "TypeError: works is None"
      | some wl => wl.foldlM (rawCoWorkStep idx name) acc

/-- The raw co-author edges of build_openalex_edges lines 224-247, dedupe
pass included. -/
def rawCoauthorEdges (idx : List (String × String)) (data : List RFac) :
    Except String (List ((String × String) × CoEntry)) := do
  let raw ← data.foldlM (rawCoFacStep idx) []
  pure (raw.map (fun p =>
    (p.1, { count := (p.2.count + 1) / 2, papers := dedupFirstSeen p.2.papers })))

/-- One work of the raw shared-reference accumulation: `w.get` tolerates an
absent referenced_works key, but a null value reaches `refs.update(None)`
and raises. -/
def rawRefWorkStep (s : List String) (w : RWork) : Except String (List String) :=
  match w.referenced_works? with
  | none => pure (supdate s [])
  | some none => Except.error "TypeError: referenced_works is None"
  | some (some l) => pure (supdate s l)

/-- One record of the raw shared-reference accumulation (lines 252-260),
built from rawRefWorkStep. -/
def rawRefFacStep (acc : List (String × List String) × List (String × Nat)) (fac : RFac) :
    Except String (List (String × List String) × List (String × Nat)) := do
  let works ← getKey fac.works? "works"
  match works with
  | none => pure acc
  | some wl =>
    if wl = [] then pure acc
    else do
      let name ← getKey fac.name? "name"
      if name ∈ BAD then pure acc
      else do
        let refs ← wl.foldlM rawRefWorkStep ([] : List String)
        pure (if refs = [] then acc
          else (dset acc.1 name refs, refs.foldl (fun f r => dmod f r 0 (fun n => n + 1)) acc.2))

/-- The raw model of the whole cited region: author index, co-author edges,
and shared-reference sets and frequencies, in program order. -/
def rawCoauthorRefs (data : List RFac) :
    Except String (List ((String × String) × CoEntry) ×
      (List (String × List String) × List (String × Nat))) := do
  let idx ← rawAuthorIndex data
  let co ← rawCoauthorEdges idx data
  let rf ← data.foldlM rawRefFacStep ([], [])
  pure (co, rf)

/-- Well-formedness for the amended claim: the directly subscripted keys
(name, openalex_id, works, per-work authors, author ids, titles) are
present, the works value and each referenced_works value is not null; the
nullable scalars (openalex_id, title) may still be null. -/
def WFWork (w : RWork) : Prop :=
  w.title?.isSome ∧ (∃ la, w.authors? = some la ∧ ∀ a ∈ la, (a.id?).isSome) ∧
  w.referenced_works? ≠ some none

def WF (fac : RFac) : Prop :=
  fac.name?.isSome ∧ fac.openalex_id?.isSome ∧
  ∃ wl, fac.works? = some (some wl) ∧ ∀ w ∈ wl, WFWork w

/-- The defaulted interpretation of a raw author. -/
def cleanAuthor (a : RAuthor) : WAuthor := { id := (a.id?).getD "" }

/-- The defaulted interpretation of a raw work (fields the region does not
read are set to their empty defaults). -/
def cleanWork (w : RWork) : Work :=
  { title := (w.title?).getD none, year := none, journal := none,
    authors := ((w.authors?).getD []).map cleanAuthor,
    referenced_works := ((w.referenced_works?).getD (some [])).getD [],
    primary_topic := none, concepts := [] }

/-- The defaulted interpretation of a raw faculty record. -/
def cleanFac (f : RFac) : OAFaculty :=
  { name := (f.name?).getD "", openalex_id := (f.openalex_id?).getD none,
    works_count := 0, cited_by_count := 0, topics := [],
    works := (((f.works?).getD (some [])).getD []).map cleanWork }

end RawModel

namespace RawModel

open FacultyVis BuildGraph2

/-- The faculty record of the C7 counterexample: its optional external-id key
is absent altogether (name present, works present and empty). -/
def c7bad : RFac :=
  { name? := some "Solo Person", openalex_id? := none, works? := some (some []) }

/-- A well-formed raw work shared by the two C7 witness records. -/
def c7w : RWork :=
  { title? := some (some "A Joint Paper"),
    authors? := some [{ id? := some "I1" }, { id? := some "I2" }],
    referenced_works? := some (some ["R1"]) }

/-- First C7 witness record: owns the shared work. -/
def c7fA : RFac :=
  { name? := some "Ann Author", openalex_id? := some (some "I1"),
    works? := some (some [c7w]) }

/-- Second C7 witness record: empty works list. -/
def c7fB : RFac :=
  { name? := some "Bob Author", openalex_id? := some (some "I2"),
    works? := some (some []) }

end RawModel

namespace FacultyVis

theorem insertLe_perm {α : Type} (le : α → α → Bool) (x : α) (l : List α) :
    (insertLe le x l).Perm (x :: l) := by
  induction l with
  | nil => simp [insertLe]
  | cons y ys ih =>
    by_cases h : le y x = true
    · simpa [insertLe, h] using ((ih.cons y).trans (List.Perm.swap x y ys))
    · simp [insertLe, h]

theorem foldl_insertLe_perm {α : Type} (le : α → α → Bool) (l acc : List α) :
    (l.foldl (fun acc2 x => insertLe le x acc2) acc).Perm (acc ++ l) := by
  induction l generalizing acc with
  | nil => simp
  | cons x xs ih =>
    refine (ih (insertLe le x acc)).trans ?_
    have h1 : (insertLe le x acc ++ xs).Perm ((x :: acc) ++ xs) :=
      (insertLe_perm le x acc).append_right xs
    refine h1.trans ?_
    simpa using List.perm_middle.symm

theorem sortByLe_perm {α : Type} (le : α → α → Bool) (l : List α) :
    (sortByLe le l).Perm l := by
  simpa [sortByLe] using foldl_insertLe_perm le l []

theorem mem_sortByLe {α : Type} {le : α → α → Bool} {l : List α} {x : α} :
    x ∈ sortByLe le l ↔ x ∈ l :=
  (sortByLe_perm le l).mem_iff

theorem insertLe_pairwise {α : Type} {le : α → α → Bool}
    (htrans : ∀ a b c, le a b = true → le b c = true → le a c = true)
    (htot : ∀ a b, le a b = true ∨ le b a = true) (x : α) {l : List α}
    (h : l.Pairwise (fun a b => le a b = true)) :
    (insertLe le x l).Pairwise (fun a b => le a b = true) := by
  induction l with
  | nil => simp [insertLe]
  | cons y ys ih =>
    rcases List.pairwise_cons.mp h with ⟨hy, hys⟩
    by_cases hyx : le y x = true
    · rw [insertLe, if_pos hyx]
      refine List.pairwise_cons.mpr ⟨?_, ih hys⟩
      intro z hz
      rcases List.mem_cons.mp ((insertLe_perm le x ys).mem_iff.mp hz) with rfl | hz2
      · exact hyx
      · exact hy z hz2
    · rw [insertLe, if_neg hyx]
      have hxy : le x y = true := (htot x y).resolve_right (fun hc => hyx hc)
      refine List.pairwise_cons.mpr ⟨?_, h⟩
      intro z hz
      rcases List.mem_cons.mp hz with rfl | hz2
      · exact hxy
      · exact htrans x y z hxy (hy z hz2)

theorem sortByLe_pairwise {α : Type} {le : α → α → Bool}
    (htrans : ∀ a b c, le a b = true → le b c = true → le a c = true)
    (htot : ∀ a b, le a b = true ∨ le b a = true) (l : List α) :
    (sortByLe le l).Pairwise (fun a b => le a b = true) := by
  have main : ∀ (l2 acc : List α), acc.Pairwise (fun a b => le a b = true) →
      (l2.foldl (fun acc2 x => insertLe le x acc2) acc).Pairwise
        (fun a b => le a b = true) := by
    intro l2
    induction l2 with
    | nil => intro acc h; simpa using h
    | cons x xs ih =>
      intro acc h
      exact ih (insertLe le x acc) (insertLe_pairwise htrans htot x h)
  exact main l [] (by simp)

theorem dfind_dset_self {α β : Type} [DecidableEq α] (m : List (α × β)) (k : α) (v : β) :
    dfind (dset m k v) k = some v := by
  induction m with
  | nil => simp [dset, dfind]
  | cons p rest ih =>
    by_cases h : p.1 = k
    · simp [dset, dfind, h]
    · simp [dset, dfind, h, ih]

theorem dfind_dset_ne {α β : Type} [DecidableEq α] (m : List (α × β)) (k k2 : α) (v : β)
    (h : k ≠ k2) : dfind (dset m k v) k2 = dfind m k2 := by
  have h2 : k2 ≠ k := Ne.symm h
  induction m with
  | nil => simp [dset, dfind, h]
  | cons p rest ih =>
    by_cases hp : p.1 = k
    · subst hp
      simp [dset, dfind, h]
    · by_cases hp2 : p.1 = k2
      · simp [dset, dfind, hp, hp2, h2]
      · simp [dset, dfind, hp, hp2, ih]

theorem mem_keys_dset {α β : Type} [DecidableEq α] (m : List (α × β)) (k : α) (v : β)
    (a : α) : a ∈ (dset m k v).map Prod.fst ↔ a = k ∨ a ∈ m.map Prod.fst := by
  induction m with
  | nil => simp [dset]
  | cons p rest ih =>
    by_cases h : p.1 = k
    · subst h
      simp [dset]
    · simp [dset, h, ih]
      tauto

theorem mem_keys_dmod {α β : Type} [DecidableEq α] (m : List (α × β)) (k : α) (d : β)
    (f : β → β) (a : α) :
    a ∈ (dmod m k d f).map Prod.fst ↔ a = k ∨ a ∈ m.map Prod.fst := by
  induction m with
  | nil => simp [dmod]
  | cons p rest ih =>
    by_cases h : p.1 = k
    · subst h
      simp [dmod]
    · simp [dmod, h, ih]
      tauto

theorem dfind_dmod_self {α β : Type} [DecidableEq α] (m : List (α × β)) (k : α) (d : β)
    (f : β → β) : dfind (dmod m k d f) k = some (f ((dfind m k).getD d)) := by
  induction m with
  | nil => simp [dmod, dfind]
  | cons p rest ih =>
    by_cases h : p.1 = k
    · simp [dmod, dfind, h]
    · simp [dmod, dfind, h, ih]

theorem dfind_dmod_ne {α β : Type} [DecidableEq α] (m : List (α × β)) (k k2 : α) (d : β)
    (f : β → β) (h : k ≠ k2) : dfind (dmod m k d f) k2 = dfind m k2 := by
  have h2 : k2 ≠ k := Ne.symm h
  induction m with
  | nil => simp [dmod, dfind, h]
  | cons p rest ih =>
    by_cases hp : p.1 = k
    · subst hp
      simp [dmod, dfind, h]
    · by_cases hp2 : p.1 = k2
      · simp [dmod, dfind, hp, hp2, h2]
      · simp [dmod, dfind, hp, hp2, ih]

theorem dfind_isSome_iff_mem_keys {α β : Type} [DecidableEq α] (m : List (α × β)) (k : α) :
    (dfind m k).isSome ↔ k ∈ m.map Prod.fst := by
  induction m with
  | nil => simp [dfind]
  | cons p rest ih =>
    by_cases h : p.1 = k
    · simp [dfind, h]
    · simp [dfind, h, ih, Ne.symm h]

theorem dfind_eq_none_of_not_mem_keys {α β : Type} [DecidableEq α] {m : List (α × β)}
    {k : α} (h : k ∉ m.map Prod.fst) : dfind m k = none := by
  rcases ho : dfind m k with _ | v
  · rfl
  · exact absurd ((dfind_isSome_iff_mem_keys m k).mp (by simp [ho])) h

theorem mem_sadd {α : Type} [DecidableEq α] (s : List α) (x a : α) :
    a ∈ sadd s x ↔ a ∈ s ∨ a = x := by
  by_cases h : x ∈ s
  · rw [sadd, if_pos h]
    exact ⟨fun h2 => Or.inl h2, fun h2 => h2.elim id (fun he => he ▸ h)⟩
  · rw [sadd, if_neg h]
    simp

theorem mem_supdate {α : Type} [DecidableEq α] (s xs : List α) (a : α) :
    a ∈ supdate s xs ↔ a ∈ s ∨ a ∈ xs := by
  induction xs generalizing s with
  | nil => simp [supdate]
  | cons x rest ih =>
    have : supdate s (x :: rest) = supdate (sadd s x) rest := rfl
    rw [this, ih, mem_sadd]
    simp
    tauto

theorem mem_pairsOf {α : Type} {l : List α} {a b : α} (h : (a, b) ∈ pairsOf l) :
    a ∈ l ∧ b ∈ l := by
  induction l with
  | nil => simp [pairsOf] at h
  | cons x xs ih =>
    rw [pairsOf, List.mem_append] at h
    rcases h with h | h
    · rcases List.mem_map.mp h with ⟨y, hy, he⟩
      rw [Prod.mk.injEq] at he
      obtain ⟨rfl, rfl⟩ := he
      exact ⟨List.mem_cons_self _ _, List.mem_cons_of_mem _ hy⟩
    · rcases ih h with ⟨ha, hb⟩
      exact ⟨List.mem_cons_of_mem x ha, List.mem_cons_of_mem x hb⟩

theorem ne_of_mem_pairsOf {α : Type} {l : List α} (hn : l.Nodup) {a b : α}
    (h : (a, b) ∈ pairsOf l) : a ≠ b := by
  induction l with
  | nil => simp [pairsOf] at h
  | cons x xs ih =>
    rw [pairsOf, List.mem_append] at h
    rcases List.nodup_cons.mp hn with ⟨hx, hxs⟩
    rcases h with h | h
    · rcases List.mem_map.mp h with ⟨y, hy, he⟩
      rw [Prod.mk.injEq] at he
      obtain ⟨rfl, rfl⟩ := he
      intro he2
      exact hx (he2 ▸ hy)
    · exact ih hxs h

end FacultyVis

namespace FacultyVis

theorem charsLt_irrefl (l : List Char) : charsLt l l = false := by
  induction l with
  | nil => rfl
  | cons c cs ih => simp [charsLt, ih]

theorem charsLt_flip {a b : List Char} (h : charsLt a b = false) (hne : a ≠ b) :
    charsLt b a = true := by
  induction a generalizing b with
  | nil =>
    cases b with
    | nil => exact absurd rfl hne
    | cons c cs => simp [charsLt] at h
  | cons c cs ih =>
    cases b with
    | nil => rfl
    | cons d ds =>
      by_cases hcd : c = d
      · subst hcd
        rw [charsLt, if_pos rfl] at h
        have hne2 : cs ≠ ds := fun he => hne (he ▸ rfl)
        rw [charsLt, if_pos rfl]
        exact ih h hne2
      · rw [charsLt, if_neg hcd] at h
        have hlt : d < c := by
          rcases lt_trichotomy c d with hc | hc | hc
          · simp [hc] at h
          · exact absurd hc hcd
          · exact hc
        rw [charsLt, if_neg (Ne.symm hcd)]
        simpa using hlt

theorem strLt_ne {a b : String} (h : strLt a b = true) : a ≠ b := by
  intro he
  rw [he, strLt, charsLt_irrefl] at h
  exact Bool.false_ne_true h

theorem strLt_flip {a b : String} (h : strLt a b = false) (hne : a ≠ b) :
    strLt b a = true := by
  have hdata : a.data ≠ b.data := by
    intro he
    cases a
    cases b
    simp at he
    exact hne (he ▸ rfl)
  exact charsLt_flip h hdata

theorem sortPair_cases (a b : String) : sortPair a b = (a, b) ∨ sortPair a b = (b, a) := by
  rw [sortPair]
  by_cases h : strLe a b = true
  · simp [h]
  · simp [h]

theorem sortPair_strLt {a b : String} (hne : a ≠ b) :
    strLt (sortPair a b).1 (sortPair a b).2 = true := by
  rw [sortPair]
  by_cases h : strLe a b = true
  · rw [if_pos h]
    rw [strLe] at h
    rcases Bool.or_eq_true_iff.mp h with h2 | h2
    · exact h2
    · exact absurd (eq_of_beq h2) hne
  · rw [if_neg h]
    rw [strLe] at h
    rcases Bool.or_eq_false_iff.mp (Bool.of_not_eq_true h) with ⟨h1, _⟩
    exact strLt_flip h1 hne

theorem keys_dset_nodup {α β : Type} [DecidableEq α] {m : List (α × β)} (k : α) (v : β)
    (h : (m.map Prod.fst).Nodup) : ((dset m k v).map Prod.fst).Nodup := by
  induction m with
  | nil => simp [dset]
  | cons p rest ih =>
    rw [List.map_cons] at h
    rcases List.nodup_cons.mp h with ⟨hp, hrest⟩
    by_cases he : p.1 = k
    · rw [dset, if_pos he, List.map_cons]
      exact List.nodup_cons.mpr ⟨hp, hrest⟩
    · rw [dset, if_neg he]
      simp only [List.map_cons, List.nodup_cons]
      refine ⟨?_, ih hrest⟩
      rw [mem_keys_dset]
      rintro (h2 | h2)
      · exact he h2
      · exact hp h2

theorem keys_dmod_nodup {α β : Type} [DecidableEq α] {m : List (α × β)} (k : α) (d : β)
    (f : β → β) (h : (m.map Prod.fst).Nodup) : ((dmod m k d f).map Prod.fst).Nodup := by
  induction m with
  | nil => simp [dmod]
  | cons p rest ih =>
    rw [List.map_cons] at h
    rcases List.nodup_cons.mp h with ⟨hp, hrest⟩
    by_cases he : p.1 = k
    · rw [dmod, if_pos he, List.map_cons]
      exact List.nodup_cons.mpr ⟨hp, hrest⟩
    · rw [dmod, if_neg he]
      simp only [List.map_cons, List.nodup_cons]
      refine ⟨?_, ih hrest⟩
      rw [mem_keys_dmod]
      rintro (h2 | h2)
      · exact he h2
      · exact hp h2

end FacultyVis

namespace FacultyVis

theorem round1_eq_self_of_two_mul_int {x : ℚ} (k : ℤ) (h : x * 2 = (k : ℚ)) :
    round1 x = x := by
  have hx : x = (k : ℚ) / 2 := by linarith
  have h10 : x * 10 = ((5 * k : ℤ) : ℚ) := by
    rw [hx]
    push_cast
    ring
  rw [round1, pyRound, h10, round_intCast, hx]
  push_cast
  ring

end FacultyVis

namespace BuildGraph2

open FacultyVis

theorem mem_mainEdges_spec {s : List ScholarFaculty} {o : List OAFaculty}
    {w : List WebsitePair} {e : Edge} (h : e ∈ mainEdges s o w) :
    0 < e.weight ∧ ∃ key ∈ allPairKeys s o w,
      mkEdge (build_scholar_coauthor_edges s) (websiteCoauthKeys w)
        (build_openalex_edges o).1 (build_openalex_edges o).2.1
        (build_openalex_edges o).2.2.1 (build_openalex_edges o).2.2.2 key = some e := by
  rw [mainEdges] at h
  have h2 := mem_sortByLe.mp h
  rcases List.mem_filter.mp h2 with ⟨h3, h4⟩
  rcases List.mem_filterMap.mp h3 with ⟨key, hk, hmk⟩
  exact ⟨by simpa using h4, key, hk, hmk⟩

theorem computeWeight_mkEdge {sc wc : List (String × String)}
    {oc : List ((String × String) × CoEntry)} {sr : List ((String × String) × RefEntry)}
    {st sj : List ((String × String) × NamedEntry)} {key : String × String} {e : Edge}
    (h : mkEdge sc wc oc sr st sj key = some e) :
    e.weight = round1 (computeWeight e) := by
  rw [mkEdge] at h
  by_cases hin : key.1 ∉ all_names ∨ key.2 ∉ all_names
  · rw [if_pos hin] at h
    exact absurd h (by simp)
  · rw [if_neg hin] at h
    have he := Option.some_injective _ h
    subst he
    rfl

end BuildGraph2

namespace BuildGraph2

open FacultyVis

theorem computeWeight_eq_c1CodeWeight (e : Edge) : computeWeight e = c1CodeWeight e := by
  rw [computeWeight, c1CodeWeight]
  split_ifs <;> ring

theorem c1CodeWeight_two_mul_int (e : Edge) :
    c1CodeWeight e * 2 =
      (((if truthyNat e.coauthor_count then (e.coauthor_count.getD 0 : ℤ) * 20 else 0) +
        (if e.scholar_coauthor ∧ truthyNat e.coauthor_count = false then 30 else 0) +
        (if e.website_coauthor ∧ truthyNat e.coauthor_count = false then 30 else 0) +
        (min (e.shared_refs.getD 0) 50 : ℕ) * 2 +
        (e.shared_topics.getD 0 : ℤ) * 4 +
        (e.shared_journals.getD 0 : ℤ) * 3 : ℤ) : ℚ) := by
  rw [c1CodeWeight]
  have hmin : min ((e.shared_refs.getD 0 : ℕ) : ℚ) 50 = ((min (e.shared_refs.getD 0) 50 : ℕ) : ℚ) := by
    push_cast
    rfl
  split_ifs <;> rw [hmin] <;> push_cast <;> ring

theorem c1_eval : mainEdges c1_scholar [] c1_website = [c1_edge] := by
  simp +decide [mainEdges, allPairKeys, build_scholar_coauthor_edges, sidToName, c1_scholar,
    c1_website, c1_edge, dset, dfind, sortPair, strLe, strLt, charsLt, build_openalex_edges,
    coauthorEdges, coauthorRaw, authorIndex, sharedRefEdges, refSetsFreq, sharedTopicEdges,
    topicSets, sharedJournalEdges, journalSets, pairsOf, websiteCoauthKeys, sadd, supdate,
    mkEdge, all_names, MANUAL_AREAS, computeWeight, truthyNat, truthyStr, round1, pyRound,
    round_eq, sortByLe, insertLe]
  norm_num [List.filter, sortByLe, insertLe]

end BuildGraph2

open FacultyVis BuildGraph2 in
/-- Claim C1, as stated, is false on the code: for the concrete input where
the pair Adam Glynn / Weihua An is both profile-listed (scholar_coauthor)
and externally-mentioned (website_coauthor) with no co-author paper count,
the emitted composite weight is 30, not the single flat bonus of 15 asserted
by the claim: the 15 bonus is added once per boolean signal. -/
theorem c1_counterexample :
    ¬ (∀ e ∈ mainEdges c1_scholar [] c1_website, e.weight = c1ClaimWeight e) := by
  intro h
  have h2 := h c1_edge (by rw [c1_eval]; exact List.mem_singleton.mpr rfl)
  rw [c1_edge] at h2
  norm_num [c1ClaimWeight, truthyNat] at h2

open FacultyVis BuildGraph2 in
/-- Claim C1 as amended: for every fused edge the composite weight equals
10 times the co-author paper count, plus min(shared-reference count, 50),
plus 2 times the shared-topic count, plus 1.5 times the shared-journal
count, plus a flat bonus of 15 for a profile listing and a further flat
bonus of 15 for an external mention, each added only when no co-author paper
count is present (so both together contribute 30); no bonus is added when
actual co-authored papers were found, and the final `round(w, 1)` never
changes the value. -/
theorem c1_weight_formula {s : List ScholarFaculty} {o : List OAFaculty}
    {w : List WebsitePair} {e : Edge} (h : e ∈ mainEdges s o w) :
    e.weight = c1CodeWeight e := by
  rcases mem_mainEdges_spec h with ⟨-, key, -, hmk⟩
  rw [computeWeight_mkEdge hmk, computeWeight_eq_c1CodeWeight]
  exact round1_eq_self_of_two_mul_int _ (c1CodeWeight_two_mul_int e)

open FacultyVis BuildGraph2 in
/-- Witness for c1_weight_formula: the membership hypothesis is discharged at
the concrete C1 scenario input. -/
theorem c1_weight_formula_witness :
    c1_edge ∈ mainEdges c1_scholar [] c1_website ∧ c1_edge.weight = c1CodeWeight c1_edge := by
  have hm : c1_edge ∈ mainEdges c1_scholar [] c1_website := by
    rw [c1_eval]
    exact List.mem_singleton.mpr rfl
  exact ⟨hm, c1_weight_formula hm⟩

namespace FacultyVis

theorem foldl_invariant {α β : Type} (P : β → Prop) (f : β → α → β) (l : List α) (b : β)
    (hb : P b) (hstep : ∀ b2 a, a ∈ l → P b2 → P (f b2 a)) : P (l.foldl f b) := by
  induction l generalizing b with
  | nil => simpa using hb
  | cons x xs ih =>
    rw [List.foldl_cons]
    exact ih (f b x) (hstep b x (List.mem_cons_self x xs) hb)
      (fun b2 a ha hP => hstep b2 a (List.mem_cons_of_mem x ha) hP)

end FacultyVis

namespace BuildGraph2

open FacultyVis

theorem mem_facultyCoauthors_ne {idx : List (String × String)} {facName : String}
    {work : Work} {n : String} (h : n ∈ facultyCoauthors idx facName work) : n ≠ facName := by
  rcases List.mem_filterMap.mp h with ⟨aid, _, hf⟩
  rcases ho : dfind idx aid with _ | m
  · simp only [ho] at hf
    exact Option.noConfusion hf
  · simp only [ho] at hf
    by_cases he : m ≠ facName
    · rw [if_pos he] at hf
      exact (Option.some_injective _ hf) ▸ he
    · rw [if_neg he] at hf
      exact absurd hf (by simp)

/-- Every key of the Scholar co-author edge dict is a strictly sorted pair of
distinct names. -/
theorem scholar_keys_sorted {s : List ScholarFaculty} {k : String × String}
    (h : k ∈ build_scholar_coauthor_edges s) : strLt k.1 k.2 = true := by
  rw [build_scholar_coauthor_edges] at h
  refine foldl_invariant (fun edges => ∀ k2 ∈ edges, strLt k2.1 k2.2 = true) _ _ _
    (by simp) ?_ k h
  intro edges fac _ hP
  by_cases hc : fac.coauthors.isEmpty = true
  · rw [if_pos hc]
    exact hP
  · rw [if_neg hc]
    refine foldl_invariant
      (fun (edges2 : List (String × String)) => ∀ k2 ∈ edges2, strLt k2.1 k2.2 = true)
      _ _ _ hP ?_
    intro edges2 ca _ hP2
    dsimp only
    rcases ho : dfind (sidToName s) ((ca.scholar_id).getD "") with _ | n
    · simp only [ho]
      exact hP2
    · simp only [ho]
      by_cases hne : n ≠ fac.name
      · rw [if_pos hne]
        by_cases hmem : sortPair fac.name n ∈ edges2
        · simpa [hmem] using hP2
        · rw [if_neg hmem]
          intro k2 hk2
          rcases List.mem_append.mp hk2 with h2 | h2
          · exact hP2 k2 h2
          · rw [List.mem_singleton.mp h2]
            exact sortPair_strLt (Ne.symm hne)
      · rw [if_neg hne]
        exact hP2

/-- Every key of the raw OpenAlex co-author dict is a strictly sorted pair. -/
theorem coauthorRaw_keys_sorted {idx : List (String × String)} {o : List OAFaculty}
    {k : String × String} (h : k ∈ (coauthorRaw idx o).map Prod.fst) :
    strLt k.1 k.2 = true := by
  rw [coauthorRaw] at h
  refine foldl_invariant
    (fun (acc : List ((String × String) × CoEntry)) =>
      ∀ k2 ∈ acc.map Prod.fst, strLt k2.1 k2.2 = true) _ _ _ (by simp) ?_ k h
  intro acc fac _ hP
  rw [coFacStep]
  by_cases hc : ¬ (truthyStr fac.openalex_id = true) ∨ fac.name ∈ BAD
  · rw [if_pos hc]
    exact hP
  · rw [if_neg hc]
    refine foldl_invariant
      (fun (acc2 : List ((String × String) × CoEntry)) =>
        ∀ k2 ∈ acc2.map Prod.fst, strLt k2.1 k2.2 = true) _ _ _ hP ?_
    intro acc2 work _ hP2
    rw [coWorkStep]
    refine foldl_invariant
      (fun (acc3 : List ((String × String) × CoEntry)) =>
        ∀ k2 ∈ acc3.map Prod.fst, strLt k2.1 k2.2 = true) _ _ _ hP2 ?_
    intro acc3 ca_name hca hP3
    intro k2 hk2
    rcases (mem_keys_dmod _ _ _ _ _).mp hk2 with h2 | h2
    · rw [h2]
      exact sortPair_strLt (Ne.symm (mem_facultyCoauthors_ne hca))
    · exact hP3 k2 h2

/-- Every website co-author key is a strictly sorted pair, provided every
website entry relates two distinct names. -/
theorem website_keys_sorted {w : List WebsitePair}
    (hw : ∀ p ∈ w, p.source ≠ p.target) {k : String × String}
    (h : k ∈ websiteCoauthKeys w) : strLt k.1 k.2 = true := by
  rw [websiteCoauthKeys] at h
  refine foldl_invariant (fun keys => ∀ k2 ∈ keys, strLt k2.1 k2.2 = true) _ _ _
    (by simp) ?_ k h
  intro keys p hp hP
  intro k2 hk2
  rcases (mem_sadd _ _ _).mp hk2 with h2 | h2
  · exact hP k2 h2
  · rw [h2]
    exact sortPair_strLt (hw p hp)

/-- The keys of a dict built by repeated conditional `dset` over a fold have
no duplicates; specialised to the shape shared by the per-entity set dicts. -/
theorem refSetsFreq_keys_nodup (o : List OAFaculty) :
    (((refSetsFreq o).1).map Prod.fst).Nodup := by
  rw [refSetsFreq]
  refine foldl_invariant
    (fun (acc : List (String × List String) × List (String × Nat)) =>
      ((acc.1).map Prod.fst).Nodup) _ _ _ (by simp) ?_
  intro acc fac _ hP
  dsimp only
  split
  · exact hP
  · split
    · exact hP
    · exact keys_dset_nodup _ _ hP

theorem topicSets_keys_nodup (o : List OAFaculty) :
    ((topicSets o).map Prod.fst).Nodup := by
  rw [topicSets]
  refine foldl_invariant
    (fun (acc : List (String × List String)) => (acc.map Prod.fst).Nodup) _ _ _ (by simp) ?_
  intro acc fac _ hP
  dsimp only
  split
  · exact hP
  · split
    · exact hP
    · exact keys_dset_nodup _ _ hP

theorem journalSets_keys_nodup (o : List OAFaculty) :
    ((journalSets o).map Prod.fst).Nodup := by
  rw [journalSets]
  refine foldl_invariant
    (fun (acc : List (String × List String)) => (acc.map Prod.fst).Nodup) _ _ _ (by simp) ?_
  intro acc fac _ hP
  dsimp only
  split
  · exact hP
  · split
    · exact hP
    · exact keys_dset_nodup _ _ hP

/-- Keys produced by a pairwise-threshold fold over the unordered pairs of a
duplicate-free name list are strictly sorted pairs. -/
theorem pairFold_keys_sorted {β γ : Type} {names : List String} (hn : names.Nodup)
    (upd : List ((String × String) × β) →
      (String × String) → γ → List ((String × String) × β))
    (hupd : ∀ m pr g k2, k2 ∈ (upd m pr g).map Prod.fst →
      k2 = sortPair pr.1 pr.2 ∨ k2 ∈ m.map Prod.fst)
    (step : List ((String × String) × β) → String × String → List ((String × String) × β))
    (hstep : ∀ m pr, step m pr = m ∨ ∃ g, step m pr = upd m pr g)
    {k : String × String} (h : k ∈ ((pairsOf names).foldl step []).map Prod.fst) :
    strLt k.1 k.2 = true := by
  refine foldl_invariant
    (fun (acc : List ((String × String) × β)) =>
      ∀ k2 ∈ acc.map Prod.fst, strLt k2.1 k2.2 = true) _ _ _ (by simp) ?_ k h
  intro acc pr hpr hP
  rcases hstep acc pr with h2 | ⟨g, h2⟩
  · rw [h2]
    exact hP
  · rw [h2]
    intro k2 hk2
    rcases hupd acc pr g k2 hk2 with h3 | h3
    · rw [h3]
      exact sortPair_strLt (ne_of_mem_pairsOf hn hpr)
    · exact hP k2 h3

end BuildGraph2

namespace BuildGraph2

open FacultyVis

theorem sharedRefEdges_keys_sorted {o : List OAFaculty} {k : String × String}
    (h : k ∈ (sharedRefEdges o).map Prod.fst) : strLt k.1 k.2 = true := by
  rw [sharedRefEdges] at h
  refine pairFold_keys_sorted (refSetsFreq_keys_nodup o)
    (fun m pr g => dset m (sortPair pr.1 pr.2) g)
    (fun m pr g k2 hk2 => (mem_keys_dset _ _ _ _).mp hk2) _ ?_ h
  intro m pr
  dsimp only
  split
  · exact Or.inr ⟨_, rfl⟩
  · exact Or.inl rfl

theorem sharedTopicEdges_keys_sorted {o : List OAFaculty} {k : String × String}
    (h : k ∈ (sharedTopicEdges o).map Prod.fst) : strLt k.1 k.2 = true := by
  rw [sharedTopicEdges] at h
  refine pairFold_keys_sorted (topicSets_keys_nodup o)
    (fun m pr g => dset m (sortPair pr.1 pr.2) g)
    (fun m pr g k2 hk2 => (mem_keys_dset _ _ _ _).mp hk2) _ ?_ h
  intro m pr
  dsimp only
  split
  · exact Or.inr ⟨_, rfl⟩
  · exact Or.inl rfl

theorem sharedJournalEdges_keys_sorted {o : List OAFaculty} {k : String × String}
    (h : k ∈ (sharedJournalEdges o).map Prod.fst) : strLt k.1 k.2 = true := by
  rw [sharedJournalEdges] at h
  refine pairFold_keys_sorted (journalSets_keys_nodup o)
    (fun m pr g => dset m (sortPair pr.1 pr.2) g)
    (fun m pr g k2 hk2 => (mem_keys_dset _ _ _ _).mp hk2) _ ?_ h
  intro m pr
  dsimp only
  split
  · exact Or.inr ⟨_, rfl⟩
  · exact Or.inl rfl

/-- Every key the fuser iterates over is a strictly name-sorted pair of two
distinct rostered-or-not names, provided every website entry relates two
distinct names. -/
theorem map_fst_eta {α β : Type} (l : List (α × β)) :
    l.map (fun p => p.1) = l.map Prod.fst := rfl

theorem coauthorEdges_keys (idx : List (String × String)) (o : List OAFaculty) :
    (coauthorEdges idx o).map Prod.fst = (coauthorRaw idx o).map Prod.fst := by
  rw [coauthorEdges, List.map_map]
  rfl

/-- Every key the fuser iterates over is a strictly name-sorted pair of two
distinct names, provided every website entry relates two distinct names. -/
theorem allPairKeys_sorted {s : List ScholarFaculty} {o : List OAFaculty}
    {w : List WebsitePair} (hw : ∀ p ∈ w, p.source ≠ p.target) {k : String × String}
    (h : k ∈ allPairKeys s o w) : strLt k.1 k.2 = true := by
  rw [allPairKeys] at h
  simp only [mem_supdate, map_fst_eta, build_openalex_edges] at h
  rcases h with ((((((h | h) | h) | h) | h) | h) | h)
  · simp at h
  · exact scholar_keys_sorted h
  · rw [coauthorEdges_keys] at h
    exact coauthorRaw_keys_sorted h
  · exact website_keys_sorted hw h
  · exact sharedRefEdges_keys_sorted h
  · exact sharedTopicEdges_keys_sorted h
  · exact sharedJournalEdges_keys_sorted h

theorem mkEdge_source_target {sc wc : List (String × String)}
    {oc : List ((String × String) × CoEntry)} {sr : List ((String × String) × RefEntry)}
    {st sj : List ((String × String) × NamedEntry)} {key : String × String} {e : Edge}
    (h : mkEdge sc wc oc sr st sj key = some e) :
    e.source = key.1 ∧ e.target = key.2 := by
  rw [mkEdge] at h
  by_cases hin : key.1 ∉ all_names ∨ key.2 ∉ all_names
  · rw [if_pos hin] at h
    exact absurd h (by simp)
  · rw [if_neg hin] at h
    have he := Option.some_injective _ h
    subst he
    exact ⟨rfl, rfl⟩

end BuildGraph2

namespace ScrapeWebsites

open FacultyVis

theorem mem_find_coauthors_ne {all_names2 : List String} {text page_owner ca : String}
    (h : ca ∈ find_coauthors_in_text all_names2 text page_owner) : ca ≠ page_owner := by
  rw [find_coauthors_in_text] at h
  refine foldl_invariant (fun (found : List String) => ∀ c ∈ found, c ≠ page_owner) _ _ _
    (by simp) ?_ ca h
  intro found name _ hP
  by_cases h1 : name = page_owner
  · rw [if_pos h1]
    exact hP
  · rw [if_neg h1]
    split
    · intro c hc
      rcases (mem_sadd _ _ _).mp hc with h2 | h2
      · exact hP c h2
      · exact h2 ▸ h1
    · exact hP

theorem dset_values {α β : Type} [DecidableEq α] {Q : α × β → Prop}
    {m : List (α × β)} {k : α} {v : β} (hm : ∀ p ∈ m, Q p) (hv : Q (k, v)) :
    ∀ p ∈ dset m k v, Q p := by
  induction m with
  | nil =>
    intro p hp
    rw [dset] at hp
    rcases List.mem_singleton.mp hp with rfl
    exact hv
  | cons p2 rest ih =>
    intro p hp
    rw [dset] at hp
    by_cases he : p2.1 = k
    · rw [if_pos he] at hp
      rcases List.mem_cons.mp hp with rfl | h2
      · exact he ▸ hv
      · exact hm _ (List.mem_cons_of_mem _ h2)
    · rw [if_neg he] at hp
      rcases List.mem_cons.mp hp with rfl | h2
      · exact hm _ (List.mem_cons_self _ _)
      · exact ih (fun q hq => hm q (List.mem_cons_of_mem _ hq)) p h2

theorem dmod_values {α β : Type} [DecidableEq α] {Q : α × β → Prop}
    {m : List (α × β)} {k : α} {d : β} {f : β → β} (hm : ∀ p ∈ m, Q p)
    (hf : ∀ v, Q (k, v) → Q (k, f v)) (hd : Q (k, f d)) : ∀ p ∈ dmod m k d f, Q p := by
  induction m with
  | nil =>
    intro p hp
    rw [dmod] at hp
    rcases List.mem_singleton.mp hp with rfl
    exact hd
  | cons p2 rest ih =>
    intro p hp
    rw [dmod] at hp
    by_cases he : p2.1 = k
    · rw [if_pos he] at hp
      rcases List.mem_cons.mp hp with rfl | h2
      · subst he
        exact hf p2.2 (hm p2 (List.mem_cons_self _ _))
      · exact hm _ (List.mem_cons_of_mem _ h2)
    · rw [if_neg he] at hp
      rcases List.mem_cons.mp hp with rfl | h2
      · exact hm _ (List.mem_cons_self _ _)
      · exact ih (fun q hq => hm q (List.mem_cons_of_mem _ hq)) p h2

/-- Every entry the scraper writes to data/website_papers.json relates two
distinct names, with source strictly below target. -/
theorem websiteEntries_distinct {all_names2 : List String}
    {pages : List (String × String)} {p : (String × String) × WebEntry}
    (h : p ∈ websiteEntries all_names2 pages) :
    strLt p.2.source p.2.target = true := by
  rw [websiteEntries] at h
  refine foldl_invariant
    (fun (edges : List ((String × String) × WebEntry)) =>
      ∀ q ∈ edges, strLt q.2.source q.2.target = true) _ _ _ (by simp) ?_ p h
  intro edges pg _ hP
  split
  · exact hP
  · refine foldl_invariant
      (fun (edges2 : List ((String × String) × WebEntry)) =>
        ∀ q ∈ edges2, strLt q.2.source q.2.target = true) _ _ _ hP ?_
    intro edges2 ca hca hP2
    dsimp only
    have hkey : strLt (sortPair pg.1 ca).1 (sortPair pg.1 ca).2 = true :=
      sortPair_strLt (Ne.symm (mem_find_coauthors_ne hca))
    have h3 : ∀ q ∈ (if (dfind edges2 (sortPair pg.1 ca)).isSome then edges2
        else dset edges2 (sortPair pg.1 ca)
          { source := (sortPair pg.1 ca).1, target := (sortPair pg.1 ca).2, found_on := [] }),
        strLt q.2.source q.2.target = true := by
      split
      · exact hP2
      · exact dset_values hP2 hkey
    exact dmod_values h3 (fun v hv => hv) hkey

end ScrapeWebsites

open FacultyVis BuildGraph2 in
/-- Claim C2: every edge in the emitted list has weight strictly greater than
zero (zero-weight edges are dropped by the filter before the final sort) and
source lexicographically below target (the canonical name-sorted pair key),
for any input collections and any combination of contributing signals.  The
hypothesis that website entries relate two distinct names is exactly what the
repository scraper guarantees, restated here as the second conjunct about
ScrapeWebsites.websiteEntries. -/
theorem c2_edge_invariants {s : List ScholarFaculty} {o : List OAFaculty}
    {w : List WebsitePair} (hw : ∀ p ∈ w, p.source ≠ p.target) {e : Edge}
    (h : e ∈ mainEdges s o w) :
    (0 < e.weight ∧ strLt e.source e.target = true) ∧
    (∀ (all_names2 : List String) (pages : List (String × String)),
      ∀ q ∈ ScrapeWebsites.websiteEntries all_names2 pages, q.2.source ≠ q.2.target) := by
  constructor
  · rcases mem_mainEdges_spec h with ⟨hpos, key, hk, hmk⟩
    rcases mkEdge_source_target hmk with ⟨h1, h2⟩
    refine ⟨hpos, ?_⟩
    rw [h1, h2]
    exact allPairKeys_sorted hw hk
  · intro all_names2 pages q hq
    exact strLt_ne (ScrapeWebsites.websiteEntries_distinct hq)

open FacultyVis BuildGraph2 in
/-- Witness for c2_edge_invariants: hypotheses discharged at the concrete C1
scenario input, whose single emitted edge has weight 30 and sorted endpoints. -/
theorem c2_edge_invariants_witness :
    (∀ p ∈ c1_website, p.source ≠ p.target) ∧
    c1_edge ∈ mainEdges c1_scholar [] c1_website ∧
    0 < c1_edge.weight ∧ strLt c1_edge.source c1_edge.target = true := by
  have hw : ∀ p ∈ c1_website, p.source ≠ p.target := by decide
  have hm : c1_edge ∈ mainEdges c1_scholar [] c1_website := by
    rw [c1_eval]
    exact List.mem_singleton.mpr rfl
  exact ⟨hw, hm, (c2_edge_invariants hw hm).1⟩

namespace FacultyVis

theorem dfind_mem {α β : Type} [DecidableEq α] {m : List (α × β)} {k : α} {v : β}
    (h : dfind m k = some v) : (k, v) ∈ m := by
  induction m with
  | nil => exact Option.noConfusion h
  | cons p rest ih =>
    rw [dfind] at h
    by_cases he : p.1 = k
    · rw [if_pos he] at h
      have hv := Option.some_injective _ h
      subst hv
      subst he
      exact List.mem_cons_self _ _
    · rw [if_neg he] at h
      exact List.mem_cons_of_mem _ (ih h)

end FacultyVis

namespace BuildGraph2

open FacultyVis

theorem compute_area_manual {name : String} {raw : List (String × ℚ)}
    (h : dfind MANUAL_AREAS name = some raw) (oa : Option OAFaculty)
    (s : Option ScholarFaculty) :
    compute_area_distribution name oa s = manualDist raw := by
  rw [compute_area_distribution, h, manualDist]

end BuildGraph2

namespace BuildGraph2

open FacultyVis

/-- Every curated entry of MANUAL_AREAS yields shares that sum to exactly 1
and are sorted descending; checked by evaluation over the whole table. -/
theorem manual_table_fact :
    ∀ p ∈ MANUAL_AREAS,
      ((manualDist p.2).map (fun a => a.share)).sum = 1 ∧
      (manualDist p.2).Pairwise (fun a b => b.share ≤ a.share) := by
  intro p hp
  fin_cases hp <;>
    norm_num [manualDist, sortByLe, insertLe, round3, pyRound, round_eq, List.Pairwise]

end BuildGraph2

open FacultyVis BuildGraph2 in
/-- Claim C5: for every entity with a curated manual area distribution the
classifier returns exactly that distribution normalised to sum 1.0 and
sorted descending by weight, and this for every possible text corpus (the
two record arguments are universally quantified and the result mentions only
the curated entry, so the keyword text-scoring step contributes nothing). -/
theorem c5_manual_override {name : String} {raw : List (String × ℚ)}
    (h : dfind MANUAL_AREAS name = some raw) (oa : Option OAFaculty)
    (s : Option ScholarFaculty) :
    compute_area_distribution name oa s = manualDist raw ∧
    ((manualDist raw).map (fun a => a.share)).sum = 1 ∧
    (manualDist raw).Pairwise (fun a b => b.share ≤ a.share) := by
  refine ⟨compute_area_manual h oa s, ?_⟩
  exact manual_table_fact (name, raw) (dfind_mem h)

open FacultyVis BuildGraph2 in
/-- Witness for c5_manual_override at the curated entry for Jinho Choi, with
an empty corpus on one side and no records at all. -/
theorem c5_manual_override_witness :
    dfind MANUAL_AREAS "Jinho Choi" = some [("NLP / Computational", 4)] ∧
    compute_area_distribution "Jinho Choi" none none =
      manualDist [("NLP / Computational", 4)] ∧
    ((manualDist [("NLP / Computational", (4 : ℚ))]).map (fun a => a.share)).sum = 1 := by
  have h : dfind MANUAL_AREAS "Jinho Choi" = some [("NLP / Computational", 4)] := by
    decide
  exact ⟨h, (c5_manual_override h none none).1, (c5_manual_override h none none).2.1⟩

namespace BuildGraph2

open FacultyVis

theorem mkEdge_mem_all_names {sc wc : List (String × String)}
    {oc : List ((String × String) × CoEntry)} {sr : List ((String × String) × RefEntry)}
    {st sj : List ((String × String) × NamedEntry)} {key : String × String} {e : Edge}
    (h : mkEdge sc wc oc sr st sj key = some e) :
    e.source ∈ all_names ∧ e.target ∈ all_names := by
  rcases mkEdge_source_target h with ⟨h1, h2⟩
  rw [mkEdge] at h
  by_cases hin : key.1 ∉ all_names ∨ key.2 ∉ all_names
  · rw [if_pos hin] at h
    exact absurd h (by simp)
  · push_neg at hin
    rw [h1, h2]
    simpa using hin

end BuildGraph2

open FacultyVis BuildGraph2 in
/-- Claim C10: the output node list of the merged build has exactly one node
per key of MANUAL_AREAS, in strictly ascending name order, every fused edge
whose endpoints are not both curated keys is silently discarded before
weight computation (mkEdge returns none for such a key, and every emitted
edge has rostered endpoints), and every node area distribution equals the
manual-override branch value, independent of the input records. -/
theorem c10_manual_roster (s : List ScholarFaculty) (o : List OAFaculty)
    (w : List WebsitePair) :
    (mainNodes s o).map (fun n => n.id) = sortByLe strLe all_names ∧
    ((mainNodes s o).map (fun n => n.id)).Perm (MANUAL_AREAS.map Prod.fst) ∧
    ((mainNodes s o).map (fun n => n.id)).Pairwise (fun a b => strLt a b = true) ∧
    (∀ e ∈ mainEdges s o w, e.source ∈ all_names ∧ e.target ∈ all_names) ∧
    (∀ key : String × String, key.1 ∉ all_names ∨ key.2 ∉ all_names →
      mkEdge (build_scholar_coauthor_edges s) (websiteCoauthKeys w)
        (build_openalex_edges o).1 (build_openalex_edges o).2.1
        (build_openalex_edges o).2.2.1 (build_openalex_edges o).2.2.2 key = none) ∧
    (∀ node ∈ mainNodes s o, node.areas = compute_area_distribution node.id none none) := by
  have hids : (mainNodes s o).map (fun n => n.id) = sortByLe strLe all_names := by
    rw [mainNodes, List.map_map]
    rfl
  refine ⟨hids, ?_, ?_, ?_, ?_, ?_⟩
  · rw [hids]
    exact sortByLe_perm strLe (MANUAL_AREAS.map Prod.fst)
  · rw [hids]
    decide
  · intro e he
    rcases mem_mainEdges_spec he with ⟨-, key, -, hmk⟩
    exact mkEdge_mem_all_names hmk
  · intro key hkey
    rw [mkEdge, if_pos hkey]
  · intro node hnode
    rw [mainNodes] at hnode
    rcases List.mem_map.mp hnode with ⟨name, hname, he⟩
    subst he
    have hmem : name ∈ all_names := mem_sortByLe.mp hname
    have hsome : (dfind MANUAL_AREAS name).isSome :=
      (dfind_isSome_iff_mem_keys MANUAL_AREAS name).mpr hmem
    rcases ho : dfind MANUAL_AREAS name with _ | raw
    · rw [ho] at hsome
      exact absurd hsome (by simp)
    · have hid : (mkNode (s.foldl (fun m s2 => dset m s2.name s2) [])
          (o.foldl (fun m f => dset m f.name f) []) name).id = name := rfl
      rw [hid]
      rw [show (mkNode (s.foldl (fun m s2 => dset m s2.name s2) [])
          (o.foldl (fun m f => dset m f.name f) []) name).areas =
          compute_area_distribution name
            (dfind (o.foldl (fun m f => dset m f.name f) []) name)
            (dfind (s.foldl (fun m s2 => dset m s2.name s2) []) name) from rfl]
      rw [compute_area_manual ho, compute_area_manual ho]

open FacultyVis BuildGraph2 in
/-- Witness for c10_manual_roster: inner hypotheses discharged at the
concrete C1 scenario input and at a concrete non-rostered key. -/
theorem c10_manual_roster_witness :
    (c1_edge.source ∈ all_names ∧ c1_edge.target ∈ all_names) ∧
    mkEdge (build_scholar_coauthor_edges c1_scholar) (websiteCoauthKeys c1_website)
      (build_openalex_edges []).1 (build_openalex_edges []).2.1
      (build_openalex_edges []).2.2.1 (build_openalex_edges []).2.2.2
      ("Nobody", "Weihua An") = none := by
  have hm : c1_edge ∈ mainEdges c1_scholar [] c1_website := by
    rw [c1_eval]
    exact List.mem_singleton.mpr rfl
  refine ⟨(c10_manual_roster c1_scholar [] c1_website).2.2.2.1 c1_edge hm, ?_⟩
  exact (c10_manual_roster c1_scholar [] c1_website).2.2.2.2.1 ("Nobody", "Weihua An")
    (by left; decide)


namespace BuildGraph2

open FacultyVis

/-- Keys produced by a pairwise-threshold fold satisfy any property enjoyed
by every sorted pair of the underlying name list. -/
theorem pairFold_keys_prop {β γ : Type} {names : List String}
    (Q : String × String → Prop)
    (upd : List ((String × String) × β) → String × String → γ →
      List ((String × String) × β))
    (hupd : ∀ m pr g k2, k2 ∈ (upd m pr g).map Prod.fst →
      k2 = sortPair pr.1 pr.2 ∨ k2 ∈ m.map Prod.fst)
    (step : List ((String × String) × β) → String × String → List ((String × String) × β))
    (hstep : ∀ m pr, step m pr = m ∨ ∃ g, step m pr = upd m pr g)
    (hQ : ∀ pr ∈ pairsOf names, Q (sortPair pr.1 pr.2))
    {k : String × String} (h : k ∈ ((pairsOf names).foldl step []).map Prod.fst) :
    Q k := by
  refine foldl_invariant
    (fun (acc : List ((String × String) × β)) => ∀ k2 ∈ acc.map Prod.fst, Q k2)
    _ _ _ (by simp) ?_ k h
  intro acc pr hpr hP
  rcases hstep acc pr with h2 | ⟨g, h2⟩
  · rw [h2]
    exact hP
  · rw [h2]
    intro k2 hk2
    rcases hupd acc pr g k2 hk2 with h3 | h3
    · rw [h3]
      exact hQ pr hpr
    · exact hP k2 h3

theorem sortPair_components {a b x : String} (h : x = (sortPair a b).1 ∨ x = (sortPair a b).2) :
    x = a ∨ x = b := by
  rcases sortPair_cases a b with he | he <;> rw [he] at h <;> tauto

/-- Every name appearing in a ref-set key belongs to a record with nonempty
works. -/
theorem refSets_keys_spec {o : List OAFaculty} {k : String}
    (h : k ∈ ((refSetsFreq o).1).map Prod.fst) :
    ∃ fac ∈ o, fac.name = k ∧ fac.works ≠ [] := by
  rw [refSetsFreq] at h
  refine foldl_invariant
    (fun (acc : List (String × List String) × List (String × Nat)) =>
      ∀ k2 ∈ (acc.1).map Prod.fst, ∃ fac ∈ o, fac.name = k2 ∧ fac.works ≠ []) _ _ _
    (by simp) ?_ k h
  intro acc fac hfac hP
  dsimp only
  split
  · exact hP
  · next hc =>
    split
    · exact hP
    · intro k2 hk2
      rcases (mem_keys_dset _ _ _ _).mp hk2 with h2 | h2
      · subst h2
        push_neg at hc
        exact ⟨fac, hfac, rfl, by simpa using hc.1⟩
      · exact hP k2 h2

/-- Every name appearing in a topic-set key belongs to a record with a
nonempty accumulated topic set. -/
theorem topicSets_keys_spec {o : List OAFaculty} {k : String}
    (h : k ∈ (topicSets o).map Prod.fst) :
    ∃ fac ∈ o, fac.name = k ∧ topicSetOf fac ≠ [] := by
  rw [topicSets] at h
  refine foldl_invariant
    (fun (acc : List (String × List String)) =>
      ∀ k2 ∈ acc.map Prod.fst, ∃ fac ∈ o, fac.name = k2 ∧ topicSetOf fac ≠ []) _ _ _
    (by simp) ?_ k h
  intro acc fac hfac hP
  dsimp only
  split
  · exact hP
  · split
    · exact hP
    · next ht =>
      intro k2 hk2
      rcases (mem_keys_dset _ _ _ _).mp hk2 with h2 | h2
      · subst h2
        exact ⟨fac, hfac, rfl, by simpa [topicSetOf] using ht⟩
      · exact hP k2 h2

/-- Every name appearing in a journal-set key belongs to a record with a
nonempty accumulated journal set. -/
theorem journalSets_keys_spec {o : List OAFaculty} {k : String}
    (h : k ∈ (journalSets o).map Prod.fst) :
    ∃ fac ∈ o, fac.name = k ∧ journalSetOf fac ≠ [] := by
  rw [journalSets] at h
  refine foldl_invariant
    (fun (acc : List (String × List String)) =>
      ∀ k2 ∈ acc.map Prod.fst, ∃ fac ∈ o, fac.name = k2 ∧ journalSetOf fac ≠ []) _ _ _
    (by simp) ?_ k h
  intro acc fac hfac hP
  dsimp only
  split
  · exact hP
  · split
    · exact hP
    · next ht =>
      intro k2 hk2
      rcases (mem_keys_dset _ _ _ _).mp hk2 with h2 | h2
      · subst h2
        exact ⟨fac, hfac, rfl, by simpa [journalSetOf] using ht⟩
      · exact hP k2 h2

end BuildGraph2

namespace BuildGraph2

open FacultyVis

theorem sharedRefEdges_keys_components {o : List OAFaculty} {k : String × String}
    (h : k ∈ (sharedRefEdges o).map Prod.fst) :
    k.1 ∈ ((refSetsFreq o).1).map Prod.fst ∧ k.2 ∈ ((refSetsFreq o).1).map Prod.fst := by
  rw [sharedRefEdges] at h
  refine pairFold_keys_prop
    (fun k2 => k2.1 ∈ ((refSetsFreq o).1).map Prod.fst ∧ k2.2 ∈ ((refSetsFreq o).1).map Prod.fst)
    (fun m pr g => dset m (sortPair pr.1 pr.2) g)
    (fun m pr g k2 hk2 => (mem_keys_dset _ _ _ _).mp hk2) _ ?_ ?_ h
  · intro m pr
    dsimp only
    split
    · exact Or.inr ⟨_, rfl⟩
    · exact Or.inl rfl
  · intro pr hpr
    rcases mem_pairsOf hpr with ⟨h1, h2⟩
    rcases sortPair_cases pr.1 pr.2 with he | he <;> rw [he]
    · exact ⟨h1, h2⟩
    · exact ⟨h2, h1⟩

theorem sharedTopicEdges_keys_components {o : List OAFaculty} {k : String × String}
    (h : k ∈ (sharedTopicEdges o).map Prod.fst) :
    k.1 ∈ (topicSets o).map Prod.fst ∧ k.2 ∈ (topicSets o).map Prod.fst := by
  rw [sharedTopicEdges] at h
  refine pairFold_keys_prop
    (fun k2 => k2.1 ∈ (topicSets o).map Prod.fst ∧ k2.2 ∈ (topicSets o).map Prod.fst)
    (fun m pr g => dset m (sortPair pr.1 pr.2) g)
    (fun m pr g k2 hk2 => (mem_keys_dset _ _ _ _).mp hk2) _ ?_ ?_ h
  · intro m pr
    dsimp only
    split
    · exact Or.inr ⟨_, rfl⟩
    · exact Or.inl rfl
  · intro pr hpr
    rcases mem_pairsOf hpr with ⟨h1, h2⟩
    rcases sortPair_cases pr.1 pr.2 with he | he <;> rw [he]
    · exact ⟨h1, h2⟩
    · exact ⟨h2, h1⟩

theorem sharedJournalEdges_keys_components {o : List OAFaculty} {k : String × String}
    (h : k ∈ (sharedJournalEdges o).map Prod.fst) :
    k.1 ∈ (journalSets o).map Prod.fst ∧ k.2 ∈ (journalSets o).map Prod.fst := by
  rw [sharedJournalEdges] at h
  refine pairFold_keys_prop
    (fun k2 => k2.1 ∈ (journalSets o).map Prod.fst ∧ k2.2 ∈ (journalSets o).map Prod.fst)
    (fun m pr g => dset m (sortPair pr.1 pr.2) g)
    (fun m pr g k2 hk2 => (mem_keys_dset _ _ _ _).mp hk2) _ ?_ ?_ h
  · intro m pr
    dsimp only
    split
    · exact Or.inr ⟨_, rfl⟩
    · exact Or.inl rfl
  · intro pr hpr
    rcases mem_pairsOf hpr with ⟨h1, h2⟩
    rcases sortPair_cases pr.1 pr.2 with he | he <;> rw [he]
    · exact ⟨h1, h2⟩
    · exact ⟨h2, h1⟩

end BuildGraph2

open FacultyVis BuildGraph2 in
/-- Claim C9, as stated, is false on the code: entity A has zero works and
entity B has works, yet the record-based co-authorship extractor produces an
edge between them, because the work record of B lists the author id of A. -/
theorem c9_counterexample :
    c9A.works = [] ∧ c9B.works ≠ [] ∧
    ¬ (∀ k ∈ ((build_openalex_edges [c9A, c9B]).1).map Prod.fst,
        c9A.name ≠ k.1 ∧ c9A.name ≠ k.2) := by
  refine ⟨rfl, by simp [c9B], ?_⟩
  intro h
  exact (h ("A Person", "B Person") (by decide)).1 rfl

open FacultyVis BuildGraph2 in
/-- Claim C9 as amended: an entity with zero works appears in no
shared-reference and no shared-journal edge, and in no shared-topic edge
unless it carries profile topic tags; a record-based co-authorship edge can
still involve it, produced from the other endpoint work records (see the
counterexample).  The name-uniqueness hypothesis matches the fixed-roster
data model. -/
theorem c9_zero_works {o : List OAFaculty} (hnd : (o.map (fun f => f.name)).Nodup)
    {fac : OAFaculty} (hfac : fac ∈ o) (hzero : fac.works = []) :
    (∀ k ∈ (sharedRefEdges o).map Prod.fst, fac.name ≠ k.1 ∧ fac.name ≠ k.2) ∧
    (∀ k ∈ (sharedJournalEdges o).map Prod.fst, fac.name ≠ k.1 ∧ fac.name ≠ k.2) ∧
    (fac.topics = [] →
      ∀ k ∈ (sharedTopicEdges o).map Prod.fst, fac.name ≠ k.1 ∧ fac.name ≠ k.2) := by
  have hinj := List.inj_on_of_nodup_map hnd
  have hname : ∀ fac2 ∈ o, fac2.name = fac.name → fac2 = fac := by
    intro fac2 h2 he
    exact hinj h2 hfac he
  refine ⟨?_, ?_, ?_⟩
  · intro k hk
    rcases sharedRefEdges_keys_components hk with ⟨h1, h2⟩
    constructor
    · intro he
      rcases refSets_keys_spec (he ▸ h1) with ⟨fac2, hf2, hn2, hw2⟩
      exact hw2 ((hname fac2 hf2 hn2) ▸ hzero)
    · intro he
      rcases refSets_keys_spec (he ▸ h2) with ⟨fac2, hf2, hn2, hw2⟩
      exact hw2 ((hname fac2 hf2 hn2) ▸ hzero)
  · intro k hk
    rcases sharedJournalEdges_keys_components hk with ⟨h1, h2⟩
    have hj : journalSetOf fac = [] := by
      rw [journalSetOf, hzero]
      rfl
    constructor
    · intro he
      rcases journalSets_keys_spec (he ▸ h1) with ⟨fac2, hf2, hn2, hw2⟩
      exact hw2 ((hname fac2 hf2 hn2) ▸ hj)
    · intro he
      rcases journalSets_keys_spec (he ▸ h2) with ⟨fac2, hf2, hn2, hw2⟩
      exact hw2 ((hname fac2 hf2 hn2) ▸ hj)
  · intro htop k hk
    rcases sharedTopicEdges_keys_components hk with ⟨h1, h2⟩
    have ht : topicSetOf fac = [] := by
      rw [topicSetOf, hzero, htop]
      rfl
    constructor
    · intro he
      rcases topicSets_keys_spec (he ▸ h1) with ⟨fac2, hf2, hn2, hw2⟩
      exact hw2 ((hname fac2 hf2 hn2) ▸ ht)
    · intro he
      rcases topicSets_keys_spec (he ▸ h2) with ⟨fac2, hf2, hn2, hw2⟩
      exact hw2 ((hname fac2 hf2 hn2) ▸ ht)

open FacultyVis BuildGraph2 in
/-- Witness for c9_zero_works: hypotheses discharged at the concrete C9
scenario records. -/
theorem c9_zero_works_witness :
    ([c9A, c9B].map (fun f => f.name)).Nodup ∧ c9A ∈ [c9A, c9B] ∧ c9A.works = [] ∧
    (∀ k ∈ (sharedRefEdges [c9A, c9B]).map Prod.fst,
      c9A.name ≠ k.1 ∧ c9A.name ≠ k.2) := by
  have hnd : ([c9A, c9B].map (fun f => f.name)).Nodup := by decide
  have hfac : c9A ∈ [c9A, c9B] := List.mem_cons_self _ _
  exact ⟨hnd, hfac, rfl, (c9_zero_works hnd hfac rfl).1⟩

namespace FacultyVis

theorem foldl_append_eq_map {α β : Type} (g : α → β) (l : List α) (acc : List β) :
    l.foldl (fun cl x => cl ++ [g x]) acc = acc ++ l.map g := by
  induction l generalizing acc with
  | nil => simp
  | cons x xs ih => simp [ih]

end FacultyVis

namespace BuildGraph

open FacultyVis

theorem load_faculty_eq_map (data : List OAFaculty) :
    load_faculty data = data.map clearFac := by
  rw [load_faculty]
  have hfun : (fun (clean : List OAFaculty) fac =>
      if fac.name ∈ BAD_MATCHES then
        clean ++ [{ fac with openalex_id := none, works := [], works_count := 0, topics := [] }]
      else clean ++ [fac]) = (fun clean fac => clean ++ [clearFac fac]) := by
    funext clean fac
    rw [clearFac]
    split <;> rfl
  rw [hfun, foldl_append_eq_map, List.nil_append]

theorem clearFac_name (fac : OAFaculty) : (clearFac fac).name = fac.name := by
  rw [clearFac]
  split <;> rfl

theorem clearFac_bad {fac : OAFaculty} (h : (clearFac fac).name ∈ BAD_MATCHES) :
    (clearFac fac).openalex_id = none ∧ (clearFac fac).works = [] ∧
    (clearFac fac).works_count = 0 ∧ (clearFac fac).topics = [] := by
  rw [clearFac_name] at h
  rw [clearFac, if_pos h]
  exact ⟨rfl, rfl, rfl, rfl⟩

/-- Every value of the author index is the name of a roster record with a
truthy external id. -/
theorem build_author_index_values {faculty : List OAFaculty} {p : String × String}
    (h : p ∈ build_author_index faculty) :
    ∃ fac ∈ faculty, fac.name = p.2 ∧ truthyStr fac.openalex_id = true := by
  rw [build_author_index] at h
  refine foldl_invariant
    (fun (idx : List (String × String)) =>
      ∀ q ∈ idx, ∃ fac ∈ faculty, fac.name = q.2 ∧ truthyStr fac.openalex_id = true)
    _ _ _ (by simp) ?_ p h
  intro idx fac hfac hP
  split
  · next ht =>
    exact ScrapeWebsites.dset_values hP ⟨fac, hfac, rfl, ht⟩
  · exact hP

theorem mem_facultyCoauthors_value {idx : List (String × String)} {facName : String}
    {work : Work} {n : String} (h : n ∈ BuildGraph2.facultyCoauthors idx facName work) :
    ∃ aid, dfind idx aid = some n := by
  rcases List.mem_filterMap.mp h with ⟨aid, _, hf⟩
  rcases ho : dfind idx aid with _ | m
  · simp only [ho] at hf
    exact Option.noConfusion hf
  · simp only [ho] at hf
    by_cases he : m ≠ facName
    · rw [if_pos he] at hf
      exact ⟨aid, ho.trans (congrArg some (Option.some_injective _ hf))⟩
    · rw [if_neg he] at hf
      exact absurd hf (by simp)

/-- Both names of every key of the raw co-author accumulation belong to
records with a truthy external id (the scanning record for one side, an
author-index value for the other). -/
theorem coauthorRaw1_keys_spec {faculty : List OAFaculty} {idx : List (String × String)}
    {k : String × String} (h : k ∈ (coauthorRaw1 faculty idx).map Prod.fst) :
    ∀ x, (x = k.1 ∨ x = k.2) →
      (∃ fac ∈ faculty, fac.name = x ∧ truthyStr fac.openalex_id = true) ∨
      (∃ q ∈ idx, q.2 = x) := by
  rw [coauthorRaw1] at h
  refine foldl_invariant
    (fun (acc : List ((String × String) × CoPapers)) =>
      ∀ k2 ∈ acc.map Prod.fst, ∀ x, (x = k2.1 ∨ x = k2.2) →
        (∃ fac ∈ faculty, fac.name = x ∧ truthyStr fac.openalex_id = true) ∨
        (∃ q ∈ idx, q.2 = x)) _ _ _ (by simp) ?_ k h
  intro acc fac hfac hP
  split
  · exact hP
  · next hc =>
    refine foldl_invariant
      (fun (acc2 : List ((String × String) × CoPapers)) =>
        ∀ k2 ∈ acc2.map Prod.fst, ∀ x, (x = k2.1 ∨ x = k2.2) →
          (∃ fac2 ∈ faculty, fac2.name = x ∧ truthyStr fac2.openalex_id = true) ∨
          (∃ q ∈ idx, q.2 = x)) _ _ _ hP ?_
    intro acc2 work _ hP2
    refine foldl_invariant
      (fun (acc3 : List ((String × String) × CoPapers)) =>
        ∀ k2 ∈ acc3.map Prod.fst, ∀ x, (x = k2.1 ∨ x = k2.2) →
          (∃ fac2 ∈ faculty, fac2.name = x ∧ truthyStr fac2.openalex_id = true) ∨
          (∃ q ∈ idx, q.2 = x)) _ _ _ hP2 ?_
    intro acc3 ca hca hP3
    intro k2 hk2 x hx
    rcases (mem_keys_dmod _ _ _ _ _).mp hk2 with h2 | h2
    · subst h2
      have ht : truthyStr fac.openalex_id = true := not_not.mp hc
      have hx2 : x = fac.name ∨ x = ca := BuildGraph2.sortPair_components (by
        rcases hx with hx | hx <;> [exact Or.inl hx; exact Or.inr hx])
      rcases hx2 with h3 | h3
      · exact Or.inl ⟨fac, hfac, h3.symm, ht⟩
      · rcases mem_facultyCoauthors_value hca with ⟨aid, hfind⟩
        exact Or.inr ⟨(aid, ca), dfind_mem hfind, h3.symm⟩
    · exact hP3 k2 h2 x hx

end BuildGraph

namespace BuildGraph

open FacultyVis
open BuildGraph2 (pairFold_keys_prop sortPair_components)

theorem refSets1_keys_spec {fl : List OAFaculty} {k : String}
    (h : k ∈ (refSets1 fl).map Prod.fst) :
    ∃ fac ∈ fl, fac.name = k ∧ fac.works ≠ [] := by
  rw [refSets1] at h
  refine foldl_invariant
    (fun (acc : List (String × List String)) =>
      ∀ k2 ∈ acc.map Prod.fst, ∃ fac ∈ fl, fac.name = k2 ∧ fac.works ≠ []) _ _ _
    (by simp) ?_ k h
  intro acc fac hfac hP
  dsimp only
  split
  · next hc =>
    exact hP
  · next hc =>
    split
    · exact hP
    · intro k2 hk2
      rcases (mem_keys_dset _ _ _ _).mp hk2 with h2 | h2
      · subst h2
        exact ⟨fac, hfac, rfl, by simpa using hc⟩
      · exact hP k2 h2

theorem topicSets1_keys_spec {fl : List OAFaculty} {k : String}
    (h : k ∈ (topicSets1 fl).map Prod.fst) :
    ∃ fac ∈ fl, fac.name = k ∧ topicSet1Of fac ≠ [] := by
  rw [topicSets1] at h
  refine foldl_invariant
    (fun (acc : List (String × List String)) =>
      ∀ k2 ∈ acc.map Prod.fst, ∃ fac ∈ fl, fac.name = k2 ∧ topicSet1Of fac ≠ []) _ _ _
    (by simp) ?_ k h
  intro acc fac hfac hP
  dsimp only
  split
  · exact hP
  · next ht =>
    intro k2 hk2
    rcases (mem_keys_dset _ _ _ _).mp hk2 with h2 | h2
    · subst h2
      exact ⟨fac, hfac, rfl, by simpa [topicSet1Of] using ht⟩
    · exact hP k2 h2

theorem journalSets1_keys_spec {fl : List OAFaculty} {k : String}
    (h : k ∈ (journalSets1 fl).map Prod.fst) :
    ∃ fac ∈ fl, fac.name = k ∧ journalSet1Of fac ≠ [] := by
  rw [journalSets1] at h
  refine foldl_invariant
    (fun (acc : List (String × List String)) =>
      ∀ k2 ∈ acc.map Prod.fst, ∃ fac ∈ fl, fac.name = k2 ∧ journalSet1Of fac ≠ []) _ _ _
    (by simp) ?_ k h
  intro acc fac hfac hP
  dsimp only
  split
  · exact hP
  · next ht =>
    intro k2 hk2
    rcases (mem_keys_dset _ _ _ _).mp hk2 with h2 | h2
    · subst h2
      exact ⟨fac, hfac, rfl, by simpa [journalSet1Of] using ht⟩
    · exact hP k2 h2

theorem find_shared_reference_edges_components {fl : List OAFaculty} {k : String × String}
    (h : k ∈ (find_shared_reference_edges fl).map Prod.fst) :
    k.1 ∈ (refSets1 fl).map Prod.fst ∧ k.2 ∈ (refSets1 fl).map Prod.fst := by
  rw [find_shared_reference_edges] at h
  refine pairFold_keys_prop
    (fun k2 => k2.1 ∈ (refSets1 fl).map Prod.fst ∧ k2.2 ∈ (refSets1 fl).map Prod.fst)
    (fun m pr g => dset m (sortPair pr.1 pr.2) g)
    (fun m pr g k2 hk2 => (mem_keys_dset _ _ _ _).mp hk2) _ ?_ ?_ h
  · intro m pr
    dsimp only
    split
    · exact Or.inr ⟨_, rfl⟩
    · exact Or.inl rfl
  · intro pr hpr
    rcases mem_pairsOf hpr with ⟨h1, h2⟩
    rcases sortPair_cases pr.1 pr.2 with he | he <;> rw [he]
    · exact ⟨h1, h2⟩
    · exact ⟨h2, h1⟩

theorem find_shared_topic_edges_components {fl : List OAFaculty} {k : String × String}
    (h : k ∈ (find_shared_topic_edges fl).map Prod.fst) :
    k.1 ∈ (topicSets1 fl).map Prod.fst ∧ k.2 ∈ (topicSets1 fl).map Prod.fst := by
  rw [find_shared_topic_edges] at h
  refine pairFold_keys_prop
    (fun k2 => k2.1 ∈ (topicSets1 fl).map Prod.fst ∧ k2.2 ∈ (topicSets1 fl).map Prod.fst)
    (fun m pr g => dset m (sortPair pr.1 pr.2) g)
    (fun m pr g k2 hk2 => (mem_keys_dset _ _ _ _).mp hk2) _ ?_ ?_ h
  · intro m pr
    dsimp only
    split
    · exact Or.inr ⟨_, rfl⟩
    · exact Or.inl rfl
  · intro pr hpr
    rcases mem_pairsOf hpr with ⟨h1, h2⟩
    rcases sortPair_cases pr.1 pr.2 with he | he <;> rw [he]
    · exact ⟨h1, h2⟩
    · exact ⟨h2, h1⟩

theorem find_shared_journal_edges_components {fl : List OAFaculty} {k : String × String}
    (h : k ∈ (find_shared_journal_edges fl).map Prod.fst) :
    k.1 ∈ (journalSets1 fl).map Prod.fst ∧ k.2 ∈ (journalSets1 fl).map Prod.fst := by
  rw [find_shared_journal_edges] at h
  refine pairFold_keys_prop
    (fun k2 => k2.1 ∈ (journalSets1 fl).map Prod.fst ∧ k2.2 ∈ (journalSets1 fl).map Prod.fst)
    (fun m pr g => dset m (sortPair pr.1 pr.2) g)
    (fun m pr g k2 hk2 => (mem_keys_dset _ _ _ _).mp hk2) _ ?_ ?_ h
  · intro m pr
    dsimp only
    split
    · exact Or.inr ⟨_, rfl⟩
    · exact Or.inl rfl
  · intro pr hpr
    rcases mem_pairsOf hpr with ⟨h1, h2⟩
    rcases sortPair_cases pr.1 pr.2 with he | he <;> rw [he]
    · exact ⟨h1, h2⟩
    · exact ⟨h2, h1⟩

/-- The keys of find_coauthor_edges are the keys of the raw accumulation. -/
theorem find_coauthor_edges_keys (fl : List OAFaculty) (idx : List (String × String)) :
    (find_coauthor_edges fl idx).map Prod.fst = (coauthorRaw1 fl idx).map Prod.fst := by
  rw [find_coauthor_edges, List.map_map]
  rfl

end BuildGraph

open FacultyVis BuildGraph in
/-- Claim C6: every entity on the exclusion list keeps its node but has its
external id nulled and its works, works count and derived topic tags
cleared, the roster names are unchanged, the node list contains a node for
it with null external id and zero works count, and its name appears in no
key of any of the four pairwise signal extractors. -/
theorem c6_exclusion (data : List OAFaculty) :
    (∀ fac ∈ load_faculty data, fac.name ∈ BAD_MATCHES →
      fac.openalex_id = none ∧ fac.works = [] ∧ fac.works_count = 0 ∧ fac.topics = []) ∧
    ((load_faculty data).map (fun f => f.name) = data.map (fun f => f.name)) ∧
    (∀ name ∈ BAD_MATCHES, name ∈ data.map (fun f => f.name) →
      ∃ node ∈ mainNodes1 (load_faculty data),
        node.id = name ∧ node.openalex_id = none ∧ node.works_count = 0) ∧
    (∀ name ∈ BAD_MATCHES,
      (∀ k ∈ (find_coauthor_edges (load_faculty data)
          (build_author_index (load_faculty data))).map Prod.fst,
        name ≠ k.1 ∧ name ≠ k.2) ∧
      (∀ k ∈ (find_shared_reference_edges (load_faculty data)).map Prod.fst,
        name ≠ k.1 ∧ name ≠ k.2) ∧
      (∀ k ∈ (find_shared_topic_edges (load_faculty data)).map Prod.fst,
        name ≠ k.1 ∧ name ≠ k.2) ∧
      (∀ k ∈ (find_shared_journal_edges (load_faculty data)).map Prod.fst,
        name ≠ k.1 ∧ name ≠ k.2)) := by
  have hcleared : ∀ fac ∈ load_faculty data, fac.name ∈ BAD_MATCHES →
      fac.openalex_id = none ∧ fac.works = [] ∧ fac.works_count = 0 ∧ fac.topics = [] := by
    intro fac hfac hbad
    rw [load_faculty_eq_map] at hfac
    rcases List.mem_map.mp hfac with ⟨f0, _, he⟩
    subst he
    exact clearFac_bad hbad
  have hnames : ∀ x ∈ load_faculty data, ∀ name, x.name = name → name ∈ BAD_MATCHES →
      x.openalex_id = none ∧ x.works = [] ∧ x.works_count = 0 ∧ x.topics = [] := by
    intro x hx name he hbad
    exact hcleared x hx (he ▸ hbad)
  refine ⟨hcleared, ?_, ?_, ?_⟩
  · rw [load_faculty_eq_map, List.map_map]
    simp [Function.comp, clearFac_name]
  · intro name hbad hmem
    rcases List.mem_map.mp hmem with ⟨f0, hf0, he⟩
    have hclean : clearFac f0 ∈ load_faculty data := by
      rw [load_faculty_eq_map]
      exact List.mem_map_of_mem clearFac hf0
    have hbadname : (clearFac f0).name ∈ BAD_MATCHES := by
      rw [clearFac_name, he]
      exact hbad
    rcases clearFac_bad hbadname with ⟨h1, h2, h3, h4⟩
    refine ⟨_, List.mem_map_of_mem _ hclean, ?_, ?_, ?_⟩
    · rw [clearFac_name]
      exact he
    · exact h1
    · exact h3
  · intro name hbad
    refine ⟨?_, ?_, ?_, ?_⟩
    · intro k hk
      rw [find_coauthor_edges_keys] at hk
      have hspec := coauthorRaw1_keys_spec hk
      constructor
      · intro he
        rcases hspec name (Or.inl he) with ⟨fac, hfac, hn, ht⟩ | ⟨q, hq, hn⟩
        · rcases hnames fac hfac name hn hbad with ⟨h1, -⟩
          rw [h1] at ht
          exact Bool.false_ne_true ht
        · rcases build_author_index_values hq with ⟨fac, hfac, hn2, ht⟩
          rcases hnames fac hfac name (hn2.trans hn) hbad with ⟨h1, -⟩
          rw [h1] at ht
          exact Bool.false_ne_true ht
      · intro he
        rcases hspec name (Or.inr he) with ⟨fac, hfac, hn, ht⟩ | ⟨q, hq, hn⟩
        · rcases hnames fac hfac name hn hbad with ⟨h1, -⟩
          rw [h1] at ht
          exact Bool.false_ne_true ht
        · rcases build_author_index_values hq with ⟨fac, hfac, hn2, ht⟩
          rcases hnames fac hfac name (hn2.trans hn) hbad with ⟨h1, -⟩
          rw [h1] at ht
          exact Bool.false_ne_true ht
    · intro k hk
      rcases find_shared_reference_edges_components hk with ⟨h1, h2⟩
      constructor
      · intro he
        rcases refSets1_keys_spec (he ▸ h1) with ⟨fac, hfac, hn, hw⟩
        exact hw (hnames fac hfac name hn hbad).2.1
      · intro he
        rcases refSets1_keys_spec (he ▸ h2) with ⟨fac, hfac, hn, hw⟩
        exact hw (hnames fac hfac name hn hbad).2.1
    · intro k hk
      rcases find_shared_topic_edges_components hk with ⟨h1, h2⟩
      constructor
      · intro he
        rcases topicSets1_keys_spec (he ▸ h1) with ⟨fac, hfac, hn, hw⟩
        rcases hnames fac hfac name hn hbad with ⟨-, hwk, -, htp⟩
        refine hw ?_
        rw [topicSet1Of, hwk, htp]
        rfl
      · intro he
        rcases topicSets1_keys_spec (he ▸ h2) with ⟨fac, hfac, hn, hw⟩
        rcases hnames fac hfac name hn hbad with ⟨-, hwk, -, htp⟩
        refine hw ?_
        rw [topicSet1Of, hwk, htp]
        rfl
    · intro k hk
      rcases find_shared_journal_edges_components hk with ⟨h1, h2⟩
      constructor
      · intro he
        rcases journalSets1_keys_spec (he ▸ h1) with ⟨fac, hfac, hn, hw⟩
        rcases hnames fac hfac name hn hbad with ⟨-, hwk, -, -⟩
        refine hw ?_
        rw [journalSet1Of, hwk]
        rfl
      · intro he
        rcases journalSets1_keys_spec (he ▸ h2) with ⟨fac, hfac, hn, hw⟩
        rcases hnames fac hfac name hn hbad with ⟨-, hwk, -, -⟩
        refine hw ?_
        rw [journalSet1Of, hwk]
        rfl

open FacultyVis BuildGraph in
/-- Witness for c6_exclusion: a roster containing an excluded name with a
live OpenAlex profile; the node remains, cleared. -/
theorem c6_exclusion_witness :
    "Ho Jin Kim" ∈ BAD_MATCHES ∧
    "Ho Jin Kim" ∈ ([BuildGraph2.c9A, { BuildGraph2.c9B with name := "Ho Jin Kim" }].map
      (fun (f : OAFaculty) => f.name)) ∧
    (∃ node ∈ mainNodes1
        (load_faculty [BuildGraph2.c9A, { BuildGraph2.c9B with name := "Ho Jin Kim" }]),
      node.id = "Ho Jin Kim" ∧ node.openalex_id = none ∧ node.works_count = 0) := by
  have hbad : "Ho Jin Kim" ∈ BAD_MATCHES := by decide
  have hmem : "Ho Jin Kim" ∈ ([BuildGraph2.c9A,
      { BuildGraph2.c9B with name := "Ho Jin Kim" }].map (fun (f : OAFaculty) => f.name)) := by
    decide
  exact ⟨hbad, hmem,
    (c6_exclusion [BuildGraph2.c9A, { BuildGraph2.c9B with name := "Ho Jin Kim" }]).2.2.1
      "Ho Jin Kim" hbad hmem⟩

namespace FacultyVis

theorem foldl_add {α β : Type} (measure : β → Nat) (g : α → Nat) (f : β → α → β)
    (l : List α) (b : β) (hf : ∀ b2 a, a ∈ l → measure (f b2 a) = measure b2 + g a) :
    measure (l.foldl f b) = measure b + (l.map g).sum := by
  induction l generalizing b with
  | nil => simp
  | cons x xs ih =>
    rw [List.foldl_cons, ih (f b x)
      (fun b2 a ha => hf b2 a (List.mem_cons_of_mem x ha)),
      hf b x (List.mem_cons_self x xs), List.map_cons, List.sum_cons]
    ring

theorem dfind_map_value {α β γ : Type} [DecidableEq α] (m : List (α × β)) (f : β → γ)
    (k : α) : dfind (m.map (fun p => (p.1, f p.2))) k = (dfind m k).map f := by
  induction m with
  | nil => rfl
  | cons p rest ih =>
    by_cases he : p.1 = k
    · simp [dfind, he]
    · simp [dfind, he, ih]

theorem length_filter_eq_sum_ite {α : Type} (l : List α) (p : α → Bool) :
    (l.filter p).length = (l.map (fun x => if p x = true then 1 else 0)).sum := by
  induction l with
  | nil => rfl
  | cons x xs ih =>
    by_cases hx : p x = true
    · simp [List.filter_cons, hx, ih]
      omega
    · simp [List.filter_cons, hx, ih]

theorem dedupSeen_nodup (seen l : List String) :
    (dedupSeen seen l).Nodup ∧ ∀ x ∈ dedupSeen seen l, x ∉ seen := by
  induction l generalizing seen with
  | nil => simp [dedupSeen]
  | cons x xs ih =>
    by_cases hx : x ∈ seen
    · rw [dedupSeen, if_pos hx]
      exact ih seen
    · rw [dedupSeen, if_neg hx]
      rcases ih (seen ++ [x]) with ⟨hnd, hnotin⟩
      refine ⟨List.nodup_cons.mpr ⟨?_, hnd⟩, ?_⟩
      · intro hmem
        exact hnotin x hmem (by simp)
      · intro y hy
        rcases List.mem_cons.mp hy with rfl | hy2
        · exact hx
        · intro hys
          exact hnotin y hy2 (by simp [hys])

theorem dedupFirstSeen_nodup (l : List String) : (dedupFirstSeen l).Nodup :=
  (dedupSeen_nodup [] l).1

end FacultyVis

namespace BuildGraph2

open FacultyVis

theorem coStep_count (t : Option String) (e : CoEntry) :
    (coStep t e).count = e.count + 1 := by
  rw [coStep.eq_def]
  rcases t with _ | t2
  · rfl
  · dsimp only
    split <;> rfl

theorem getCoCount_dmod (m : List ((String × String) × CoEntry)) (key k : String × String)
    (t : Option String) :
    getCoCount (dmod m key { count := 0, papers := [] } (coStep t)) k =
      getCoCount m k + (if key = k then 1 else 0) := by
  by_cases he : key = k
  · subst he
    rw [getCoCount, dfind_dmod_self, getCoCount, if_pos rfl]
    rcases ho : dfind m key with _ | v
    · simp [coStep_count]
    · simp [coStep_count]
  · rw [getCoCount, dfind_dmod_ne _ _ _ _ _ he, if_neg he, getCoCount]
    simp

theorem getCoCount_coWorkStep (idx : List (String × String)) (facName : String)
    (b : List ((String × String) × CoEntry)) (work : Work) (k : String × String) :
    getCoCount (coWorkStep idx facName b work) k =
      getCoCount b k + ((facultyCoauthors idx facName work).filter
        (fun ca => decide (sortPair facName ca = k))).length := by
  rw [coWorkStep]
  have h3 := foldl_add (fun m => getCoCount m k)
    (fun ca => if sortPair facName ca = k then 1 else 0)
    (fun acc3 ca_name => dmod acc3 (sortPair facName ca_name)
      { count := 0, papers := [] } (coStep work.title))
    (facultyCoauthors idx facName work) b
    (fun b4 ca _ => getCoCount_dmod b4 (sortPair facName ca) k work.title)
  rw [length_filter_eq_sum_ite]
  simpa using h3

theorem getCoCount_coFacStep (idx : List (String × String))
    (b : List ((String × String) × CoEntry)) (fac : OAFaculty) (k : String × String) :
    getCoCount (coFacStep idx b fac) k =
      getCoCount b k +
      (if truthyStr fac.openalex_id = true ∧ fac.name ∉ BAD then
        (fac.works.map (fun w =>
          ((facultyCoauthors idx fac.name w).filter
            (fun ca => decide (sortPair fac.name ca = k))).length)).sum
      else 0) := by
  rw [coFacStep]
  by_cases hc : ¬ (truthyStr fac.openalex_id = true) ∨ fac.name ∈ BAD
  · rw [if_pos hc, if_neg (by tauto)]
    omega
  · rw [if_neg hc, if_pos (by tauto)]
    exact foldl_add (fun m => getCoCount m k) _ (coWorkStep idx fac.name) fac.works b
      (fun b3 work _ => getCoCount_coWorkStep idx fac.name b3 work k)

theorem getCoCount_coauthorRaw (idx : List (String × String)) (data : List OAFaculty)
    (k : String × String) :
    getCoCount (coauthorRaw idx data) k = rawTally idx data k := by
  rw [coauthorRaw, rawTally]
  have h := foldl_add (fun m => getCoCount m k)
    (fun fac =>
      if truthyStr fac.openalex_id = true ∧ fac.name ∉ BAD then
        (fac.works.map (fun w =>
          ((facultyCoauthors idx fac.name w).filter
            (fun ca => decide (sortPair fac.name ca = k))).length)).sum
      else 0) (coFacStep idx) data []
    (fun b2 fac _ => getCoCount_coFacStep idx b2 fac k)
  simp only [] at h
  rw [h]
  simp [getCoCount, dfind]

end BuildGraph2

namespace BuildGraph2

open FacultyVis

theorem facultyCoauthors_congr {m1 m2 : List (String × String)}
    (h : ∀ x, dfind m1 x = dfind m2 x) (n : String) (w : Work) :
    facultyCoauthors m1 n w = facultyCoauthors m2 n w := by
  rw [facultyCoauthors, facultyCoauthors]
  apply List.filterMap_congr
  intro aid _
  rw [h aid]

theorem rawTally_congr {m1 m2 : List (String × String)}
    (h : ∀ x, dfind m1 x = dfind m2 x) (data : List OAFaculty) (k : String × String) :
    rawTally m1 data k = rawTally m2 data k := by
  rw [rawTally, rawTally]
  congr 1
  apply List.map_congr_left
  intro fac _
  split
  · congr 1
    apply List.map_congr_left
    intro w _
    rw [facultyCoauthors_congr h]
  · rfl

theorem dfind_two_swap {α β : Type} [DecidableEq α] {k1 k2 : α} (v1 v2 : β)
    (hne : k1 ≠ k2) (x : α) :
    dfind [(k1, v1), (k2, v2)] x = dfind [(k2, v2), (k1, v1)] x := by
  by_cases h1 : k1 = x
  · subst h1
    simp [dfind, hne, Ne.symm hne]
  · by_cases h2 : k2 = x
    · subst h2
      simp [dfind, h1]
    · simp [dfind, h1, h2]

theorem authorIndex_pair {A B : OAFaculty}
    (hne : A.openalex_id.getD "" ≠ B.openalex_id.getD "")
    (hA : truthyStr A.openalex_id = true) (hB : truthyStr B.openalex_id = true)
    (hbadA : A.name ∉ BAD) (hbadB : B.name ∉ BAD) :
    authorIndex [A, B] =
      [(A.openalex_id.getD "", A.name), (B.openalex_id.getD "", B.name)] := by
  rw [authorIndex]
  simp only [List.foldl_cons, List.foldl_nil, if_pos (And.intro hA hbadA),
    if_pos (And.intro hB hbadB)]
  rw [show dset ([] : List (String × String)) (A.openalex_id.getD "") A.name =
    [(A.openalex_id.getD "", A.name)] from rfl]
  rw [dset, if_neg hne]
  rfl

end BuildGraph2

open FacultyVis BuildGraph2 in
/-- Claim C3, as stated, is false on the code: when the two entities share
two distinct works that carry the same title, the stored co-author paper
count is 2 (the raw tally 4 halved) while the deduplicated title list has a
single entry, so the count does not equal the number of distinct
deduplicated shared titles. -/
theorem c3_counterexample :
    ¬ (∀ p ∈ coauthorEdges (authorIndex [c3A, c3B]) [c3A, c3B],
        p.2.count = p.2.papers.length) := by
  intro h
  have h2 := h (("A Person", "B Person"), { count := 2, papers := ["Same Title"] })
    (by decide)
  exact absurd h2 (by decide)

open FacultyVis BuildGraph2 in
/-- Claim C3 as amended: the stored co-author count for a pair equals the
raw double-counted tally halved with ceiling rounding, (tally + 1) / 2; the
stored title list is deduplicated by exact (case-sensitive) string match in
first-seen order; and for a two-entity roster with distinct truthy ids the
stored count is invariant to which work list is scanned first. -/
theorem c3_coauthor_count (idx : List (String × String)) (o : List OAFaculty)
    (k : String × String) {A B : OAFaculty} (hA : truthyStr A.openalex_id = true)
    (hB : truthyStr B.openalex_id = true) (hbadA : A.name ∉ BAD) (hbadB : B.name ∉ BAD)
    (hne : A.openalex_id.getD "" ≠ B.openalex_id.getD "") :
    getCoCount (coauthorEdges idx o) k = (rawTally idx o k + 1) / 2 ∧
    (∀ p ∈ coauthorEdges idx o, p.2.papers.Nodup) ∧
    getCoCount (coauthorEdges (authorIndex [A, B]) [A, B]) k =
      getCoCount (coauthorEdges (authorIndex [B, A]) [B, A]) k := by
  have hhalve : ∀ (m : List (String × String)) (d : List OAFaculty),
      getCoCount (coauthorEdges m d) k = (rawTally m d k + 1) / 2 := by
    intro m d
    rw [coauthorEdges, getCoCount]
    have hd := dfind_map_value (coauthorRaw m d)
      (fun e => ({ count := (e.count + 1) / 2, papers := dedupFirstSeen e.papers } : CoEntry)) k
    simp only [] at hd
    rw [hd, ← getCoCount_coauthorRaw]
    rcases ho : dfind (coauthorRaw m d) k with _ | e
    · simp [ho, getCoCount]
    · simp [ho, getCoCount]
  refine ⟨hhalve idx o, ?_, ?_⟩
  · intro p hp
    rw [coauthorEdges] at hp
    rcases List.mem_map.mp hp with ⟨q, _, he⟩
    subst he
    exact dedupFirstSeen_nodup _
  · rw [hhalve, hhalve]
    have hswap : ∀ x, dfind (authorIndex [A, B]) x = dfind (authorIndex [B, A]) x := by
      intro x
      rw [authorIndex_pair hne hA hB hbadA hbadB,
        authorIndex_pair (Ne.symm hne) hB hA hbadB hbadA]
      exact dfind_two_swap _ _ hne x
    rw [rawTally_congr hswap]
    have hAB : rawTally (authorIndex [B, A]) [A, B] k =
        rawTally (authorIndex [B, A]) [B, A] k := by
      rw [rawTally, rawTally]
      simp only [List.map_cons, List.map_nil, List.sum_cons, List.sum_nil]
      omega
    rw [hAB]

open FacultyVis BuildGraph2 in
/-- Witness for c3_coauthor_count: hypotheses discharged at the concrete C3
scenario records; the stored count there is 2 = (4 + 1) / 2. -/
theorem c3_coauthor_count_witness :
    truthyStr c3A.openalex_id = true ∧ truthyStr c3B.openalex_id = true ∧
    c3A.name ∉ BAD ∧ c3B.name ∉ BAD ∧
    c3A.openalex_id.getD "" ≠ c3B.openalex_id.getD "" ∧
    getCoCount (coauthorEdges (authorIndex [c3A, c3B]) [c3A, c3B])
        ("A Person", "B Person") =
      (rawTally (authorIndex [c3A, c3B]) [c3A, c3B] ("A Person", "B Person") + 1) / 2 ∧
    getCoCount (coauthorEdges (authorIndex [c3A, c3B]) [c3A, c3B])
        ("A Person", "B Person") =
      getCoCount (coauthorEdges (authorIndex [c3B, c3A]) [c3B, c3A])
        ("A Person", "B Person") := by
  refine ⟨by decide, by decide, by decide, by decide, by decide, ?_, ?_⟩
  · exact (c3_coauthor_count (authorIndex [c3A, c3B]) [c3A, c3B] ("A Person", "B Person")
      (A := c3A) (B := c3B) (by decide) (by decide) (by decide) (by decide) (by decide)).1
  · exact (c3_coauthor_count (authorIndex [c3A, c3B]) [c3A, c3B] ("A Person", "B Person")
      (A := c3A) (B := c3B) (by decide) (by decide) (by decide) (by decide) (by decide)).2.2

namespace FacultyVis

theorem round_mono_int {x y : ℚ} (h : x ≤ y) : round x ≤ round y := by
  rw [round_eq, round_eq]
  exact Int.floor_le_floor (by linarith)

theorem round3_mono {x y : ℚ} (h : x ≤ y) : round3 x ≤ round3 y := by
  rw [round3, round3, pyRound, pyRound]
  have h2 : round (x * 1000) ≤ round (y * 1000) := round_mono_int (by linarith)
  have h3 : ((round (x * 1000) : ℤ) : ℚ) ≤ ((round (y * 1000) : ℤ) : ℚ) := by
    exact_mod_cast h2
  linarith

theorem round3_nonneg {x : ℚ} (h : 0 ≤ x) : 0 ≤ round3 x := by
  have h2 := round3_mono h
  have h3 : round3 0 = 0 := by
    rw [round3, pyRound]
    norm_num
  linarith [h3 ▸ h2]

theorem abs_round3_sub (x : ℚ) : |round3 x - x| ≤ 1 / 2000 := by
  rw [round3, pyRound]
  have h := abs_sub_round (x * 1000)
  rw [abs_sub_comm] at h
  have h2 : |(round (x * 1000) : ℚ) / 1000 - x| = |(round (x * 1000) : ℚ) - x * 1000| / 1000 := by
    rw [← abs_of_pos (show (0:ℚ) < 1000 by norm_num), ← abs_div]
    congr 1
    field_simp
    ring
  rw [h2]
  linarith

theorem sum_map_round3_near (l : List ℚ) :
    |(l.map round3).sum - l.sum| ≤ (l.length : ℚ) * (1 / 2000) := by
  induction l with
  | nil => simp
  | cons x xs ih =>
    simp only [List.map_cons, List.sum_cons, List.length_cons]
    have h1 := abs_round3_sub x
    have h2 : round3 x + (xs.map round3).sum - (x + xs.sum) =
        (round3 x - x) + ((xs.map round3).sum - xs.sum) := by ring
    calc |round3 x + (xs.map round3).sum - (x + xs.sum)|
        = |(round3 x - x) + ((xs.map round3).sum - xs.sum)| := by rw [h2]
      _ ≤ |round3 x - x| + |(xs.map round3).sum - xs.sum| := abs_add _ _
      _ ≤ 1 / 2000 + (xs.length : ℚ) * (1 / 2000) := by linarith
      _ = ((xs.length : ℚ) + 1) * (1 / 2000) := by ring
      _ = (((xs.length + 1 : ℕ)) : ℚ) * (1 / 2000) := by push_cast; ring

theorem sum_map_div {α : Type} (l : List α) (f : α → ℚ) (c : ℚ) :
    (l.map (fun x => f x / c)).sum = (l.map f).sum / c := by
  induction l with
  | nil => simp
  | cons x xs ih => simp [ih, add_div]

theorem sum_filter_map_le {α : Type} (l : List α) (p : α → Bool) (f : α → ℚ)
    (h : ∀ x ∈ l, 0 ≤ f x) : ((l.filter p).map f).sum ≤ (l.map f).sum := by
  induction l with
  | nil => simp
  | cons x xs ih =>
    have hx := h x (List.mem_cons_self x xs)
    have ih2 := ih (fun y hy => h y (List.mem_cons_of_mem x hy))
    by_cases hp : p x = true
    · simp only [List.filter_cons, hp, if_true, List.map_cons, List.sum_cons]
      linarith
    · simp only [List.filter_cons, hp, if_false, Bool.false_eq_true, List.map_cons,
        List.sum_cons]
      linarith

theorem exists_sum_le_mul {l : List ℚ} (h : l ≠ []) :
    ∃ x ∈ l, l.sum ≤ (l.length : ℚ) * x := by
  induction l with
  | nil => exact absurd rfl h
  | cons a xs ih =>
    rcases List.eq_nil_or_concat xs with he | -
    · subst he
      exact ⟨a, List.mem_cons_self _ _, by simp⟩
    · by_cases hxs : xs = []
      · subst hxs
        exact ⟨a, List.mem_cons_self _ _, by simp⟩
      · rcases ih hxs with ⟨x, hx, hsum⟩
        rcases le_total a x with hax | hax
        · refine ⟨x, List.mem_cons_of_mem _ hx, ?_⟩
          simp only [List.sum_cons, List.length_cons]
          push_cast
          nlinarith [List.length_pos.mpr hxs]
        · refine ⟨a, List.mem_cons_self _ _, ?_⟩
          simp only [List.sum_cons, List.length_cons]
          have hlen : (0:ℚ) ≤ (xs.length : ℚ) := by positivity
          have : xs.sum ≤ (xs.length : ℚ) * a := by nlinarith
          push_cast
          nlinarith

theorem sum_ge_of_all_ge {l : List ℚ} {c : ℚ} (hc : 0 ≤ c) (hne : l ≠ [])
    (h : ∀ x ∈ l, c ≤ x) : c ≤ l.sum := by
  rcases l with _ | ⟨x, xs⟩
  · exact absurd rfl hne
  · have hx := h x (List.mem_cons_self x xs)
    have hxs : 0 ≤ xs.sum := List.sum_nonneg (fun y hy =>
      le_trans hc (h y (List.mem_cons_of_mem x hy)))
    simp only [List.sum_cons]
    linarith

end FacultyVis

namespace BuildGraph2

open FacultyVis

theorem textDist_props (scores : List (String × Nat)) (hne : scores ≠ [])
    (hpos : ∀ p ∈ scores, 1 ≤ p.2) (hlen : scores.length ≤ 7) :
    |((textDist scores).map (fun a => a.share)).sum - 1| ≤
      ((textDist scores).length : ℚ) * (1 / 2000) ∧
    (textDist scores).length ≤ 7 ∧
    (textDist scores).Pairwise (fun a b => b.share ≤ a.share) ∧
    ∀ a ∈ textDist scores, (2 / 25 : ℚ) ≤ a.share := by
  have hq : (0.08 : ℚ) = 2 / 25 := by norm_num
  -- abbreviations mirroring the lets of textDist
  have hperm := sortByLe_perm (fun (a b : String × Nat) => decide (b.2 ≤ a.2)) scores
  generalize hs : sortByLe (fun (a b : String × Nat) => decide (b.2 ≤ a.2)) scores = sorted at *
  generalize hTdef : ((scores.map (fun p => (p.2 : ℚ))).sum : ℚ) = T at *
  have hunfold : textDist scores =
      ((sorted.map (fun p =>
        { area := p.1, share := round3 ((p.2 : ℚ) / T) : AreaShare })).filter
          (fun d => decide (d.share ≥ (0.08 : ℚ)))).map
        (fun d => { d with share := round3 (d.share /
          (((sorted.map (fun p =>
            { area := p.1, share := round3 ((p.2 : ℚ) / T) : AreaShare })).filter
              (fun d => decide (d.share ≥ (0.08 : ℚ)))).map (fun d => d.share)).sum) }) := by
    rw [textDist, hs, hTdef]
  -- facts carried through the generalisations
  have hsp : ∀ p ∈ sorted, 1 ≤ p.2 := fun p hp => hpos p (hperm.mem_iff.mp hp)
  have hslen : sorted.length ≤ 7 := hperm.length_eq ▸ hlen
  have hsne : sorted ≠ [] := by
    intro h
    rw [h] at hperm
    exact hne (hperm.symm.eq_nil)
  have hsum : (sorted.map (fun p => (p.2 : ℚ))).sum = T := by
    rw [← hTdef]
    exact (hperm.map (fun p => (p.2 : ℚ))).sum_eq
  have hT1 : (1 : ℚ) ≤ T := by
    rw [← hsum]
    refine sum_ge_of_all_ge (by norm_num) ?_ ?_
    · simpa using hsne
    · intro x hx
      rcases List.mem_map.mp hx with ⟨p, hp, he⟩
      subst he
      exact_mod_cast hsp p hp
  have hT0 : (0 : ℚ) < T := by linarith
  have hsPW : sorted.Pairwise (fun a b => (decide (b.2 ≤ a.2) : Bool) = true) := by
    rw [← hs]
    refine sortByLe_pairwise ?_ ?_ scores
    · intro a b c hab hbc
      simp only [decide_eq_true_eq] at *
      omega
    · intro a b
      simp only [decide_eq_true_eq]
      omega
  rw [hunfold]
  generalize hd : sorted.map (fun p =>
    { area := p.1, share := round3 ((p.2 : ℚ) / T) : AreaShare }) = dist
  generalize hd2 : dist.filter (fun d => decide (d.share ≥ (0.08 : ℚ))) = dist2
  generalize hT2d : (dist2.map (fun d => d.share)).sum = T2
  -- dist facts
  have hdist_nonneg : ∀ a ∈ dist, 0 ≤ a.share := by
    intro a ha
    rw [← hd] at ha
    rcases List.mem_map.mp ha with ⟨p, hp, he⟩
    subst he
    exact round3_nonneg (div_nonneg (by positivity) hT0.le)
  have hdist_shares : dist.map (fun a => a.share) =
      (sorted.map (fun p => (p.2 : ℚ) / T)).map round3 := by
    rw [← hd, List.map_map, List.map_map]
    rfl
  have hbase_sum : (sorted.map (fun p => (p.2 : ℚ) / T)).sum = 1 := by
    rw [show (fun p : String × Nat => (p.2 : ℚ) / T) =
      (fun p : String × Nat => (fun q : String × Nat => (q.2 : ℚ)) p / T) from rfl]
    rw [sum_map_div, hsum, div_self hT0.ne.symm]
  have hdlen : dist.length = sorted.length := by
    rw [← hd, List.length_map]
  have hdist_sum_le : (dist.map (fun a => a.share)).sum ≤ 2007 / 2000 := by
    rw [hdist_shares]
    have h1 := sum_map_round3_near (sorted.map (fun p => (p.2 : ℚ) / T))
    rw [hbase_sum, List.length_map] at h1
    have h2 : ((sorted.length : ℚ)) * (1 / 2000) ≤ 7 * (1 / 2000) := by
      have : (sorted.length : ℚ) ≤ 7 := by exact_mod_cast hslen
      linarith
    have h3 := abs_le.mp h1
    linarith [h3.2]
  have hdist_PW : dist.Pairwise (fun a b => b.share ≤ a.share) := by
    rw [← hd]
    rw [List.pairwise_map]
    refine hsPW.imp ?_
    intro a b hab
    simp only [decide_eq_true_eq] at hab
    refine round3_mono ((div_le_div_iff_of_pos_right hT0).mpr ?_)
    exact_mod_cast hab
  -- dist2 facts
  have hd2mem : ∀ a ∈ dist2, (2 / 25 : ℚ) ≤ a.share ∧ a ∈ dist := by
    intro a ha
    rw [← hd2] at ha
    rcases List.mem_filter.mp ha with ⟨h1, h2⟩
    simp only [decide_eq_true_eq, ge_iff_le, hq] at h2
    exact ⟨h2, h1⟩
  have hT2_le : T2 ≤ 2007 / 2000 := by
    rw [← hT2d, ← hd2]
    exact le_trans (sum_filter_map_le dist _ _ hdist_nonneg) hdist_sum_le
  -- a maximal score passes the 8 percent filter
  obtain ⟨v, hv, hvsum⟩ := exists_sum_le_mul
    (l := sorted.map (fun p => (p.2 : ℚ))) (by simpa using hsne)
  rcases List.mem_map.mp hv with ⟨pmax, hpmax, he⟩
  subst he
  have hvpos : (1 : ℚ) ≤ (pmax.2 : ℚ) := by exact_mod_cast hsp pmax hpmax
  have hfrac : (1 / 7 : ℚ) ≤ (pmax.2 : ℚ) / T := by
    rw [List.length_map, hsum] at hvsum
    have hslen2 : (sorted.length : ℚ) ≤ 7 := by exact_mod_cast hslen
    rw [div_le_div_iff₀ (by norm_num) hT0]
    nlinarith
  have hshare_max : (2 / 25 : ℚ) ≤ round3 ((pmax.2 : ℚ) / T) := by
    have h1 : round3 (1 / 7 : ℚ) = 143 / 1000 := by
      rw [round3, pyRound, round_eq]
      norm_num
    have h2 := round3_mono hfrac
    rw [h1] at h2
    linarith
  have hamax : ({ area := pmax.1, share := round3 ((pmax.2 : ℚ) / T) } : AreaShare) ∈ dist2 := by
    rw [← hd2]
    refine List.mem_filter.mpr ⟨?_, ?_⟩
    · rw [← hd]
      exact List.mem_map_of_mem _ hpmax
    · simp only [decide_eq_true_eq, ge_iff_le, hq]
      exact hshare_max
  have hd2ne : dist2 ≠ [] := List.ne_nil_of_mem hamax
  have hT2_pos : (0 : ℚ) < T2 := by
    rw [← hT2d]
    have h1 : (2 / 25 : ℚ) ≤ (dist2.map (fun d => d.share)).sum := by
      refine sum_ge_of_all_ge (by norm_num) (by simpa using hd2ne) ?_
      intro x hx
      rcases List.mem_map.mp hx with ⟨a, ha, he⟩
      subst he
      exact (hd2mem a ha).1
    linarith
  -- the renormalised result
  have hres_shares : (dist2.map (fun d =>
      ({ d with share := round3 (d.share / T2) } : AreaShare))).map (fun a => a.share) =
      (dist2.map (fun d => d.share / T2)).map round3 := by
    rw [List.map_map, List.map_map]
    rfl
  have hres_base : (dist2.map (fun d => d.share / T2)).sum = 1 := by
    rw [show (fun d : AreaShare => d.share / T2) =
      (fun d : AreaShare => (fun e : AreaShare => e.share) d / T2) from rfl]
    rw [sum_map_div, hT2d, div_self hT2_pos.ne.symm]
  refine ⟨?_, ?_, ?_, ?_⟩
  · rw [hres_shares]
    have h1 := sum_map_round3_near (dist2.map (fun d => d.share / T2))
    rw [hres_base, List.length_map] at h1
    have h2 : ((dist2.map (fun d =>
        ({ d with share := round3 (d.share / T2) } : AreaShare))).length : ℚ) =
        (dist2.length : ℚ) := by
      rw [List.length_map]
    rw [h2]
    exact h1
  · rw [List.length_map]
    calc dist2.length ≤ dist.length := by rw [← hd2]; exact List.length_filter_le _ _
      _ ≤ 7 := by rw [hdlen]; exact hslen
  · rw [List.pairwise_map]
    have h1 : dist2.Pairwise (fun a b => b.share ≤ a.share) := by
      rw [← hd2]
      exact hdist_PW.filter _
    refine h1.imp ?_
    intro a b hab
    dsimp only
    exact round3_mono ((div_le_div_iff_of_pos_right hT2_pos).mpr hab)
  · intro a ha
    rcases List.mem_map.mp ha with ⟨d, hd3, he⟩
    subst he
    have h1 : (2 / 25 : ℚ) ≤ d.share := (hd2mem d hd3).1
    have h2 : (160 / 2007 : ℚ) ≤ d.share / T2 := by
      rw [div_le_div_iff₀ (by norm_num) hT2_pos]
      nlinarith
    have h3 : round3 (160 / 2007 : ℚ) = 2 / 25 := by
      rw [round3, pyRound, round_eq]
      norm_num
    calc (2 / 25 : ℚ) = round3 (160 / 2007) := h3.symm
      _ ≤ round3 (d.share / T2) := round3_mono h2

end BuildGraph2

namespace BuildGraph2

open FacultyVis

/-- Every curated MANUAL_AREAS entry has at most 7 areas and no share below
8 percent; checked by evaluation over the whole table. -/
theorem manual_table_bounds :
    ∀ p ∈ MANUAL_AREAS,
      (∀ a ∈ manualDist p.2, (2 / 25 : ℚ) ≤ a.share) ∧ (manualDist p.2).length ≤ 7 := by
  intro p hp
  fin_cases hp <;>
    norm_num [manualDist, sortByLe, insertLe, round3, pyRound, round_eq]

theorem areaScores_pos (text : String) : ∀ p ∈ areaScores text, 1 ≤ p.2 := by
  intro p hp
  rcases List.mem_filterMap.mp hp with ⟨q, _, hf⟩
  dsimp only at hf
  split at hf
  · next hpos =>
    have he := Option.some_injective _ hf
    subst he
    exact hpos
  · exact Option.noConfusion hf

theorem areaScores_len (text : String) : (areaScores text).length ≤ 7 := by
  have h := List.length_filterMap_le (fun (p : String × List String) =>
    let score := areaScore text p.2
    if score > 0 then some (p.1, score) else none) AREA_KEYWORDS
  simpa using h

theorem c4_eval : compute_area_distribution "Nobody Example" none (some c4sch) =
    [{ area := "Political Science", share := 333 / 1000 },
     { area := "NLP / Computational", share := 333 / 1000 },
     { area := "Statistics / Causal Inference", share := 333 / 1000 }] := by
  have htext : lowerStr (joinSpace (textParts none (some c4sch))) = "election nlp causal" := by
    decide
  have hdf : dfind MANUAL_AREAS "Nobody Example" = (none : Option (List (String × ℚ))) := by
    decide
  have hsc : areaScores "election nlp causal" =
      [("Political Science", 1), ("NLP / Computational", 1),
       ("Statistics / Causal Inference", 1)] := by
    decide
  rw [compute_area_distribution]
  simp only [hdf, htext, hsc]
  rw [if_neg (by decide), if_neg (by decide)]
  norm_num [textDist, sortByLe, insertLe, round3, pyRound, round_eq, List.filter]

end BuildGraph2

open FacultyVis BuildGraph2 in
/-- Claim C4, as stated, is false on the code: for an entity whose corpus
scores three areas equally, each share is rounded to 0.333 and the returned
shares sum to 0.999, which is not within 1e-6 of 1.0. -/
theorem c4_counterexample :
    ((compute_area_distribution "Nobody Example" none (some c4sch)).map
      (fun a => a.share)).sum = 999 / 1000 ∧
    ¬ (|((compute_area_distribution "Nobody Example" none (some c4sch)).map
      (fun a => a.share)).sum - 1| ≤ 1 / 1000000) := by
  rw [c4_eval]
  norm_num [abs_le]

open FacultyVis BuildGraph2 in
/-- Claim C4 as amended: for every entity the returned area distribution has
shares summing to 1.0 within one half-thousandth per returned area (at most
7 areas, so within 0.0035; each share is rounded to three decimals, so the
1e-6 tolerance of the original claim fails), is sorted descending by share,
and every returned share is at least 0.08, the sole remaining area being
renormalised to 1.0. -/
theorem c4_area_distribution (name : String) (oa : Option OAFaculty)
    (s : Option ScholarFaculty) :
    |((compute_area_distribution name oa s).map (fun a => a.share)).sum - 1| ≤
      ((compute_area_distribution name oa s).length : ℚ) * (1 / 2000) ∧
    (compute_area_distribution name oa s).length ≤ 7 ∧
    (compute_area_distribution name oa s).Pairwise (fun a b => b.share ≤ a.share) ∧
    ∀ a ∈ compute_area_distribution name oa s, (2 / 25 : ℚ) ≤ a.share := by
  rcases ho : dfind MANUAL_AREAS name with _ | raw
  · rw [compute_area_distribution]
    simp only [ho]
    by_cases ht : lowerStr (joinSpace (textParts oa s)) = ""
    · rw [if_pos ht]
      norm_num
    · rw [if_neg ht]
      by_cases hsc : areaScores (lowerStr (joinSpace (textParts oa s))) = []
      · rw [if_pos hsc]
        norm_num
      · rw [if_neg hsc]
        exact textDist_props _ hsc (areaScores_pos _) (areaScores_len _)
  · have hall := manual_table_fact (name, raw) (dfind_mem ho)
    have hall2 := manual_table_bounds (name, raw) (dfind_mem ho)
    rw [compute_area_manual ho oa s]
    refine ⟨?_, hall2.2, hall.2, hall2.1⟩
    rw [hall.1]
    simp only [sub_self, abs_zero]
    positivity

open FacultyVis BuildGraph2 in
/-- Witness for c4_area_distribution: inner hypotheses discharged at the
concrete C4 scenario entity and its first returned area. -/
theorem c4_area_distribution_witness :
    ({ area := "Political Science", share := 333 / 1000 } : AreaShare) ∈
      compute_area_distribution "Nobody Example" none (some c4sch) ∧
    (2 / 25 : ℚ) ≤ (333 / 1000 : ℚ) ∧
    (compute_area_distribution "Nobody Example" none (some c4sch)).length ≤ 7 := by
  have hm : ({ area := "Political Science", share := 333 / 1000 } : AreaShare) ∈
      compute_area_distribution "Nobody Example" none (some c4sch) := by
    rw [c4_eval]
    exact List.mem_cons_self _ _
  refine ⟨hm, ?_, (c4_area_distribution "Nobody Example" none (some c4sch)).2.1⟩
  simpa using (c4_area_distribution "Nobody Example" none (some c4sch)).2.2.2 _ hm

namespace RawModel

open FacultyVis BuildGraph2

/-- Binding a successful Except value applies the continuation. -/
theorem ok_bind {α β : Type} (a : α) (f : α → Except String β) :
    (Except.ok a >>= f) = f a := rfl

/-- Pure is the ok constructor. -/
theorem pure_ok {α : Type} (a : α) : (pure a : Except String α) = Except.ok a := rfl

/-- Subscripting a present key succeeds with its value. -/
theorem getKey_some {β : Type} (x : β) (k : String) :
    getKey (some x) k = Except.ok x := rfl

/-- A monadic fold whose every step succeeds is the pure fold of the success
values. -/
theorem foldlM_ok {α β : Type} (f : β → α → Except String β) (g : β → α → β)
    (l : List α) (b : β) (h : ∀ b2 : β, ∀ a ∈ l, f b2 a = Except.ok (g b2 a)) :
    l.foldlM f b = Except.ok (l.foldl g b) := by
  induction l generalizing b with
  | nil => rfl
  | cons a t ih =>
    rw [List.foldlM_cons, h b a (List.mem_cons_self a t), ok_bind, List.foldl_cons]
    exact ih (g b a) (fun b2 x hx => h b2 x (List.mem_cons_of_mem a hx))

/-- A monadic map whose every element succeeds is the pure map of the success
values. -/
theorem mapM_ok {α β : Type} (f : α → Except String β) (g : α → β)
    (l : List α) (h : ∀ a ∈ l, f a = Except.ok (g a)) :
    l.mapM f = Except.ok (l.map g) := by
  induction l with
  | nil => rfl
  | cons a t ih =>
    simp only [List.mapM_cons, h a (List.mem_cons_self a t),
      ih (fun x hx => h x (List.mem_cons_of_mem a hx)), ok_bind, List.map_cons]
    rfl

/-- On well-formed data the raw author-index loop succeeds and computes the
total-model author index of the defaulted records. -/
theorem rawAuthorIndex_ok (data : List RFac) (h : ∀ f ∈ data, WF f) :
    rawAuthorIndex data = Except.ok (authorIndex (data.map cleanFac)) := by
  rw [rawAuthorIndex, authorIndex, List.foldl_map]
  apply foldlM_ok
  intro idx fac hf
  obtain ⟨hn, ho, -, -, -⟩ := h fac hf
  obtain ⟨nm, hnm⟩ := Option.isSome_iff_exists.mp hn
  obtain ⟨oid, hoid⟩ := Option.isSome_iff_exists.mp ho
  simp only [hnm, hoid, getKey_some, ok_bind, cleanFac, Option.getD_some, pure_ok]
  by_cases ht : truthyStr oid = true
  · simp only [ht, if_true, true_and]
  · simp [ht]

/-- On a well-formed work the raw inner co-author step succeeds and computes
the total-model inner step of the defaulted work. -/
theorem rawCoWorkStep_ok (idx : List (String × String)) (name : String)
    (acc2 : List ((String × String) × CoEntry)) (w : RWork) (hw : WFWork w) :
    rawCoWorkStep idx name acc2 w =
      Except.ok (coWorkStep idx name acc2 (cleanWork w)) := by
  obtain ⟨htt, ⟨la, hla, hids⟩, -⟩ := hw
  obtain ⟨t, ht⟩ := Option.isSome_iff_exists.mp htt
  have hm : la.mapM (fun a => getKey a.id? "id") =
      Except.ok (la.map (fun a => (a.id?).getD "")) := by
    apply mapM_ok
    intro a ha
    obtain ⟨i, hi⟩ := Option.isSome_iff_exists.mp (hids a ha)
    rw [hi]
    rfl
  rw [rawCoWorkStep, coWorkStep, facultyCoauthors]
  simp only [hla, ht, getKey_some, ok_bind, hm, cleanWork, cleanAuthor,
    Option.getD_some, List.map_map, Function.comp, pure_ok]
  apply foldlM_ok
  intro b a ha
  rfl

/-- On a well-formed record the raw outer co-author step succeeds and computes
the total-model outer step of the defaulted record. -/
theorem rawCoFacStep_ok (idx : List (String × String))
    (acc : List ((String × String) × CoEntry)) (fac : RFac) (h : WF fac) :
    rawCoFacStep idx acc fac = Except.ok (coFacStep idx acc (cleanFac fac)) := by
  obtain ⟨hn, ho, wl, hwl, hW⟩ := h
  obtain ⟨nm, hnm⟩ := Option.isSome_iff_exists.mp hn
  obtain ⟨oid, hoid⟩ := Option.isSome_iff_exists.mp ho
  rw [rawCoFacStep, coFacStep]
  simp only [hnm, hoid, hwl, getKey_some, ok_bind, cleanFac, Option.getD_some, pure_ok]
  by_cases ht : truthyStr oid = true
  · rw [if_neg (not_not_intro ht)]
    by_cases hb : nm ∈ BAD
    · rw [if_pos hb, if_pos (Or.inr hb)]
    · rw [if_neg hb, if_neg (by simp [ht, hb])]
      simp only [List.foldl_map]
      apply foldlM_ok
      intro b w hw2
      exact rawCoWorkStep_ok idx nm b w (hW w hw2)
  · rw [if_pos ht, if_pos (Or.inl ht)]

/-- On well-formed data the raw co-author accumulation, dedupe included,
succeeds and computes the total-model co-author edges. -/
theorem rawCoauthorEdges_ok (idx : List (String × String)) (data : List RFac)
    (h : ∀ f ∈ data, WF f) :
    rawCoauthorEdges idx data = Except.ok (coauthorEdges idx (data.map cleanFac)) := by
  rw [rawCoauthorEdges, coauthorEdges, coauthorRaw, List.foldl_map]
  have hr : data.foldlM (rawCoFacStep idx) [] =
      Except.ok (data.foldl (fun acc f => coFacStep idx acc (cleanFac f)) []) :=
    foldlM_ok _ _ _ _ (fun b a ha => rawCoFacStep_ok idx b a (h a ha))
  rw [hr, ok_bind]
  rfl

/-- On well-formed data the raw shared-reference accumulation succeeds and
computes the total-model reference sets and frequency counter. -/
theorem rawRef_ok (data : List RFac) (h : ∀ f ∈ data, WF f) :
    data.foldlM rawRefFacStep ([], []) =
      Except.ok (refSetsFreq (data.map cleanFac)) := by
  rw [refSetsFreq, List.foldl_map]
  apply foldlM_ok
  intro acc fac hf
  obtain ⟨hn, ho, wl, hwl, hW⟩ := h fac hf
  obtain ⟨nm, hnm⟩ := Option.isSome_iff_exists.mp hn
  rw [rawRefFacStep]
  simp only [hnm, hwl, getKey_some, ok_bind, cleanFac, Option.getD_some, pure_ok]
  by_cases hwe : wl = []
  · subst hwe
    simp [pure_ok]
  · have hne2 : (wl.map cleanWork).isEmpty = false := by
      rcases wl with _ | ⟨a, t⟩
      · exact absurd rfl hwe
      · rfl
    rw [if_neg hwe]
    by_cases hb : nm ∈ BAD
    · rw [if_pos hb, if_pos (by simp [hne2, hb])]
    · rw [if_neg hb, if_neg (by simp [hne2, hb])]
      have hrefs : wl.foldlM rawRefWorkStep ([] : List String) =
          Except.ok (wl.foldl (fun s w => supdate s (cleanWork w).referenced_works) []) := by
        apply foldlM_ok
        intro s w hw2
        obtain ⟨-, -, hrw⟩ := hW w hw2
        rw [rawRefWorkStep]
        rcases hx : w.referenced_works? with _ | (_ | l)
        · simp [cleanWork, hx, pure_ok]
        · exact absurd hx hrw
        · simp [cleanWork, hx, pure_ok]
      simp only [List.foldl_map, hrefs, ok_bind]
      by_cases hre : wl.foldl (fun s w => supdate s (cleanWork w).referenced_works) [] = []
      · rw [if_pos hre, if_pos (List.isEmpty_iff.mpr hre)]
      · rw [if_neg hre, if_neg (fun hc => hre (List.isEmpty_iff.mp hc))]

end RawModel

open FacultyVis BuildGraph2 RawModel in
/-- Claim C7, as stated, is false on the code: a well-typed record whose
optional external-id key is absent makes the cited region of
build_openalex_edges raise a KeyError instead of treating the field as
null, because the record is subscripted directly. -/
theorem c7_counterexample :
    rawCoauthorRefs [c7bad] = Except.error "KeyError: openalex_id" := rfl

open FacultyVis BuildGraph2 RawModel in
/-- Claim C7 as amended: the cited region completes without raising exactly
on records whose directly subscripted keys (name, external id, works, each
work's authors and title, each author's id) are present, whose works value is
a list and whose referenced-works values are not null; the nullable scalars
(external id, title) may be null and the dotted-get fields may be absent, and
the region then computes the total-model author index, co-author edges and
shared-reference data of the defaulted records. -/
theorem c7_error_free (data : List RawModel.RFac) (h : ∀ f ∈ data, RawModel.WF f) :
    rawCoauthorRefs data =
      Except.ok (coauthorEdges (authorIndex (data.map cleanFac)) (data.map cleanFac),
        refSetsFreq (data.map cleanFac)) := by
  rw [rawCoauthorRefs]
  simp only [rawAuthorIndex_ok data h, ok_bind]
  simp only [rawCoauthorEdges_ok (authorIndex (data.map cleanFac)) data h, ok_bind]
  simp only [rawRef_ok data h, ok_bind]
  rfl

open FacultyVis BuildGraph2 RawModel in
/-- Witness for c7_error_free: the well-formedness hypothesis discharged at a
concrete two-record input. -/
theorem c7_error_free_witness :
    (∀ f ∈ [c7fA, c7fB], RawModel.WF f) ∧
    rawCoauthorRefs [c7fA, c7fB] =
      Except.ok (coauthorEdges (authorIndex ([c7fA, c7fB].map cleanFac))
        ([c7fA, c7fB].map cleanFac), refSetsFreq ([c7fA, c7fB].map cleanFac)) := by
  have h : ∀ f ∈ [c7fA, c7fB], RawModel.WF f := by
    intro f hf
    simp only [List.mem_cons, List.not_mem_nil, or_false] at hf
    rcases hf with rfl | rfl
    · refine ⟨rfl, rfl, [c7w], rfl, fun w hw => ?_⟩
      simp only [List.mem_singleton] at hw
      subst hw
      refine ⟨rfl, ⟨[{ id? := some "I1" }, { id? := some "I2" }], rfl, fun a ha => ?_⟩, by simp [c7w]⟩
      simp only [List.mem_cons, List.not_mem_nil, or_false] at ha
      rcases ha with rfl | rfl <;> rfl
    · exact ⟨rfl, rfl, [], rfl, fun w hw => absurd hw (List.not_mem_nil w)⟩
  exact ⟨h, c7_error_free [c7fA, c7fB] h⟩


namespace BuildGraph2

open FacultyVis

/-- Two folds over the same list preserve any binary relation their steps
preserve. -/
theorem foldl_rel {α β γ : Type} (R : β → γ → Prop) (f : β → α → β) (g : γ → α → γ)
    (l : List α) (b : β) (c : γ) (hb : R b c)
    (hstep : ∀ b2 c2 a, a ∈ l → R b2 c2 → R (f b2 a) (g c2 a)) :
    R (l.foldl f b) (l.foldl g c) := by
  induction l generalizing b c with
  | nil => simpa using hb
  | cons x xs ih =>
    rw [List.foldl_cons, List.foldl_cons]
    exact ih (f b x) (g c x) (hstep b c x (List.mem_cons_self x xs) hb)
      (fun b2 c2 a ha h2 => hstep b2 c2 a (List.mem_cons_of_mem x ha) h2)

/-- dset on key-aligned, pointwise-related dicts preserves the relation. -/
theorem forall2_dset {α β γ : Type} [DecidableEq α] {S : α × β → α × γ → Prop}
    {m1 : List (α × β)} {m2 : List (α × γ)}
    (h : List.Forall₂ S m1 m2) (hS : ∀ p q, S p q → p.1 = q.1)
    (k : α) {v1 : β} {v2 : γ} (hv : S (k, v1) (k, v2)) :
    List.Forall₂ S (dset m1 k v1) (dset m2 k v2) := by
  induction m1 generalizing m2 with
  | nil =>
    cases h
    exact List.Forall₂.cons hv List.Forall₂.nil
  | cons p rest ih =>
    obtain ⟨pk, pv⟩ := p
    cases h with
    | cons hpq hrest =>
      rename_i q qrest
      obtain ⟨qk, qv⟩ := q
      have hk : pk = qk := hS _ _ hpq
      subst hk
      rw [dset, dset]
      by_cases he : pk = k
      · subst he
        rw [if_pos rfl, if_pos rfl]
        exact List.Forall₂.cons hv hrest
      · rw [if_neg he, if_neg he]
        exact List.Forall₂.cons hpq (ih hrest)

/-- dfind over pointwise-related dicts, mapped through functions that agree
on related values, gives equal options. -/
theorem forall2_dfind_map {α β γ δ : Type} [DecidableEq α] {S : α × β → α × γ → Prop}
    {m1 : List (α × β)} {m2 : List (α × γ)}
    (h : List.Forall₂ S m1 m2) (hS : ∀ p q, S p q → p.1 = q.1) (k : α)
    (f : β → δ) (g : γ → δ) (hfg : ∀ a v1 v2, S (a, v1) (a, v2) → f v1 = g v2) :
    (dfind m1 k).map f = (dfind m2 k).map g := by
  induction m1 generalizing m2 with
  | nil =>
    cases h
    rfl
  | cons p rest ih =>
    obtain ⟨pk, pv⟩ := p
    cases h with
    | cons hpq hrest =>
      rename_i q qrest
      obtain ⟨qk, qv⟩ := q
      have hk : pk = qk := hS _ _ hpq
      subst hk
      rw [dfind, dfind]
      by_cases he : pk = k
      · rw [if_pos he, if_pos he]
        exact congrArg some (hfg pk pv qv hpq)
      · rw [if_neg he, if_neg he]
        exact ih hrest

/-- Pointwise-related dicts have equal key lists. -/
theorem forall2_map_fst {α β γ : Type} {S : α × β → α × γ → Prop} {m1 : List (α × β)}
    {m2 : List (α × γ)} (h : List.Forall₂ S m1 m2) (hS : ∀ p q, S p q → p.1 = q.1) :
    m1.map (fun p => p.1) = m2.map (fun p => p.1) := by
  induction m1 generalizing m2 with
  | nil =>
    cases h
    rfl
  | cons p rest ih =>
    cases h with
    | cons hpq hrest =>
      rw [List.map_cons, List.map_cons, hS _ _ hpq, ih hrest]

/-- The enumeration-explicit shared-topic dict has the same keys and counts
as the insertion-order one. -/
theorem sharedTopicEdgesE_rel (enumS : List String → List String) (o : List OAFaculty) :
    List.Forall₂ (fun p q => p.1 = q.1 ∧ p.2.count = q.2.count)
      (sharedTopicEdgesE enumS o) (sharedTopicEdges o) := by
  rw [sharedTopicEdgesE, sharedTopicEdges]
  dsimp only
  apply foldl_rel _ _ _ _ _ _ List.Forall₂.nil
  intro b2 c2 pr hpr hR
  dsimp only
  by_cases hc : (sinter ((dfind (topicSets o) pr.1).getD [])
      ((dfind (topicSets o) pr.2).getD [])).length ≥ 2
  · rw [if_pos hc, if_pos hc]
    exact forall2_dset hR (fun p q hpq => hpq.1) _ ⟨rfl, rfl⟩
  · rw [if_neg hc, if_neg hc]
    exact hR

/-- The enumeration-explicit shared-journal dict has the same keys and counts
as the insertion-order one. -/
theorem sharedJournalEdgesE_rel (enumS : List String → List String) (o : List OAFaculty) :
    List.Forall₂ (fun p q => p.1 = q.1 ∧ p.2.count = q.2.count)
      (sharedJournalEdgesE enumS o) (sharedJournalEdges o) := by
  rw [sharedJournalEdgesE, sharedJournalEdges]
  dsimp only
  apply foldl_rel _ _ _ _ _ _ List.Forall₂.nil
  intro b2 c2 pr hpr hR
  dsimp only
  by_cases hc : (sinter ((dfind (journalSets o) pr.1).getD [])
      ((dfind (journalSets o) pr.2).getD [])).length ≥ 2
  · rw [if_pos hc, if_pos hc]
    exact forall2_dset hR (fun p q hpq => hpq.1) _ ⟨rfl, rfl⟩
  · rw [if_neg hc, if_neg hc]
    exact hR

/-- The enumeration-explicit shared-reference dict has the same keys and
counts as the insertion-order one. -/
theorem sharedRefEdgesE_rel (enumS : List String → List String) (o : List OAFaculty) :
    List.Forall₂ (fun p q => p.1 = q.1 ∧ p.2.count = q.2.count)
      (sharedRefEdgesE enumS o) (sharedRefEdges o) := by
  rw [sharedRefEdgesE, sharedRefEdges]
  dsimp only
  apply foldl_rel _ _ _ _ _ _ List.Forall₂.nil
  intro b2 c2 pr hpr hR
  dsimp only
  by_cases hc : (sinter ((dfind (refSetsFreq o).1 pr.1).getD [])
      ((dfind (refSetsFreq o).1 pr.2).getD [])).length ≥ 3
  · rw [if_pos hc, if_pos hc]
    exact forall2_dset hR (fun p q hpq => hpq.1) _ ⟨rfl, rfl⟩
  · rw [if_neg hc, if_neg hc]
    exact hR

/-- The combined key set does not depend on the set-enumeration order. -/
theorem allPairKeysE_eq (enumS : List String → List String) (s : List ScholarFaculty)
    (o : List OAFaculty) (w : List WebsitePair) :
    allPairKeysE enumS s o w = allPairKeys s o w := by
  rw [allPairKeysE, allPairKeys]
  dsimp only [build_openalex_edgesE, build_openalex_edges]
  have h1 : (sharedRefEdgesE enumS o).map (fun p => p.1) =
      (sharedRefEdges o).map (fun p => p.1) := forall2_map_fst (sharedRefEdgesE_rel enumS o) (fun p q hpq => hpq.1)
  have h2 : (sharedTopicEdgesE enumS o).map (fun p => p.1) =
      (sharedTopicEdges o).map (fun p => p.1) := forall2_map_fst (sharedTopicEdgesE_rel enumS o) (fun p q hpq => hpq.1)
  have h3 : (sharedJournalEdgesE enumS o).map (fun p => p.1) =
      (sharedJournalEdges o).map (fun p => p.1) := forall2_map_fst (sharedJournalEdgesE_rel enumS o) (fun p q hpq => hpq.1)
  rw [h1, h2, h3]

/-- The composite weight reads only the count and boolean fields. -/
theorem computeWeight_congr {e1 e2 : Edge} (h1 : e1.coauthor_count = e2.coauthor_count)
    (h2 : e1.scholar_coauthor = e2.scholar_coauthor)
    (h3 : e1.website_coauthor = e2.website_coauthor)
    (h4 : e1.shared_refs = e2.shared_refs) (h5 : e1.shared_topics = e2.shared_topics)
    (h6 : e1.shared_journals = e2.shared_journals) :
    computeWeight e1 = computeWeight e2 := by
  rw [computeWeight, computeWeight, h1, h2, h3, h4, h5, h6]

end BuildGraph2

namespace BuildGraph2

open FacultyVis

/-- The per-key fused-edge skeleton does not depend on the set-enumeration
order: only the three sampled detail lists can differ. -/
theorem mkEdgeE_skel (enumS : List String → List String) (s : List ScholarFaculty)
    (o : List OAFaculty) (w : List WebsitePair) (key : String × String) :
    Option.map eSkel (mkEdge (build_scholar_coauthor_edges s) (websiteCoauthKeys w)
      (build_openalex_edgesE enumS o).1 (build_openalex_edgesE enumS o).2.1
      (build_openalex_edgesE enumS o).2.2.1 (build_openalex_edgesE enumS o).2.2.2 key) =
    Option.map eSkel (mkEdge (build_scholar_coauthor_edges s) (websiteCoauthKeys w)
      (build_openalex_edges o).1 (build_openalex_edges o).2.1
      (build_openalex_edges o).2.2.1 (build_openalex_edges o).2.2.2 key) := by
  have hsr : (dfind (sharedRefEdgesE enumS o) key).map (fun r => r.count) =
      (dfind (sharedRefEdges o) key).map (fun r => r.count) :=
    forall2_dfind_map (sharedRefEdgesE_rel enumS o) (fun p q hpq => hpq.1) key _ _
      (fun a v1 v2 hv => hv.2)
  have hst : (dfind (sharedTopicEdgesE enumS o) key).map (fun t => t.count) =
      (dfind (sharedTopicEdges o) key).map (fun t => t.count) :=
    forall2_dfind_map (sharedTopicEdgesE_rel enumS o) (fun p q hpq => hpq.1) key _ _
      (fun a v1 v2 hv => hv.2)
  have hsj : (dfind (sharedJournalEdgesE enumS o) key).map (fun j => j.count) =
      (dfind (sharedJournalEdges o) key).map (fun j => j.count) :=
    forall2_dfind_map (sharedJournalEdgesE_rel enumS o) (fun p q hpq => hpq.1) key _ _
      (fun a v1 v2 hv => hv.2)
  dsimp only [build_openalex_edgesE, build_openalex_edges]
  rw [mkEdge, mkEdge]
  by_cases hin : key.1 ∉ all_names ∨ key.2 ∉ all_names
  · rw [if_pos hin, if_pos hin]
  · rw [if_neg hin, if_neg hin]
    dsimp only [Option.map, eSkel]
    refine congrArg some ?_
    rw [Edge.mk.injEq]
    refine ⟨rfl, rfl, rfl, rfl, rfl, rfl, hsr, rfl, hst, rfl, hsj, rfl, ?_⟩
    exact congrArg round1 (computeWeight_congr rfl rfl rfl hsr hst hsj)

/-- Mapping commutes with filtering when the predicate factors through the
map. -/
theorem map_filter_comm {α β : Type} (f : α → β) (p : β → Bool) (l : List α) :
    (l.filter (fun a => p (f a))).map f = (l.map f).filter p := by
  induction l with
  | nil => rfl
  | cons x xs ih =>
    rw [List.map_cons, List.filter_cons, List.filter_cons]
    by_cases h : p (f x) = true
    · rw [if_pos h, if_pos h, List.map_cons, ih]
    · rw [if_neg h, if_neg h, ih]

/-- filterMap respects pointwise-equal functions. -/
theorem filterMap_congr2 {α β : Type} {f g : α → Option β} {l : List α}
    (h : ∀ a ∈ l, f a = g a) : l.filterMap f = l.filterMap g := by
  induction l with
  | nil => rfl
  | cons x xs ih =>
    rw [List.filterMap_cons, List.filterMap_cons, h x (List.mem_cons_self x xs),
      ih (fun a ha => h a (List.mem_cons_of_mem x ha))]

/-- The fused edge list of any run, stripped of the three sampled detail
lists, is a permutation of the insertion-order reference list. -/
theorem mainEdgesE_skel_perm (enumS : List String → List String)
    (enumK : List (String × String) → List (String × String))
    (hK : validEnum (String × String) enumK) (s : List ScholarFaculty)
    (o : List OAFaculty) (w : List WebsitePair) :
    ((mainEdgesE enumS enumK s o w).map eSkel).Perm ((mainEdges s o w).map eSkel) := by
  rw [mainEdgesE, mainEdges]
  have hfc : ∀ (l : List Edge),
      l.filter (fun e => decide (e.weight > 0)) =
      l.filter (fun e => decide ((eSkel e).weight > 0)) :=
    fun l => List.filter_congr (fun e he => rfl)
  have hstep : ∀ (F : String × String → Option Edge) (K : List (String × String)),
      ((sortByLe (fun a b => decide (b.weight ≤ a.weight))
        ((K.filterMap F).filter (fun e => decide (e.weight > 0)))).map eSkel).Perm
      ((K.filterMap (fun k => (F k).map eSkel)).filter
        (fun e => decide (e.weight > 0))) := by
    intro F K
    refine ((sortByLe_perm _ _).map eSkel).trans ?_
    rw [hfc (K.filterMap F),
      map_filter_comm eSkel (fun e => decide (e.weight > 0)) (K.filterMap F),
      List.map_filterMap]
  refine (hstep _ _).trans (.trans ?_ (hstep _ _).symm)
  have hFE : ∀ k ∈ enumK (allPairKeysE enumS s o w),
      (mkEdge (build_scholar_coauthor_edges s) (websiteCoauthKeys w)
        (build_openalex_edgesE enumS o).1 (build_openalex_edgesE enumS o).2.1
        (build_openalex_edgesE enumS o).2.2.1 (build_openalex_edgesE enumS o).2.2.2 k).map
          eSkel =
      (mkEdge (build_scholar_coauthor_edges s) (websiteCoauthKeys w)
        (build_openalex_edges o).1 (build_openalex_edges o).2.1
        (build_openalex_edges o).2.2.1 (build_openalex_edges o).2.2.2 k).map eSkel :=
    fun k hk => mkEdgeE_skel enumS s o w k
  rw [filterMap_congr2 hFE, allPairKeysE_eq enumS s o w]
  exact ((hK (allPairKeys s o w)).filterMap _).filter _

end BuildGraph2

namespace FacultyVis

/-- Lexicographic strict comparison is transitive. -/
theorem charsLt_trans : ∀ {a b c : List Char}, charsLt a b = true → charsLt b c = true →
    charsLt a c = true := by
  intro a
  induction a with
  | nil =>
    intro b c h1 h2
    cases b with
    | nil => simp [charsLt] at h1
    | cons y ys =>
      cases c with
      | nil => simp [charsLt] at h2
      | cons z zs => simp [charsLt]
  | cons x xs ih =>
    intro b c h1 h2
    cases b with
    | nil => simp [charsLt] at h1
    | cons y ys =>
      cases c with
      | nil => simp [charsLt] at h2
      | cons z zs =>
        rw [charsLt] at h1 h2 ⊢
        by_cases hxy : x = y
        · subst hxy
          rw [if_pos rfl] at h1
          by_cases hxz : x = z
          · subst hxz
            rw [if_pos rfl] at h2 ⊢
            exact ih h1 h2
          · rw [if_neg hxz] at h2 ⊢
            exact h2
        · rw [if_neg hxy] at h1
          by_cases hyz : y = z
          · subst hyz
            rw [if_neg hxy]
            exact h1
          · rw [if_neg hyz] at h2
            have hlt : x < z := lt_trans (of_decide_eq_true h1) (of_decide_eq_true h2)
            rw [if_neg (ne_of_lt hlt)]
            exact decide_eq_true hlt

/-- Lexicographic strict comparison is asymmetric. -/
theorem charsLt_asymm : ∀ {a b : List Char}, charsLt a b = true → charsLt b a = false := by
  intro a
  induction a with
  | nil =>
    intro b h1
    cases b with
    | nil => simp [charsLt] at h1
    | cons y ys => rfl
  | cons x xs ih =>
    intro b h1
    cases b with
    | nil => simp [charsLt] at h1
    | cons y ys =>
      rw [charsLt] at h1 ⊢
      by_cases hxy : x = y
      · subst hxy
        rw [if_pos rfl] at h1 ⊢
        exact ih h1
      · rw [if_neg hxy] at h1
        rw [if_neg (fun hc => hxy hc.symm)]
        exact decide_eq_false (lt_asymm (of_decide_eq_true h1))

/-- The modelled string order is transitive. -/
theorem strLe_trans {a b c : String} (h1 : strLe a b = true) (h2 : strLe b c = true) :
    strLe a c = true := by
  rw [strLe, Bool.or_eq_true] at h1 h2 ⊢
  rcases h1 with hl1 | he1
  · rcases h2 with hl2 | he2
    · exact Or.inl (charsLt_trans hl1 hl2)
    · have hbc : b = c := eq_of_beq he2
      subst hbc
      exact Or.inl hl1
  · have hab : a = b := eq_of_beq he1
    subst hab
    rcases h2 with hl2 | he2
    · exact Or.inl hl2
    · exact Or.inr he2

/-- The modelled string order is total. -/
theorem strLe_total (a b : String) : strLe a b = true ∨ strLe b a = true := by
  by_cases he : a = b
  · subst he
    left
    rw [strLe, Bool.or_eq_true]
    exact Or.inr (beq_self_eq_true a)
  · by_cases hl : strLt a b = true
    · left
      rw [strLe, Bool.or_eq_true]
      exact Or.inl hl
    · right
      rw [strLe, Bool.or_eq_true]
      exact Or.inl (strLt_flip (Bool.not_eq_true (strLt a b) ▸ hl) he)

/-- The modelled string order is antisymmetric. -/
theorem strLe_antisymm {a b : String} (h1 : strLe a b = true) (h2 : strLe b a = true) :
    a = b := by
  rw [strLe, Bool.or_eq_true] at h1 h2
  rcases h1 with hl1 | he1
  · rcases h2 with hl2 | he2
    · have hasym : charsLt b.data a.data = false := charsLt_asymm hl1
      rw [strLt] at hl2
      rw [hasym] at hl2
      exact absurd hl2 Bool.false_ne_true
    · exact (eq_of_beq he2).symm
  · exact eq_of_beq he1

/-- The stable sort under the total antisymmetric string order is invariant
under permutations of its input. -/
theorem sortByLe_strLe_eq {l1 l2 : List String} (hp : l1.Perm l2) :
    sortByLe strLe l1 = sortByLe strLe l2 := by
  haveI : IsAntisymm String (fun a b => strLe a b = true) :=
    ⟨fun a b h1 h2 => strLe_antisymm h1 h2⟩
  exact List.eq_of_perm_of_sorted
    ((sortByLe_perm strLe l1).trans (hp.trans (sortByLe_perm strLe l2).symm))
    (@sortByLe_pairwise String strLe (fun a b c h1 h2 => strLe_trans h1 h2) strLe_total l1)
    (@sortByLe_pairwise String strLe (fun a b c h1 h2 => strLe_trans h1 h2) strLe_total l2)

end FacultyVis

namespace BuildGraph2

open FacultyVis

/-- The node list does not depend on the set-enumeration order: the roster
set is fully sorted by the total name order before use. -/
theorem mainNodesE_eq (enumS : List String → List String) (hS : validEnum String enumS)
    (s : List ScholarFaculty) (o : List OAFaculty) :
    mainNodesE enumS s o = mainNodes s o := by
  rw [mainNodesE, mainNodes, sortByLe_strLe_eq (hS all_names)]

end BuildGraph2

namespace FacultyVis

/-- Modelled set insertion preserves duplicate-freedom. -/
theorem sadd_nodup {α : Type} [DecidableEq α] {s : List α} (h : s.Nodup) (x : α) :
    (sadd s x).Nodup := by
  rw [sadd]
  by_cases hx : x ∈ s
  · rw [if_pos hx]
    exact h
  · rw [if_neg hx]
    refine List.Nodup.append h (List.nodup_singleton x) ?_
    intro a ha hax
    rcases List.mem_singleton.mp hax with rfl
    exact hx ha

/-- Modelled set union preserves duplicate-freedom. -/
theorem supdate_nodup {α : Type} [DecidableEq α] {s : List α} (h : s.Nodup)
    (xs : List α) : (supdate s xs).Nodup := by
  rw [supdate]
  exact foldl_invariant (fun l => l.Nodup) sadd xs s h (fun b2 a ha hb => sadd_nodup hb a)

/-- Modelled set intersection preserves duplicate-freedom of the left set. -/
theorem sinter_nodup {α : Type} [DecidableEq α] {a : List α} (h : a.Nodup)
    (b : List α) : (sinter a b).Nodup :=
  h.filter _

end FacultyVis

namespace BuildGraph2

open FacultyVis

/-- Every per-entity topic set is duplicate-free. -/
theorem topicSets_values_nodup (o : List OAFaculty) :
    ∀ p ∈ topicSets o, (p.2 : List String).Nodup := by
  rw [topicSets]
  apply foldl_invariant (fun ts : List (String × List String) => ∀ p ∈ ts, p.2.Nodup)
  · intro p hp
    simp at hp
  · intro b2 fac hfac hP
    dsimp only
    by_cases hbad : fac.name ∈ BAD
    · rw [if_pos hbad]
      exact hP
    · rw [if_neg hbad]
      split
      · exact hP
      · apply ScrapeWebsites.dset_values hP
        apply foldl_invariant (fun l : List String => l.Nodup)
        · exact foldl_invariant (fun l : List String => l.Nodup) _ fac.topics []
            List.nodup_nil (fun b3 t ht hb => sadd_nodup hb t.name)
        · intro b3 wk hw hb
          dsimp only
          split
          · split
            · exact hb
            · exact sadd_nodup hb _
          · exact hb

/-- Every per-entity journal set is duplicate-free. -/
theorem journalSets_values_nodup (o : List OAFaculty) :
    ∀ p ∈ journalSets o, (p.2 : List String).Nodup := by
  rw [journalSets]
  apply foldl_invariant (fun js : List (String × List String) => ∀ p ∈ js, p.2.Nodup)
  · intro p hp
    simp at hp
  · intro b2 fac hfac hP
    dsimp only
    by_cases hbad : fac.name ∈ BAD
    · rw [if_pos hbad]
      exact hP
    · rw [if_neg hbad]
      split
      · exact hP
      · apply ScrapeWebsites.dset_values hP
        apply foldl_invariant (fun l : List String => l.Nodup)
        · exact List.nodup_nil
        · intro b3 wk hw hb
          dsimp only
          split
          · split
            · exact sadd_nodup hb _
            · exact hb
          · exact hb

/-- Every per-entity reference set is duplicate-free. -/
theorem refSetsFreq_values_nodup (o : List OAFaculty) :
    ∀ p ∈ (refSetsFreq o).1, (p.2 : List String).Nodup := by
  rw [refSetsFreq]
  apply foldl_invariant
    (fun acc : List (String × List String) × List (String × Nat) => ∀ p ∈ acc.1, p.2.Nodup)
  · intro p hp
    simp at hp
  · intro b2 fac hfac hP
    dsimp only
    split
    · exact hP
    · split
      · exact hP
      · apply ScrapeWebsites.dset_values hP
        apply foldl_invariant (fun l : List String => l.Nodup)
        · exact List.nodup_nil
        · intro b3 wk hw hb
          exact supdate_nodup hb wk.referenced_works

end BuildGraph2

namespace BuildGraph2

open FacultyVis

/-- Every enumeration-order topic detail list is a duplicate-free sample of
min(10, count) labels. -/
theorem sharedTopicEdgesE_values (enumS : List String → List String)
    (hS : validEnum String enumS) (o : List OAFaculty) :
    ∀ p ∈ sharedTopicEdgesE enumS o,
      p.2.names.Nodup ∧ p.2.names.length = min 10 p.2.count := by
  rw [sharedTopicEdgesE]
  dsimp only
  apply foldl_invariant
    (fun d : List ((String × String) × NamedEntry) =>
      ∀ p ∈ d, p.2.names.Nodup ∧ p.2.names.length = min 10 p.2.count)
  · intro p hp
    simp at hp
  · intro b2 pr hpr hP
    dsimp only
    split
    · apply ScrapeWebsites.dset_values hP
      have hnd : (sinter ((dfind (topicSets o) pr.1).getD [])
          ((dfind (topicSets o) pr.2).getD [])).Nodup := by
        rcases hf : dfind (topicSets o) pr.1 with _ | ts
        · simp [sinter]
        · exact sinter_nodup (topicSets_values_nodup o (pr.1, ts) (dfind_mem hf)) _
      refine ⟨?_, ?_⟩
      · exact List.Nodup.sublist (List.take_sublist 10 _) (((hS _).nodup_iff).mpr hnd)
      · rw [List.length_take, (hS _).length_eq]
    · exact hP

/-- Every enumeration-order journal detail list is a duplicate-free sample of
min(10, count) venues. -/
theorem sharedJournalEdgesE_values (enumS : List String → List String)
    (hS : validEnum String enumS) (o : List OAFaculty) :
    ∀ p ∈ sharedJournalEdgesE enumS o,
      p.2.names.Nodup ∧ p.2.names.length = min 10 p.2.count := by
  rw [sharedJournalEdgesE]
  dsimp only
  apply foldl_invariant
    (fun d : List ((String × String) × NamedEntry) =>
      ∀ p ∈ d, p.2.names.Nodup ∧ p.2.names.length = min 10 p.2.count)
  · intro p hp
    simp at hp
  · intro b2 pr hpr hP
    dsimp only
    split
    · apply ScrapeWebsites.dset_values hP
      have hnd : (sinter ((dfind (journalSets o) pr.1).getD [])
          ((dfind (journalSets o) pr.2).getD [])).Nodup := by
        rcases hf : dfind (journalSets o) pr.1 with _ | js
        · simp [sinter]
        · exact sinter_nodup (journalSets_values_nodup o (pr.1, js) (dfind_mem hf)) _
      refine ⟨?_, ?_⟩
      · exact List.Nodup.sublist (List.take_sublist 10 _) (((hS _).nodup_iff).mpr hnd)
      · rw [List.length_take, (hS _).length_eq]
    · exact hP

/-- Every enumeration-order reference detail list is a duplicate-free sample
of min(15, count) ids. -/
theorem sharedRefEdgesE_values (enumS : List String → List String)
    (hS : validEnum String enumS) (o : List OAFaculty) :
    ∀ p ∈ sharedRefEdgesE enumS o,
      p.2.top_ids.Nodup ∧ p.2.top_ids.length = min 15 p.2.count := by
  rw [sharedRefEdgesE]
  dsimp only
  apply foldl_invariant
    (fun d : List ((String × String) × RefEntry) =>
      ∀ p ∈ d, p.2.top_ids.Nodup ∧ p.2.top_ids.length = min 15 p.2.count)
  · intro p hp
    simp at hp
  · intro b2 pr hpr hP
    dsimp only
    split
    · apply ScrapeWebsites.dset_values hP
      have hnd : (sinter ((dfind (refSetsFreq o).1 pr.1).getD [])
          ((dfind (refSetsFreq o).1 pr.2).getD [])).Nodup := by
        rcases hf : dfind (refSetsFreq o).1 pr.1 with _ | rs
        · simp [sinter]
        · exact sinter_nodup (refSetsFreq_values_nodup o (pr.1, rs) (dfind_mem hf)) _
      refine ⟨?_, ?_⟩
      · refine List.Nodup.sublist (List.take_sublist 15 _) ?_
        exact ((sortByLe_perm _ _).nodup_iff).mpr (((hS _).nodup_iff).mpr hnd)
      · rw [List.length_take, (sortByLe_perm _ _).length_eq, (hS _).length_eq]
    · exact hP

/-- The detail-list fields of a built edge come from the per-key signal
lookups. -/
theorem mkEdge_detail_fields {sc wc : List (String × String)}
    {oc : List ((String × String) × CoEntry)} {sr : List ((String × String) × RefEntry)}
    {st sj : List ((String × String) × NamedEntry)} {key : String × String} {e : Edge}
    (h : mkEdge sc wc oc sr st sj key = some e) :
    e.shared_topics = (dfind st key).map (fun t => t.count) ∧
    e.shared_topic_names = ((dfind st key).map (fun t => t.names)).getD [] ∧
    e.shared_journals = (dfind sj key).map (fun j => j.count) ∧
    e.shared_journal_names = ((dfind sj key).map (fun j => j.names)).getD [] ∧
    e.shared_refs = (dfind sr key).map (fun r => r.count) ∧
    e.shared_ref_ids = ((dfind sr key).map (fun r => r.top_ids)).getD [] := by
  rw [mkEdge] at h
  by_cases hin : key.1 ∉ all_names ∨ key.2 ∉ all_names
  · rw [if_pos hin] at h
    exact absurd h (by simp)
  · rw [if_neg hin] at h
    have he := Option.some_injective _ h
    subst he
    exact ⟨rfl, rfl, rfl, rfl, rfl, rfl⟩

/-- Every edge of any run carries duplicate-free detail lists of the
documented sample sizes. -/
theorem mainEdgesE_details (enumS : List String → List String)
    (hS : validEnum String enumS)
    (enumK : List (String × String) → List (String × String))
    (s : List ScholarFaculty) (o : List OAFaculty) (w : List WebsitePair) :
    ∀ ed ∈ mainEdgesE enumS enumK s o w,
      ed.shared_topic_names.Nodup ∧
      ed.shared_topic_names.length = min 10 (ed.shared_topics.getD 0) ∧
      ed.shared_journal_names.Nodup ∧
      ed.shared_journal_names.length = min 10 (ed.shared_journals.getD 0) ∧
      ed.shared_ref_ids.Nodup ∧
      ed.shared_ref_ids.length = min 15 (ed.shared_refs.getD 0) := by
  intro ed hed
  rw [mainEdgesE] at hed
  have h2 := mem_sortByLe.mp hed
  rcases List.mem_filter.mp h2 with ⟨h3, -⟩
  rcases List.mem_filterMap.mp h3 with ⟨key, hk, hmk⟩
  obtain ⟨ht1, ht2, hj1, hj2, hr1, hr2⟩ := mkEdge_detail_fields hmk
  dsimp only [build_openalex_edgesE] at ht1 ht2 hj1 hj2 hr1 hr2
  refine ⟨?_, ?_, ?_, ?_, ?_, ?_⟩
  · rw [ht2]
    rcases hf : dfind (sharedTopicEdgesE enumS o) key with _ | v
    · simp
    · simpa using (sharedTopicEdgesE_values enumS hS o (key, v) (dfind_mem hf)).1
  · rw [ht2, ht1]
    rcases hf : dfind (sharedTopicEdgesE enumS o) key with _ | v
    · simp
    · simpa using (sharedTopicEdgesE_values enumS hS o (key, v) (dfind_mem hf)).2
  · rw [hj2]
    rcases hf : dfind (sharedJournalEdgesE enumS o) key with _ | v
    · simp
    · simpa using (sharedJournalEdgesE_values enumS hS o (key, v) (dfind_mem hf)).1
  · rw [hj2, hj1]
    rcases hf : dfind (sharedJournalEdgesE enumS o) key with _ | v
    · simp
    · simpa using (sharedJournalEdgesE_values enumS hS o (key, v) (dfind_mem hf)).2
  · rw [hr2]
    rcases hf : dfind (sharedRefEdgesE enumS o) key with _ | v
    · simp
    · simpa using (sharedRefEdgesE_values enumS hS o (key, v) (dfind_mem hf)).1
  · rw [hr2, hr1]
    rcases hf : dfind (sharedRefEdgesE enumS o) key with _ | v
    · simp
    · simpa using (sharedRefEdgesE_values enumS hS o (key, v) (dfind_mem hf)).2

end BuildGraph2

namespace BuildGraph2

open FacultyVis

/-- The fused edge list of the C8 scenario, for any string-set enumeration
order: one topic edge whose detail list is the enumerated overlap. -/
theorem c8_evalE (enumS : List String → List String) :
    mainEdgesE enumS (fun l => l) [] c8o [] =
      [c8edge ((enumS ["Social Networks", "Causal Inference"]).take 10)] := by
  simp +decide [mainEdgesE, allPairKeysE, build_scholar_coauthor_edges, sidToName, c8o, c8oA,
    c8oB, c8edge, dset, dfind, sortPair, strLe, strLt, charsLt, build_openalex_edgesE,
    coauthorEdges, coauthorRaw, authorIndex, sharedRefEdgesE, refSetsFreq, sharedTopicEdgesE,
    topicSets, sharedJournalEdgesE, journalSets, pairsOf, websiteCoauthKeys, sadd, supdate,
    sinter, mkEdge, all_names, MANUAL_AREAS, computeWeight, truthyNat, truthyStr, round1,
    pyRound, round_eq, sortByLe, insertLe]
  norm_num [List.filter, sortByLe, insertLe]

end BuildGraph2

open FacultyVis BuildGraph2 in
/-- Claim C8, as stated, is false on the code: the fused output is not a
function of the input collections alone, because Python set iteration feeds
the per-edge detail lists.  With the set-enumeration order made explicit,
two runs on identical inputs whose hash orders enumerate one two-element
topic overlap oppositely emit different shared_topic_names lists, although
each order is a valid permutation of the set; so the claimed identical
per-edge detail lists fail across runs. -/
theorem c8_counterexample :
    validEnum String (fun l : List String => l) ∧
    validEnum String (fun l : List String => l.reverse) ∧
    validEnum (String × String) (fun l : List (String × String) => l) ∧
    buildGraphE (fun l => l) (fun l => l) [] c8o [] ≠
      buildGraphE (fun l => l.reverse) (fun l => l) [] c8o [] := by
  refine ⟨fun l => List.Perm.refl l, fun l => List.reverse_perm l,
    fun l => List.Perm.refl l, ?_⟩
  intro hG
  have he := congrArg Graph.edges hG
  dsimp only [buildGraphE] at he
  rw [c8_evalE (fun l => l), c8_evalE (fun l => l.reverse)] at he
  have h2 := congrArg (List.map (fun e => e.shared_topic_names)) he
  simp only [List.map_cons, List.map_nil, c8edge] at h2
  exact absurd h2 (by decide)

open FacultyVis BuildGraph2 in
/-- Claim C8 as amended: with the per-run set-enumeration order explicit,
every run on the same inputs produces exactly the reference node list, and
an edge list that agrees with the insertion-order reference run after
dropping the three set-sampled detail lists, up to order among equal-weight
edges; each detail list remains a duplicate-free sample of the pair overlap
of size min(cap, count) (cap 10 for topics and journals, 15 for
references).  Identical outputs, detail lists included, are guaranteed only
when the set-enumeration order (the hash seed) is also fixed; equal inputs
alone leave the detail lists and the weight-tie order free. -/
theorem c8_enum_invariance (enumS : List String → List String)
    (enumK : List (String × String) → List (String × String))
    (hS : validEnum String enumS) (hK : validEnum (String × String) enumK)
    (s : List ScholarFaculty) (o : List OAFaculty) (w : List WebsitePair) :
    (buildGraphE enumS enumK s o w).nodes = (buildGraph s o w).nodes ∧
    ((buildGraphE enumS enumK s o w).edges.map eSkel).Perm
      ((buildGraph s o w).edges.map eSkel) ∧
    ∀ ed ∈ (buildGraphE enumS enumK s o w).edges,
      ed.shared_topic_names.Nodup ∧
      ed.shared_topic_names.length = min 10 (ed.shared_topics.getD 0) ∧
      ed.shared_journal_names.Nodup ∧
      ed.shared_journal_names.length = min 10 (ed.shared_journals.getD 0) ∧
      ed.shared_ref_ids.Nodup ∧
      ed.shared_ref_ids.length = min 15 (ed.shared_refs.getD 0) :=
  ⟨mainNodesE_eq enumS hS s o, mainEdgesE_skel_perm enumS enumK hK s o w,
   mainEdgesE_details enumS hS enumK s o w⟩

open FacultyVis BuildGraph2 in
/-- Witness for c8_enum_invariance: hypotheses discharged at the reverse
enumeration, a permutation of every set, and the C8 scenario input. -/
theorem c8_enum_invariance_witness :
    validEnum String (fun l : List String => l.reverse) ∧
    validEnum (String × String) (fun l : List (String × String) => l.reverse) ∧
    (buildGraphE (fun l => l.reverse) (fun l => l.reverse) [] c8o []).nodes =
      (buildGraph [] c8o []).nodes ∧
    ∀ ed ∈ (buildGraphE (fun l => l.reverse) (fun l => l.reverse) [] c8o []).edges,
      ed.shared_topic_names.Nodup := by
  have hS : validEnum String (fun l : List String => l.reverse) :=
    fun l => List.reverse_perm l
  have hK : validEnum (String × String) (fun l : List (String × String) => l.reverse) :=
    fun l => List.reverse_perm l
  refine ⟨hS, hK, (c8_enum_invariance _ _ hS hK [] c8o []).1, ?_⟩
  intro ed hed
  exact ((c8_enum_invariance _ _ hS hK [] c8o []).2.2 ed hed).1

namespace BuildGraph2

open FacultyVis

/-- The insertion-order model is the identity-enumeration run: the reference
build is one valid run of the enumeration-explicit model. -/
theorem buildGraphE_id (s : List ScholarFaculty) (o : List OAFaculty)
    (w : List WebsitePair) :
    buildGraphE (fun l => l) (fun l => l) s o w = buildGraph s o w := rfl

end BuildGraph2
